import Mathlib

/-!
Verification of the `Array2Tree` converter (src/Array2Tree.ts).

The embedding models JavaScript records and the four traversal operations of
the `Array2Tree` class.  JavaScript objects are mutated in place by the code,
and the same object can occur at several places of an output (it is pushed by
reference), so the flatten operations are modelled with an explicit store:
the accumulator holds indices into the input list and a parallel store holds
the `$`-metadata fields written on each input object.  Recursion in the
source has no structural measure (it can diverge on cyclic input), so every
traversal takes a fuel argument and returns `none` when the fuel runs out;
`none` therefore marks a run that needs more depth than allowed, and any
`some` result is the value the JavaScript code computes.

JavaScript numbers are modelled as exact rationals extended with the special
values `NaN` and `±Infinity` (`JsNum`), so that the division by a zero weight
sum is represented faithfully.  Weight fields are modelled as either absent
(`none`, covering `undefined`/`null`, which `|| 0` turns into `0`) or a
rational number.
-/

/-- Model of a JavaScript field value as far as the converter inspects one:
`undefined`, `null`, a string, a (finite) number, or a boolean. -/
inductive Value where
  | undef : Value
  | null : Value
  | str : String → Value
  | num : ℚ → Value
  | bool : Bool → Value
deriving DecidableEq

/-- JavaScript `x == null` (equivalently `x == undefined`): true exactly for
`null` and `undefined`. -/
def Value.isNullish : Value → Bool
  | .undef => true
  | .null => true
  | _ => false

/-- JavaScript loose equality `x == ''`: true for the empty string, the
number `0`, and `false`; false for `null`, `undefined` and everything else
in the modelled value space. -/
def Value.eqEmptyStr : Value → Bool
  | .str s => s = ""
  | .num q => q = 0
  | .bool b => b = false
  | _ => false

/-- JavaScript strict equality `===` on the modelled value space. -/
def strictEq (a b : Value) : Bool := decide (a = b)

/-- Model of one input record.  The converter only ever reads the field named
by `idKey`, the field named by `parentKey`, and (for the weighted variant)
the field named by `weightKey`; all remaining fields are opaque and are
summarised by `tag`.  A `weight` of `none` models an absent/null weight
field, which `(obj[weightKey] || 0)` coerces to `0`. -/
structure Rec where
  id : Value
  parent : Value
  weight : Option ℚ
  tag : Nat
deriving DecidableEq

/-- Default record used for out-of-range index reads (never reached by the
traversals, which only produce indices below the input length). -/
def defaultRec : Rec := ⟨Value.null, Value.null, none, 0⟩

/-- Record of `arrIn` at index `i`. -/
def recAt (arrIn : List Rec) (i : Nat) : Rec := arrIn.getD i defaultRec

/-- Value of `(obj[weightKey] || 0)` for a record: the numeric weight, or `0`
when the field is absent (`undefined`/`null`). -/
def wOrZero (r : Rec) : ℚ := r.weight.getD 0

/-- Parent matching used by `array2Tree` and `array2SortByTree`
(src/Array2Tree.ts lines 29-34 and 80-85):
`x[parentKey] === startWith || (startWith == null && x[parentKey] == undefined)
|| (startWith == undefined && x[parentKey] == null)
|| (startWith == undefined && x[parentKey] == '')`.
The second and third disjuncts both reduce to "both sides nullish". -/
def matchBy (startWith pv : Value) : Bool :=
  strictEq pv startWith ||
    (startWith.isNullish && pv.isNullish) ||
    (startWith.isNullish && pv.eqEmptyStr)

/-- Parent matching used by `array2SortAndWeight`
(src/Array2Tree.ts lines 139-143).  Unlike `matchBy`, the source has no
`x[parentKey] == ''` disjunct there. -/
def matchW (startWith pv : Value) : Bool :=
  strictEq pv startWith ||
    (startWith.isNullish && pv.isNullish)

/-- Indices of the records matched as children of `startWith` under the
`array2Tree` / `array2SortByTree` matcher (the `filter` at lines 29 and 80). -/
def childrenIdxBy (arrIn : List Rec) (v : Value) : List Nat :=
  (List.range arrIn.length).filter (fun i => matchBy v (recAt arrIn i).parent)

/-- Indices of the records matched as children of `startWith` under the
`array2SortAndWeight` matcher (the `filter` at line 139). -/
def childrenIdxW (arrIn : List Rec) (v : Value) : List Nat :=
  (List.range arrIn.length).filter (fun i => matchW v (recAt arrIn i).parent)

/-- Model of a JavaScript number: a finite rational, `NaN`, or `±Infinity`. -/
inductive JsNum where
  | num : ℚ → JsNum
  | nan : JsNum
  | inf : JsNum
  | ninf : JsNum
deriving DecidableEq

/-- JavaScript division of two finite numbers: division by `0` yields `NaN`
for `0/0` and `±Infinity` otherwise. -/
def jsDiv (a b : ℚ) : JsNum :=
  if b = 0 then
    if a = 0 then JsNum.nan else if 0 < a then JsNum.inf else JsNum.ninf
  else JsNum.num (a / b)

/-- JavaScript multiplication on modelled numbers.  `NaN` is absorbing, and
`±Infinity` times zero is `NaN`. -/
def jsMul : JsNum → JsNum → JsNum
  | JsNum.num a, JsNum.num b => JsNum.num (a * b)
  | JsNum.nan, _ => JsNum.nan
  | _, JsNum.nan => JsNum.nan
  | JsNum.inf, JsNum.num b =>
      if b = 0 then JsNum.nan else if 0 < b then JsNum.inf else JsNum.ninf
  | JsNum.num a, JsNum.inf =>
      if a = 0 then JsNum.nan else if 0 < a then JsNum.inf else JsNum.ninf
  | JsNum.ninf, JsNum.num b =>
      if b = 0 then JsNum.nan else if 0 < b then JsNum.ninf else JsNum.inf
  | JsNum.num a, JsNum.ninf =>
      if a = 0 then JsNum.nan else if 0 < a then JsNum.ninf else JsNum.inf
  | JsNum.inf, JsNum.inf => JsNum.inf
  | JsNum.inf, JsNum.ninf => JsNum.ninf
  | JsNum.ninf, JsNum.inf => JsNum.ninf
  | JsNum.ninf, JsNum.ninf => JsNum.inf

/-- JavaScript addition on modelled numbers (used to state weight sums). -/
def jsAdd : JsNum → JsNum → JsNum
  | JsNum.num a, JsNum.num b => JsNum.num (a + b)
  | JsNum.nan, _ => JsNum.nan
  | _, JsNum.nan => JsNum.nan
  | JsNum.inf, JsNum.ninf => JsNum.nan
  | JsNum.ninf, JsNum.inf => JsNum.nan
  | JsNum.inf, _ => JsNum.inf
  | _, JsNum.inf => JsNum.inf
  | JsNum.ninf, _ => JsNum.ninf
  | _, JsNum.ninf => JsNum.ninf

/-! ### array2SortByTree (src/Array2Tree.ts lines 67-105) -/

/-- Metadata fields written on a record by one visit of `array2SortByTree`:
`$level`, `$index` and `$tree_index`. -/
structure SbtMeta where
  lvl : Nat
  idx : Nat
  treeIdx : String
deriving DecidableEq

/-- Store of the `$`-fields written in place on the input objects by
`array2SortByTree`: per input index, the last visit metadata (if visited) and
the `$is_leaf` flag (set once, never cleared). -/
structure SbtState where
  meta : List (Option SbtMeta)
  leaf : List Bool
deriving DecidableEq

/-- Initial store for an input of length `n`: nothing written yet. -/
def initSbt (n : Nat) : SbtState := ⟨List.replicate n none, List.replicate n false⟩

/-- Write the visit metadata of index `i` (models the three assignments at
lines 90-92). -/
def sbtWrite (st : SbtState) (i : Nat) (m : SbtMeta) : SbtState :=
  ⟨st.meta.set i (some m), st.leaf⟩

/-- Set the `$is_leaf` flag of index `i` (models `objCur.$is_leaf = 1`). -/
def sbtSetLeaf (st : SbtState) (i : Nat) : SbtState :=
  ⟨st.meta, st.leaf.set i true⟩

/-- Model of the leaf marking at lines 99-100: find the first object already
in the output whose `idKey` field is strictly equal to `startWith` and set
its `$is_leaf`. -/
def sbtMarkLeaf (arrIn : List Rec) (acc : List Nat) (v : Value) (st : SbtState) : SbtState :=
  match acc.find? (fun i => strictEq (recAt arrIn i).id v) with
  | some i => sbtSetLeaf st i
  | none => st

/-- The `$tree_index` string `(parentIndex ? parentIndex + '.' : '') + (idx)`.
The parent index is `none` at the root call and always a non-empty string on
recursive calls, so `Option` models its truthiness faithfully. -/
def joinIdx (pIdx : Option String) (k : Nat) : String :=
  (match pIdx with
   | some s => s ++ "."
   | none => "") ++ toString k

/-- The `parents.forEach` loop of `array2SortByTree` (lines 88-96): annotate
each matched record, push it, and run the continuation `next` (the recursive
call at the next depth) on its subtree. -/
def sbtGo (arrIn : List Rec)
    (next : Value → Nat → List Nat → Option String → SbtState → Option (List Nat × SbtState)) :
    Nat → Option String → List Nat → Nat → List Nat → SbtState →
    Option (List Nat × SbtState)
  | _, _, [], _, acc, st => some (acc, st)
  | lvl, pIdx, i :: rest, k, acc, st =>
    match next (recAt arrIn i).id (lvl + 1) (acc ++ [i]) (some (joinIdx pIdx k))
        (sbtWrite st i ⟨lvl, k, joinIdx pIdx k⟩) with
    | none => none
    | some (acc2, st2) => sbtGo arrIn next lvl pIdx rest (k + 1) acc2 st2

/-- Shallow embedding of `array2SortByTree` (lines 67-105).  Arguments after
the fuel mirror the source: `startWith`, `level`, the accumulator (as input
indices), `parentIndex`, plus the metadata store.  Fuel `0` means the
modelled recursion depth was exceeded and yields `none`. -/
def sbtAux (arrIn : List Rec) : Nat → Value → Nat → List Nat → Option String → SbtState →
    Option (List Nat × SbtState)
  | 0, _, _, _, _, _ => none
  | Nat.succ f, v, lvl, acc, pIdx, st =>
    if arrIn.length < acc.length then some (acc, st)
    else
      if (childrenIdxBy arrIn v).isEmpty then
        some (acc, sbtMarkLeaf arrIn acc v st)
      else
        sbtGo arrIn (sbtAux arrIn f) lvl pIdx (childrenIdxBy arrIn v) 1 acc st

/-- Fuel that always suffices for `array2SortByTree` (proved below): the
accumulator-length guard bounds the recursion depth by the input length. -/
def sbtFuel (arrIn : List Rec) : Nat := arrIn.length + 2

/-- The call `array2SortByTree(arrIn, idKey, parentKey, startWith)` with the
default `level = 1`, empty accumulator and absent `parentIndex`; total
because the guard bounds the depth (theorem `sbtAux_total`). -/
def array2SortByTree (arrIn : List Rec) (startWith : Value) : List Nat × SbtState :=
  (sbtAux arrIn (sbtFuel arrIn) startWith 1 [] none (initSbt arrIn.length)).getD
    ([], initSbt arrIn.length)

/-! ### array2SortAndWeight (src/Array2Tree.ts lines 124-180) -/

/-- Metadata written on a record by one visit of `array2SortAndWeight`:
`$sum_weight`, `$weight_percent`, `$parent_weight_percent`,
`$root_weight_percent`, `$level`, `$index`, `$tree_index`. -/
structure SawMeta where
  sumWeight : ℚ
  wp : JsNum
  pwp : JsNum
  rwp : JsNum
  lvl : Nat
  idx : Nat
  treeIdx : String
deriving DecidableEq

/-- Store of the `$`-fields written by `array2SortAndWeight`. -/
structure SawState where
  meta : List (Option SawMeta)
  leaf : List Bool
deriving DecidableEq

/-- Initial store for `array2SortAndWeight`. -/
def initSaw (n : Nat) : SawState := ⟨List.replicate n none, List.replicate n false⟩

/-- Write the visit metadata of index `i` (the assignments at lines 153-163). -/
def sawWrite (st : SawState) (i : Nat) (m : SawMeta) : SawState :=
  ⟨st.meta.set i (some m), st.leaf⟩

/-- Set the `$is_leaf` flag of index `i` (line 175). -/
def sawSetLeaf (st : SawState) (i : Nat) : SawState :=
  ⟨st.meta, st.leaf.set i true⟩

/-- Leaf marking of `array2SortAndWeight` (lines 174-175), identical in shape
to the one in `array2SortByTree`. -/
def sawMarkLeaf (arrIn : List Rec) (acc : List Nat) (v : Value) (st : SawState) : SawState :=
  match acc.find? (fun i => strictEq (recAt arrIn i).id v) with
  | some i => sawSetLeaf st i
  | none => st

/-- The sibling-group weight sum at line 147:
`parents.reduce((sum, obj) => sum + (obj[weightKey] || 0), 0)`. -/
def groupSum (arrIn : List Rec) (v : Value) : ℚ :=
  ((childrenIdxW arrIn v).map (fun i => wOrZero (recAt arrIn i))).sum

/-- The `parents.forEach` loop of `array2SortAndWeight` (lines 149-171):
write the weight fields and indices, push the record, and run the
continuation `next` with the record's `$root_weight_percent` as the
inherited share. -/
def sawGo (arrIn : List Rec)
    (next : Value → Nat → JsNum → List Nat → Option String → SawState →
      Option (List Nat × SawState)) :
    Nat → JsNum → ℚ → Option String → List Nat → Nat → List Nat → SawState →
    Option (List Nat × SawState)
  | _, _, _, _, [], _, acc, st => some (acc, st)
  | lvl, rw, sw, pIdx, i :: rest, k, acc, st =>
    match next (recAt arrIn i).id (lvl + 1)
        (jsMul rw (jsDiv (wOrZero (recAt arrIn i)) sw)) (acc ++ [i]) (some (joinIdx pIdx k))
        (sawWrite st i ⟨sw, jsDiv (wOrZero (recAt arrIn i)) sw, rw,
          jsMul rw (jsDiv (wOrZero (recAt arrIn i)) sw), lvl, k, joinIdx pIdx k⟩) with
    | none => none
    | some (acc2, st2) => sawGo arrIn next lvl rw sw pIdx rest (k + 1) acc2 st2

/-- Shallow embedding of `array2SortAndWeight` (lines 124-180).  `rw` is the
inherited `rootWeight` parameter.  Fuel `0` yields `none`. -/
def sawAux (arrIn : List Rec) : Nat → Value → Nat → JsNum → List Nat → Option String →
    SawState → Option (List Nat × SawState)
  | 0, _, _, _, _, _, _ => none
  | Nat.succ f, v, lvl, rw, acc, pIdx, st =>
    if arrIn.length < acc.length then some (acc, st)
    else
      if (childrenIdxW arrIn v).isEmpty then
        some (acc, sawMarkLeaf arrIn acc v st)
      else
        sawGo arrIn (sawAux arrIn f) lvl rw (groupSum arrIn v) pIdx
          (childrenIdxW arrIn v) 1 acc st

/-- The call `array2SortAndWeight(arrIn, idKey, parentKey, weightKey,
startWith)` with default `level = 1`, `rootWeight = 1`, empty accumulator and
absent `parentIndex`; total for the same reason as `array2SortByTree`
(theorem `sawAux_total`). -/
def array2SortAndWeight (arrIn : List Rec) (startWith : Value) : List Nat × SawState :=
  (sawAux arrIn (sbtFuel arrIn) startWith 1 (JsNum.num 1) [] none
      (initSaw arrIn.length)).getD ([], initSaw arrIn.length)

/-! ### array2Tree (src/Array2Tree.ts lines 20-49) -/

/-- Store of the `$`-fields written in place by `array2Tree`: per input
index, the `$level`, the `$children` value (as a list of input indices, once
assigned), and the `$is_leaf` flag. -/
structure A2tState where
  lvl : List (Option Nat)
  kids : List (Option (List Nat))
  leaf : List Bool
deriving DecidableEq

/-- Initial store for `array2Tree`. -/
def initA2t (n : Nat) : A2tState :=
  ⟨List.replicate n none, List.replicate n none, List.replicate n false⟩

/-- Write `$level` of index `i` (line 38). -/
def a2tSetLvl (st : A2tState) (i : Nat) (l : Nat) : A2tState :=
  ⟨st.lvl.set i (some l), st.kids, st.leaf⟩

/-- Write `$children` of index `i` (line 39). -/
def a2tSetKids (st : A2tState) (i : Nat) (ks : List Nat) : A2tState :=
  ⟨st.lvl, st.kids.set i (some ks), st.leaf⟩

/-- Set `$is_leaf` of index `i` (line 45). -/
def a2tSetLeaf (st : A2tState) (i : Nat) : A2tState :=
  ⟨st.lvl, st.kids, st.leaf.set i true⟩

/-- The `roots.forEach` loop of `array2Tree` (lines 37-40): set `$level`,
run the continuation `next` (the recursive call at the next depth), and
assign `$children` (with `[]` substituted for `undefined`). -/
def a2tGo (arrIn : List Rec)
    (next : Value → Nat → A2tState → Option (Option (List Nat) × A2tState)) :
    Nat → List Nat → A2tState → Option A2tState
  | _, [], st => some st
  | lvl, i :: rest, st =>
    match next (recAt arrIn i).id (lvl + 1) (a2tSetLvl st i lvl) with
    | none => none
    | some (sub, st2) => a2tGo arrIn next lvl rest (a2tSetKids st2 i (sub.getD []))

/-- Shallow embedding of `array2Tree` (lines 20-49).  Returns the list of
root indices (`undefined` is `none`) together with the final store.  The
source has no depth guard, so the fuel really can run out on cyclic input;
`none` marks such a run. -/
def a2tAux (arrIn : List Rec) : Nat → Value → Nat → A2tState →
    Option (Option (List Nat) × A2tState)
  | 0, _, _, _ => none
  | Nat.succ f, v, lvl, st =>
    if (childrenIdxBy arrIn v).isEmpty then
      match arrIn.findIdx? (fun r => strictEq r.id v) with
      | some j => some (none, a2tSetLeaf st j)
      | none => some (none, st)
    else
      match a2tGo arrIn (a2tAux arrIn f) lvl (childrenIdxBy arrIn v) st with
      | none => none
      | some st2 => some (some (childrenIdxBy arrIn v), st2)

/-- The call `array2Tree(arrIn, idKey, parentKey, startWith)` with the
default `level = 1`, at a given fuel. -/
def array2Tree (arrIn : List Rec) (fuel : Nat) (startWith : Value) :
    Option (Option (List Nat) × A2tState) :=
  a2tAux arrIn fuel startWith 1 (initA2t arrIn.length)

/-! ### tree2Array (src/Array2Tree.ts lines 194-218), value level

The tree handed to `tree2Array` is an object graph; for the round-trip claim
the input is the graph produced by `array2Tree`, read out of the final store
(`realizeT` below).  The node records whether the `$children` field is
present at all (`hasKids`), since JavaScript tests its truthiness — and an
empty array is truthy. -/

/-- A realized tree node: the underlying record (`rcd`), its `$level` (if
assigned), its `$is_leaf` flag, whether a `$children` field is present, and
the children. -/
inductive TNode where
  | mk : Rec → Option Nat → Bool → Bool → List TNode → TNode

/-- Underlying input record of a realized node. -/
def TNode.rcd : TNode → Rec
  | .mk r _ _ _ _ => r

/-- The node's `$level` field (if assigned). -/
def TNode.lvl : TNode → Option Nat
  | .mk _ l _ _ _ => l

/-- The node's `$is_leaf` flag. -/
def TNode.leaf : TNode → Bool
  | .mk _ _ b _ _ => b

/-- Whether the node carries a `$children` field at all. -/
def TNode.hasKids : TNode → Bool
  | .mk _ _ _ h _ => h

/-- The node's children (empty when the field is absent). -/
def TNode.kids : TNode → List TNode
  | .mk _ _ _ _ ks => ks

/-- Read the object for input index `i` out of the final `array2Tree` store,
following `$children` pointers up to the given depth. -/
def realizeT (arrIn : List Rec) (st : A2tState) : Nat → Nat → TNode
  | 0, i =>
      TNode.mk (recAt arrIn i) (st.lvl.getD i none) (st.leaf.getD i false)
        (st.kids.getD i none).isSome []
  | Nat.succ f, i =>
      TNode.mk (recAt arrIn i) (st.lvl.getD i none) (st.leaf.getD i false)
        (st.kids.getD i none).isSome
        (((st.kids.getD i none).getD []).map (realizeT arrIn st f))

/-- Realize a whole returned forest. -/
def realizeForest (arrIn : List Rec) (st : A2tState) (f : Nat) (idxs : List Nat) :
    List TNode :=
  idxs.map (realizeT arrIn st f)

/-- One output record of `tree2Array`: a copy of the node's fields without
the children field, plus the generated `$id` and `$parent_id`. -/
structure FlatNode where
  rcd : Rec
  lvlF : Option Nat
  leafF : Bool
  genId : Nat
  genPid : Option Nat
deriving DecidableEq

/-- Shallow embedding of `tree2Array` (lines 194-218) at the value level.
`pv` is the `parentValue` argument, `myId` the instance counter; the result
pairs the flat output with the updated counter.  The children are recursed
into whenever the children field is present (`if (el[keyNameOfSubs])`, where
even an empty array is truthy); the `JSON` deep copy of the children is the
identity at the value level. -/
def tree2Array : List TNode → Option Nat → Nat → Nat → List FlatNode × Nat
  | [], _, _, myId => ([], myId)
  | TNode.mk r l b hk ks :: rest, pv, lvl, myId =>
    let node : FlatNode := ⟨r, l, b, myId + 1, pv⟩
    if hk then
      let sub := tree2Array ks (some (myId + 1)) (lvl + 1) (myId + 1)
      let tail := tree2Array rest pv lvl sub.2
      (node :: (sub.1 ++ tail.1), tail.2)
    else
      let tail := tree2Array rest pv lvl (myId + 1)
      (node :: tail.1, tail.2)

/-! ### tree2Array, heap level (for the no-mutation claim)

To state that `tree2Array` does not mutate the caller's tree, the object
graph is modelled explicitly: a heap is a list of objects addressed by
position, allocation appends, and every field write is a `List.set` at an
address.  The source operations map one-to-one: `{ ...el }` allocates a
shallow copy (sharing the children address list), `node.$id = ++this.myId`
and `node.$parent_id = parentValue` write the copy, the `JSON` round trip
allocates a deep copy of the children, and `delete node[keyNameOfSubs]`
clears the children field of the copy. -/

/-- A heap object: payload record, optional children field (a list of
addresses), and the generated fields a copy may carry. -/
structure HObj where
  rcd : Rec
  kids : Option (List Nat)
  genId : Option Nat
  genPid : Option (Option Nat)
deriving DecidableEq

/-- Default heap object for out-of-range reads. -/
def defaultHObj : HObj := ⟨defaultRec, none, none, none⟩

/-- Write the `$id` field of the object at address `b`. -/
def heapSetGenId (h : List HObj) (b : Nat) (n : Nat) : List HObj :=
  h.set b { h.getD b defaultHObj with genId := some n }

/-- Write the `$parent_id` field of the object at address `b`. -/
def heapSetGenPid (h : List HObj) (b : Nat) (pv : Option Nat) : List HObj :=
  h.set b { h.getD b defaultHObj with genPid := some pv }

/-- Remove the children field of the object at address `b`
(`delete node[keyNameOfSubs]`). -/
def heapDelKids (h : List HObj) (b : Nat) : List HObj :=
  h.set b { h.getD b defaultHObj with kids := none }

/-- Copy each object of a list in order with the object-copy continuation
`next`, collecting the fresh addresses. -/
def dcGo (next : List HObj → Nat → Option (List HObj × Nat)) :
    List HObj → List Nat → Option (List HObj × List Nat)
  | h, [] => some (h, [])
  | h, a :: rest =>
    match next h a with
    | none => none
    | some (h1, b) =>
      match dcGo next h1 rest with
      | none => none
      | some (h2, bs) => some (h2, b :: bs)

/-- Deep copy (`JSON.parse(JSON.stringify(...))`) of a single object: copy
its children first, then allocate the copy at a fresh address.  Fueled,
since an arbitrary object graph may be cyclic. -/
def deepCopyObj : Nat → List HObj → Nat → Option (List HObj × Nat)
  | 0, _, _ => none
  | Nat.succ f, h, a =>
    match (h.getD a defaultHObj).kids with
    | none => some (h ++ [h.getD a defaultHObj], h.length)
    | some ks =>
      match dcGo (deepCopyObj f) h ks with
      | none => none
      | some (h1, ks2) =>
        some (h1 ++ [{ h.getD a defaultHObj with kids := some ks2 }], h1.length)

/-- Deep copy of a list of objects. -/
def deepCopyList (f : Nat) : List HObj → List Nat → Option (List HObj × List Nat) :=
  dcGo (deepCopyObj f)

/-- The node loop of the heap-level `tree2Array`: `dcopy` is the deep copy
of the children array and `next` the recursive call at the next depth. -/
def t2aGo (dcopy : List HObj → List Nat → Option (List HObj × List Nat))
    (next : List HObj → List Nat → Option Nat → Nat → Nat →
      Option (List HObj × List Nat × Nat)) :
    List HObj → List Nat → Option Nat → Nat → Nat → Option (List HObj × List Nat × Nat)
  | h, [], _, _, myId => some (h, [], myId)
  | h, a :: rest, pv, lvl, myId =>
    let el := h.getD a defaultHObj
    let b := h.length
    let h1 := heapSetGenPid (heapSetGenId (h ++ [el]) b (myId + 1)) b pv
    match el.kids with
    | some ks =>
      match dcopy h1 ks with
      | none => none
      | some (h2, ks2) =>
        match next (heapDelKids h2 b) ks2 (some (myId + 1)) (lvl + 1) (myId + 1) with
        | none => none
        | some (h3, subOut, id2) =>
          match t2aGo dcopy next h3 rest pv lvl id2 with
          | none => none
          | some (h4, restOut, id3) => some (h4, b :: (subOut ++ restOut), id3)
    | none =>
      match t2aGo dcopy next h1 rest pv lvl (myId + 1) with
      | none => none
      | some (h2, restOut, id2) => some (h2, b :: restOut, id2)

/-- Shallow embedding of `tree2Array` at the heap level.  `addrs` are the
addresses of this call's roots; returns the updated heap, the addresses of
the flat output copies, and the updated counter. -/
def t2aHeap : Nat → List HObj → List Nat → Option Nat → Nat → Nat →
    Option (List HObj × List Nat × Nat)
  | 0, h, [], _, _, myId => some (h, [], myId)
  | 0, _, _ :: _, _, _, _ => none
  | Nat.succ f, h, addrs, pv, lvl, myId =>
    t2aGo (deepCopyList (Nat.succ f)) (t2aHeap f) h addrs pv lvl myId

/-! ### Basic facts about the flatten recursions -/

/-- Statement: a successful `sbtAux` run returns the input accumulator with a
suffix appended. -/
def SbtAuxExtends (arrIn : List Rec) (f : Nat) : Prop :=
  ∀ v lvl acc pIdx st acc2 st2,
    sbtAux arrIn f v lvl acc pIdx st = some (acc2, st2) → ∃ t, acc2 = acc ++ t

/-- Statement: a successful `sbtLoop` run returns the input accumulator with
a suffix appended. -/
def SbtLoopExtends (arrIn : List Rec) (f : Nat) : Prop :=
  ∀ is lvl pIdx k acc st acc2 st2,
    sbtGo arrIn (sbtAux arrIn f) lvl pIdx is k acc st = some (acc2, st2) → ∃ t, acc2 = acc ++ t

/-- Statement: `sbtAux` cannot run out of fuel as long as the fuel dominates
the gap between input length and accumulator length (the guard at line 79
bounds the recursion depth). -/
def SbtAuxTotal (arrIn : List Rec) (f : Nat) : Prop :=
  ∀ v lvl acc pIdx st, 1 ≤ f → arrIn.length + 2 ≤ f + acc.length →
    (sbtAux arrIn f v lvl acc pIdx st).isSome

/-- Statement: fuel sufficiency for `sbtLoop`. -/
def SbtLoopTotal (arrIn : List Rec) (f : Nat) : Prop :=
  ∀ is lvl pIdx k acc st, 1 ≤ f → arrIn.length + 1 ≤ f + acc.length →
    (sbtGo arrIn (sbtAux arrIn f) lvl pIdx is k acc st).isSome

/-- Statement: accumulator extension for `sawAux`. -/
def SawAuxExtends (arrIn : List Rec) (f : Nat) : Prop :=
  ∀ v lvl rw acc pIdx st acc2 st2,
    sawAux arrIn f v lvl rw acc pIdx st = some (acc2, st2) → ∃ t, acc2 = acc ++ t

/-- Statement: accumulator extension for `sawLoop`. -/
def SawLoopExtends (arrIn : List Rec) (f : Nat) : Prop :=
  ∀ is lvl rw sw pIdx k acc st acc2 st2,
    sawGo arrIn (sawAux arrIn f) lvl rw sw pIdx is k acc st = some (acc2, st2) → ∃ t, acc2 = acc ++ t

/-- Statement: fuel sufficiency for `sawAux`. -/
def SawAuxTotal (arrIn : List Rec) (f : Nat) : Prop :=
  ∀ v lvl rw acc pIdx st, 1 ≤ f → arrIn.length + 2 ≤ f + acc.length →
    (sawAux arrIn f v lvl rw acc pIdx st).isSome

/-- Statement: fuel sufficiency for `sawLoop`. -/
def SawLoopTotal (arrIn : List Rec) (f : Nat) : Prop :=
  ∀ is lvl rw sw pIdx k acc st, 1 ≤ f → arrIn.length + 1 ≤ f + acc.length →
    (sawGo arrIn (sawAux arrIn f) lvl rw sw pIdx is k acc st).isSome

/-- The `$weight_percent` a record receives at any visit, expressed from the
input alone: own weight over the weight sum of its canonical sibling group. -/
def specWp (arrIn : List Rec) (i : Nat) : JsNum :=
  jsDiv (wOrZero (recAt arrIn i)) (groupSum arrIn (recAt arrIn i).parent)

/-- Invariant of the `array2SortAndWeight` store: every visited record holds
its canonical sibling weight sum and weight share. -/
def SawInv (arrIn : List Rec) (st : SawState) : Prop :=
  ∀ i m, st.meta.getD i none = some m →
    m.sumWeight = groupSum arrIn (recAt arrIn i).parent ∧ m.wp = specWp arrIn i

/-- Every record already emitted has its metadata assigned. -/
def SawAssigned (st : SawState) (acc : List Nat) : Prop :=
  ∀ i ∈ acc, (st.meta.getD i none).isSome

/-- Statement: `sawAux` preserves the weight invariant and assignment. -/
def SawAuxInv (arrIn : List Rec) (f : Nat) : Prop :=
  ∀ v lvl rw acc pIdx st acc2 st2,
    sawAux arrIn f v lvl rw acc pIdx st = some (acc2, st2) →
    st.meta.length = arrIn.length → SawInv arrIn st → SawAssigned st acc →
    st2.meta.length = arrIn.length ∧ SawInv arrIn st2 ∧ SawAssigned st2 acc2

/-- Statement: `sawLoop` preserves the weight invariant and assignment, for
index lists within range whose common weight sum is canonical. -/
def SawLoopInv (arrIn : List Rec) (f : Nat) : Prop :=
  ∀ is lvl rw sw pIdx k acc st acc2 st2,
    sawGo arrIn (sawAux arrIn f) lvl rw sw pIdx is k acc st = some (acc2, st2) →
    st.meta.length = arrIn.length → SawInv arrIn st → SawAssigned st acc →
    (∀ i ∈ is, i < arrIn.length ∧ sw = groupSum arrIn (recAt arrIn i).parent) →
    st2.meta.length = arrIn.length ∧ SawInv arrIn st2 ∧ SawAssigned st2 acc2

/-- Statement: every new accumulator member of a `sawAux` run has its whole
canonical sibling group inside the final accumulator. -/
def SawAuxSib (arrIn : List Rec) (f : Nat) : Prop :=
  ∀ v lvl rw acc pIdx st acc2 st2,
    sawAux arrIn f v lvl rw acc pIdx st = some (acc2, st2) →
    ∀ j ∈ acc2, j ∈ acc ∨ (∀ j2 ∈ childrenIdxW arrIn (recAt arrIn j).parent, j2 ∈ acc2)

/-- Statement: sibling-group closure through `sawLoop`. -/
def SawLoopSib (arrIn : List Rec) (f : Nat) : Prop :=
  ∀ is lvl rw sw pIdx k acc st acc2 st2,
    sawGo arrIn (sawAux arrIn f) lvl rw sw pIdx is k acc st = some (acc2, st2) →
    (∀ i ∈ is, ∀ j2 ∈ childrenIdxW arrIn (recAt arrIn i).parent, j2 ∈ is ∨ j2 ∈ acc) →
    ∀ j ∈ acc2, j ∈ acc ∨ (∀ j2 ∈ childrenIdxW arrIn (recAt arrIn j).parent, j2 ∈ acc2)

/-! ### Example inputs used by witnesses and counterexamples -/

/-- A basic well-formed forest: one root with two weighted children (the
concrete scenario of the specification). -/
def exBasic : List Rec :=
  [⟨Value.num 1, Value.null, some 100, 0⟩,
   ⟨Value.num 2, Value.num 1, some 60, 1⟩,
   ⟨Value.num 3, Value.num 1, some 40, 2⟩]

/-- A single orphan record: its parent value matches no identifier and is
not a root marker. -/
def exOrphan : List Rec := [⟨Value.num 1, Value.num 2, none, 0⟩]

/-- A single root record with no weight field. -/
def exZeroW : List Rec := [⟨Value.num 1, Value.null, none, 0⟩]

/-- A single record whose parent field holds the empty string. -/
def exEmptyStr : List Rec := [⟨Value.num 1, Value.str "", none, 0⟩]

/-- Unique identifiers and acyclic parent references, yet the identifier `0`
makes the loose `== ''` comparison match the record with parent `0` at the
root level as well, duplicating it and starving the guard before the last
record's leaf call. -/
def exGuard : List Rec :=
  [⟨Value.num 0, Value.null, none, 0⟩,
   ⟨Value.num 1, Value.num 0, none, 1⟩,
   ⟨Value.str "zz", Value.null, none, 2⟩]

/-- Two records sharing one identifier. -/
def exDup : List Rec :=
  [⟨Value.num 1, Value.null, none, 0⟩, ⟨Value.num 1, Value.null, none, 1⟩]

/-- A single record whose identifier is `null` (unique, acyclic): matching
its id re-enters the root group. -/
def exNullId : List Rec := [⟨Value.null, Value.null, some 0, 0⟩]

/-! ### Well-formedness of an input collection

The specification's "well-formed" inputs are forests: identifiers are
pairwise distinct non-nullish values, every parent reference is either a
root marker (nullish) or resolves to exactly one record — and is not one of
the falsy values that the loose `== ''` comparison of the matcher would
confuse with an absent parent — and following parent references always
terminates (no cycles). -/

/-- Length of the parent chain starting at index `i`: one step follows the
parent reference to the first record holding that identifier; nullish or
unresolvable parents end the chain.  `none` means the fuel ran out (which on
fuel `arrIn.length` happens exactly on a cycle). -/
def chainLen (arrIn : List Rec) : Nat → Nat → Option Nat
  | 0, _ => none
  | Nat.succ f, i =>
    if (recAt arrIn i).parent.isNullish then some 0
    else
      match arrIn.findIdx? (fun r => strictEq r.id (recAt arrIn i).parent) with
      | none => some 0
      | some j => (chainLen arrIn f j).map (fun n => n + 1)

/-- All identifiers pairwise distinct. -/
def uniqueIdsB (arrIn : List Rec) : Bool := decide (arrIn.map Rec.id).Nodup

/-- No identifier is `null`/`undefined`. -/
def idsLiveB (arrIn : List Rec) : Bool := arrIn.all (fun r => !r.id.isNullish)

/-- Every parent reference is either a root marker or a value that resolves
to some record's identifier without being loosely equal to the empty string. -/
def parentsOkB (arrIn : List Rec) : Bool :=
  arrIn.all (fun r =>
    r.parent.isNullish ||
      (!r.parent.eqEmptyStr && arrIn.any (fun r2 => strictEq r2.id r.parent)))

/-- Following parent references terminates for every record (acyclicity). -/
def chainTotalB (arrIn : List Rec) : Bool :=
  (List.range arrIn.length).all (fun i => (chainLen arrIn arrIn.length i).isSome)

/-- A well-formed forest. -/
def wfB (arrIn : List Rec) : Bool :=
  uniqueIdsB arrIn && idsLiveB arrIn && parentsOkB arrIn && chainTotalB arrIn

/-! ### Heap preservation for the heap-level tree2Array -/

/-- The heap `h2` extends `h`: same objects at all existing addresses. -/
def HeapPres (h h2 : List HObj) : Prop :=
  h.length ≤ h2.length ∧ ∀ a, a < h.length → h2[a]? = h[a]?

/-- An example heap: a root object at address `1` whose children field holds
the child object at address `0`. -/
def exHeap : List HObj :=
  [⟨⟨Value.num 2, Value.num 1, none, 1⟩, none, none, none⟩,
   ⟨⟨Value.num 1, Value.null, none, 0⟩, some [0], none, none⟩]

/-- Combined invariant of the `array2Tree` store: assigned `$children`
values are canonical, `$is_leaf` is only set on childless records, assigned
children point to assigned records, and — under unique identifiers — a
record whose assigned `$children` is empty carries `$is_leaf`. -/
def A2tInv (arrIn : List Rec) (st : A2tState) : Prop :=
  (∀ i l, st.kids.getD i none = some l → l = childrenIdxBy arrIn (recAt arrIn i).id) ∧
  (∀ i, st.leaf.getD i false = true → childrenIdxBy arrIn (recAt arrIn i).id = []) ∧
  (∀ i l, st.kids.getD i none = some l → ∀ j ∈ l, (st.kids.getD j none).isSome = true) ∧
  (uniqueIdsB arrIn = true → ∀ i, i < arrIn.length → st.kids.getD i none = some [] →
    st.leaf.getD i false = true)

/-- Statement: one `a2tAux` call preserves the store invariant, assignments
and leaf marks are monotone, a defined result is the nonempty canonical
child group with all members assigned, and an undefined result marks the
records carrying `startWith` as identifier (under unique identifiers). -/
def A2tStep (arrIn : List Rec) (f : Nat) : Prop :=
  ∀ v lvl st r st2,
    a2tAux arrIn f v lvl st = some (r, st2) →
    st.kids.length = arrIn.length → st.leaf.length = arrIn.length → A2tInv arrIn st →
    (st2.kids.length = arrIn.length ∧ st2.leaf.length = arrIn.length) ∧ A2tInv arrIn st2 ∧
    (∀ i, (st.kids.getD i none).isSome = true → (st2.kids.getD i none).isSome = true) ∧
    (∀ i, st.leaf.getD i false = true → st2.leaf.getD i false = true) ∧
    (∀ idxs, r = some idxs → idxs = childrenIdxBy arrIn v ∧ idxs ≠ [] ∧
      ∀ j ∈ idxs, (st2.kids.getD j none).isSome = true) ∧
    (r = none → childrenIdxBy arrIn v = [] ∧
      (uniqueIdsB arrIn = true → ∀ i, i < arrIn.length → (recAt arrIn i).id = v →
        st2.leaf.getD i false = true))

/-- Statement: the invariant through the `roots.forEach` loop of
`array2Tree`. -/
def A2tStepGo (arrIn : List Rec) (f : Nat) : Prop :=
  ∀ is lvl st st2,
    a2tGo arrIn (a2tAux arrIn f) lvl is st = some st2 →
    (∀ i ∈ is, i < arrIn.length) →
    st.kids.length = arrIn.length → st.leaf.length = arrIn.length → A2tInv arrIn st →
    (st2.kids.length = arrIn.length ∧ st2.leaf.length = arrIn.length) ∧ A2tInv arrIn st2 ∧
    (∀ i, (st.kids.getD i none).isSome = true → (st2.kids.getD i none).isSome = true) ∧
    (∀ i, st.leaf.getD i false = true → st2.leaf.getD i false = true) ∧
    (∀ i ∈ is, (st2.kids.getD i none).isSome = true)

/-- All nodes of a forest in pre-order. -/
def tnodesList : List TNode → List TNode
  | [] => []
  | TNode.mk r l b h ks :: rest =>
    TNode.mk r l b h ks :: (tnodesList ks ++ tnodesList rest)

/-! ### Multiplicative weight chains (array2SortAndWeight) -/

/-- The cumulative root share a record should carry: its own weight share
multiplied along the parent chain, left-associated from the root exactly as
the code multiplies (`rootWeight * share` at each level). -/
def chainProd (arrIn : List Rec) : Nat → Nat → JsNum
  | 0, i => jsMul (JsNum.num 1) (specWp arrIn i)
  | Nat.succ f, i =>
    if (recAt arrIn i).parent.isNullish then jsMul (JsNum.num 1) (specWp arrIn i)
    else
      match arrIn.findIdx? (fun r => strictEq r.id (recAt arrIn i).parent) with
      | none => jsMul (JsNum.num 1) (specWp arrIn i)
      | some j => jsMul (chainProd arrIn f j) (specWp arrIn i)

/-- The chain product at the canonical fuel. -/
def chainProdN (arrIn : List Rec) (i : Nat) : JsNum := chainProd arrIn arrIn.length i

/-- The parent share a record should carry: `1` at the top level, the parent
record's cumulative root share otherwise. -/
def parentShare (arrIn : List Rec) (i : Nat) : JsNum :=
  if (recAt arrIn i).parent.isNullish then JsNum.num 1
  else
    match arrIn.findIdx? (fun r => strictEq r.id (recAt arrIn i).parent) with
    | none => JsNum.num 1
    | some j => chainProdN arrIn j

/-- Root-first list of the records on the path from the root to `i`,
including `i`. -/
def pathIdxs (arrIn : List Rec) : Nat → Nat → List Nat
  | 0, i => [i]
  | Nat.succ f, i =>
    if (recAt arrIn i).parent.isNullish then [i]
    else
      match arrIn.findIdx? (fun r => strictEq r.id (recAt arrIn i).parent) with
      | none => [i]
      | some j => pathIdxs arrIn f j ++ [i]

/-- Invariant of the weight-chain fields: every visited record's
`$parent_weight_percent` is its canonical parent share and its
`$root_weight_percent` its canonical chain product. -/
def ChainInv (arrIn : List Rec) (st : SawState) : Prop :=
  ∀ i m, st.meta.getD i none = some m →
    m.pwp = parentShare arrIn i ∧ m.rwp = chainProdN arrIn i

/-- Every visited record with a non-root parent has an assigned record
carrying that parent identifier. -/
def ParentAssigned (arrIn : List Rec) (st : SawState) : Prop :=
  ∀ i m, st.meta.getD i none = some m → (recAt arrIn i).parent.isNullish = false →
    ∃ j, j < arrIn.length ∧ (recAt arrIn j).id = (recAt arrIn i).parent ∧
      (st.meta.getD j none).isSome = true

/-- A call of the weighted flatten is sound: it is either the root call with
inherited share `1`, or the recursion below an assigned record whose
identifier is `startWith` and whose chain product is the inherited share. -/
def CallOKA (arrIn : List Rec) (v : Value) (rw : JsNum) (st : SawState) : Prop :=
  (v = Value.null ∧ rw = JsNum.num 1) ∨
    (∃ j, j < arrIn.length ∧ v = (recAt arrIn j).id ∧ rw = chainProdN arrIn j ∧
      (st.meta.getD j none).isSome = true)

/-- Statement: soundness of the chain fields through `sawAux`. -/
def SawChainAux (arrIn : List Rec) (f : Nat) : Prop :=
  ∀ v lvl rw acc pIdx st acc2 st2,
    sawAux arrIn f v lvl rw acc pIdx st = some (acc2, st2) →
    st.meta.length = arrIn.length → CallOKA arrIn v rw st →
    ChainInv arrIn st → ParentAssigned arrIn st →
    st2.meta.length = arrIn.length ∧ ChainInv arrIn st2 ∧ ParentAssigned arrIn st2 ∧
    (∀ i, (st.meta.getD i none).isSome = true → (st2.meta.getD i none).isSome = true)

/-- Statement: soundness of the chain fields through `sawGo`, for a sibling
group whose write values are already known to be canonical. -/
def SawChainGo (arrIn : List Rec) (f : Nat) : Prop :=
  ∀ is lvl rw sw pIdx k acc st acc2 st2,
    sawGo arrIn (sawAux arrIn f) lvl rw sw pIdx is k acc st = some (acc2, st2) →
    st.meta.length = arrIn.length →
    (∀ i ∈ is, i < arrIn.length ∧ rw = parentShare arrIn i ∧
      jsMul rw (jsDiv (wOrZero (recAt arrIn i)) sw) = chainProdN arrIn i ∧
      ((recAt arrIn i).parent.isNullish = false →
        ∃ j, j < arrIn.length ∧ (recAt arrIn j).id = (recAt arrIn i).parent ∧
          (st.meta.getD j none).isSome = true)) →
    ChainInv arrIn st → ParentAssigned arrIn st →
    st2.meta.length = arrIn.length ∧ ChainInv arrIn st2 ∧ ParentAssigned arrIn st2 ∧
    (∀ i, (st.meta.getD i none).isSome = true → (st2.meta.getD i none).isSome = true)

/-- Pre-order list of the indices of all descendants of `startWith`:
the matched children in order, each followed by its own subtree. -/
def descList (arrIn : List Rec) : Nat → Value → List Nat
  | 0, _ => []
  | Nat.succ f, v =>
    (childrenIdxW arrIn v).flatMap
      (fun i => i :: descList arrIn f (recAt arrIn i).id)

/-- One parent hop: the first record holding the parent identifier, when the
parent is not a root marker. -/
def hopIdx (arrIn : List Rec) (j : Nat) : Option Nat :=
  if (recAt arrIn j).parent.isNullish then none
  else arrIn.findIdx? (fun r => strictEq r.id (recAt arrIn j).parent)

/-- Iterated parent hops. -/
def iterHop (arrIn : List Rec) : Nat → Nat → Option Nat
  | 0, j => some j
  | Nat.succ k, j =>
    match hopIdx arrIn j with
    | none => none
    | some j2 => iterHop arrIn k j2

/-- Canonical chain length of a record (total on acyclic input). -/
def dVal (arrIn : List Rec) (i : Nat) : Nat :=
  (chainLen arrIn arrIn.length i).getD 0

/-- Validity of a `startWith` value during a well-formed traversal: the root
marker, or the identifier of some record. -/
def ValidV (arrIn : List Rec) (v : Value) : Prop :=
  v = Value.null ∨ ∃ w, w < arrIn.length ∧ v = (recAt arrIn w).id

/-- Statement: on a well-formed forest, `sbtAux` appends exactly the
descendant list of `startWith` to the accumulator, and every childless
record of the result carries `$is_leaf` (except a pending `startWith`
record on entry, which the call itself resolves). -/
def SbtTravAux (arrIn : List Rec) (f : Nat) : Prop :=
  ∀ v lvl acc pIdx st acc2 st2,
    sbtAux arrIn f v lvl acc pIdx st = some (acc2, st2) →
    ValidV arrIn v →
    (acc ++ descList arrIn f v).Nodup →
    (∀ x ∈ acc ++ descList arrIn f v, x < arrIn.length) →
    (∀ q ∈ acc, childrenIdxW arrIn (recAt arrIn q).id = [] →
      st.leaf.getD q false = true ∨ (recAt arrIn q).id = v) →
    st.leaf.length = arrIn.length →
    acc2 = acc ++ descList arrIn f v ∧
    (∀ q ∈ acc2, childrenIdxW arrIn (recAt arrIn q).id = [] →
      st2.leaf.getD q false = true) ∧
    (∀ q, st.leaf.getD q false = true → st2.leaf.getD q false = true) ∧
    st2.leaf.length = arrIn.length

/-- Statement: the same through the sibling loop of `array2SortByTree`. -/
def SbtTravGo (arrIn : List Rec) (f : Nat) : Prop :=
  ∀ is lvl pIdx k acc st acc2 st2,
    sbtGo arrIn (sbtAux arrIn f) lvl pIdx is k acc st = some (acc2, st2) →
    (∀ c ∈ is, c < arrIn.length) →
    (acc ++ is.flatMap (fun c => c :: descList arrIn f (recAt arrIn c).id)).Nodup →
    (∀ x ∈ acc ++ is.flatMap (fun c => c :: descList arrIn f (recAt arrIn c).id),
      x < arrIn.length) →
    (∀ q ∈ acc, childrenIdxW arrIn (recAt arrIn q).id = [] →
      st.leaf.getD q false = true) →
    st.leaf.length = arrIn.length →
    acc2 = acc ++ is.flatMap (fun c => c :: descList arrIn f (recAt arrIn c).id) ∧
    (∀ q ∈ acc2, childrenIdxW arrIn (recAt arrIn q).id = [] →
      st2.leaf.getD q false = true) ∧
    (∀ q, st.leaf.getD q false = true → st2.leaf.getD q false = true) ∧
    st2.leaf.length = arrIn.length

/-- Statement: the traversal ladder of `sbt_trav`, for `sawAux`. -/
def SawTravAux (arrIn : List Rec) (f : Nat) : Prop :=
  ∀ v lvl rw acc pIdx st acc2 st2,
    sawAux arrIn f v lvl rw acc pIdx st = some (acc2, st2) →
    ValidV arrIn v →
    (acc ++ descList arrIn f v).Nodup →
    (∀ x ∈ acc ++ descList arrIn f v, x < arrIn.length) →
    (∀ q ∈ acc, childrenIdxW arrIn (recAt arrIn q).id = [] →
      st.leaf.getD q false = true ∨ (recAt arrIn q).id = v) →
    st.leaf.length = arrIn.length →
    acc2 = acc ++ descList arrIn f v ∧
    (∀ q ∈ acc2, childrenIdxW arrIn (recAt arrIn q).id = [] →
      st2.leaf.getD q false = true) ∧
    (∀ q, st.leaf.getD q false = true → st2.leaf.getD q false = true) ∧
    st2.leaf.length = arrIn.length

/-- Statement: the same through the sibling loop of `array2SortAndWeight`. -/
def SawTravGo (arrIn : List Rec) (f : Nat) : Prop :=
  ∀ is lvl rw sw pIdx k acc st acc2 st2,
    sawGo arrIn (sawAux arrIn f) lvl rw sw pIdx is k acc st = some (acc2, st2) →
    (∀ c ∈ is, c < arrIn.length) →
    (acc ++ is.flatMap (fun c => c :: descList arrIn f (recAt arrIn c).id)).Nodup →
    (∀ x ∈ acc ++ is.flatMap (fun c => c :: descList arrIn f (recAt arrIn c).id),
      x < arrIn.length) →
    (∀ q ∈ acc, childrenIdxW arrIn (recAt arrIn q).id = [] →
      st.leaf.getD q false = true) →
    st.leaf.length = arrIn.length →
    acc2 = acc ++ is.flatMap (fun c => c :: descList arrIn f (recAt arrIn c).id) ∧
    (∀ q ∈ acc2, childrenIdxW arrIn (recAt arrIn q).id = [] →
      st2.leaf.getD q false = true) ∧
    (∀ q, st.leaf.getD q false = true → st2.leaf.getD q false = true) ∧
    st2.leaf.length = arrIn.length

/-- Statement: `sbtAux` only ever sets `$is_leaf` on records whose identifier
matches no children (converse of leaf completeness), for any input. -/
def SbtLeafCanonAux (arrIn : List Rec) (f : Nat) : Prop :=
  ∀ v lvl acc pIdx st acc2 st2,
    sbtAux arrIn f v lvl acc pIdx st = some (acc2, st2) →
    (∀ q, st.leaf.getD q false = true → childrenIdxBy arrIn (recAt arrIn q).id = []) →
    ∀ q, st2.leaf.getD q false = true → childrenIdxBy arrIn (recAt arrIn q).id = []

/-- Statement: the same through the sibling loop. -/
def SbtLeafCanonGo (arrIn : List Rec) (f : Nat) : Prop :=
  ∀ is lvl pIdx k acc st acc2 st2,
    sbtGo arrIn (sbtAux arrIn f) lvl pIdx is k acc st = some (acc2, st2) →
    (∀ q, st.leaf.getD q false = true → childrenIdxBy arrIn (recAt arrIn q).id = []) →
    ∀ q, st2.leaf.getD q false = true → childrenIdxBy arrIn (recAt arrIn q).id = []

/-- Statement: the leaf-canonical ladder for `sawAux` (its matcher lacks the
`== ''` clause, so children are the `childrenIdxW` group). -/
def SawLeafCanonAux (arrIn : List Rec) (f : Nat) : Prop :=
  ∀ v lvl rw acc pIdx st acc2 st2,
    sawAux arrIn f v lvl rw acc pIdx st = some (acc2, st2) →
    (∀ q, st.leaf.getD q false = true → childrenIdxW arrIn (recAt arrIn q).id = []) →
    ∀ q, st2.leaf.getD q false = true → childrenIdxW arrIn (recAt arrIn q).id = []

/-- Statement: the same through the sibling loop. -/
def SawLeafCanonGo (arrIn : List Rec) (f : Nat) : Prop :=
  ∀ is lvl rw sw pIdx k acc st acc2 st2,
    sawGo arrIn (sawAux arrIn f) lvl rw sw pIdx is k acc st = some (acc2, st2) →
    (∀ q, st.leaf.getD q false = true → childrenIdxW arrIn (recAt arrIn q).id = []) →
    ∀ q, st2.leaf.getD q false = true → childrenIdxW arrIn (recAt arrIn q).id = []

/-- Depth of a `startWith` value: one past the parent-chain length of the
record carrying it as identifier, `0` when no record does (in particular for
the root marker on inputs with live identifiers). -/
def dvv (arrIn : List Rec) (v : Value) : Nat :=
  match arrIn.findIdx? (fun r => strictEq r.id v) with
  | some w => dVal arrIn w + 1
  | none => 0

/-- Statement: fuel sufficiency for `a2tAux` on a well-formed forest — the
fuel needed below a `startWith` value shrinks with that value's depth. -/
def A2tTotalAux (arrIn : List Rec) (f : Nat) : Prop :=
  ∀ v lvl st, ValidV arrIn v → arrIn.length + 1 ≤ f + dvv arrIn v →
    (a2tAux arrIn f v lvl st).isSome = true

/-- Statement: fuel sufficiency through the `roots.forEach` loop. -/
def A2tTotalGo (arrIn : List Rec) (f : Nat) : Prop :=
  ∀ is lvl st, (∀ c ∈ is, c < arrIn.length ∧ arrIn.length ≤ f + dVal arrIn c) →
    (a2tGo arrIn (a2tAux arrIn f) lvl is st).isSome = true

/-- The accumulator only ever grows, for both functions of the
`array2SortByTree` recursion. -/
theorem sbt_extends (arrIn : List Rec) :
    ∀ f, SbtAuxExtends arrIn f ∧ SbtLoopExtends arrIn f := by
  have loopOf : ∀ f, SbtAuxExtends arrIn f → SbtLoopExtends arrIn f := by
    intro f hP is
    induction is with
    | nil =>
      intro lvl pIdx k acc st acc2 st2 h
      simp [sbtGo] at h
      exact ⟨[], by simp [h.1]⟩
    | cons i rest ihr =>
      intro lvl pIdx k acc st acc2 st2 h
      rw [sbtGo] at h
      cases hcall : sbtAux arrIn f (recAt arrIn i).id (lvl + 1) (acc ++ [i])
          (some (joinIdx pIdx k)) (sbtWrite st i ⟨lvl, k, joinIdx pIdx k⟩) with
      | none => rw [hcall] at h; simp at h
      | some p =>
        rw [hcall] at h
        obtain ⟨t1, ht1⟩ := hP _ _ _ _ _ _ _ hcall
        obtain ⟨t2, ht2⟩ := ihr _ _ _ _ _ _ _ h
        exact ⟨[i] ++ t1 ++ t2, by simp [ht2, ht1]⟩
  intro f
  induction f with
  | zero =>
    have hP : SbtAuxExtends arrIn 0 := by
      intro v lvl acc pIdx st acc2 st2 h
      simp [sbtAux] at h
    exact ⟨hP, loopOf 0 hP⟩
  | succ f ih =>
    have hP : SbtAuxExtends arrIn (f + 1) := by
      intro v lvl acc pIdx st acc2 st2 h
      rw [sbtAux] at h
      by_cases hg : arrIn.length < acc.length
      · simp [hg] at h
        exact ⟨[], by simp [h.1]⟩
      · simp [hg] at h
        by_cases he : childrenIdxBy arrIn v = []
        · simp [he] at h
          exact ⟨[], by simp [h.1]⟩
        · simp [he] at h
          exact (loopOf f ih.1) _ _ _ _ _ _ _ _ h
    exact ⟨hP, loopOf (f + 1) hP⟩

/-- Fuel sufficiency for the `array2SortByTree` recursion: the accumulator
guard makes the recursion depth at most the input length plus two. -/
theorem sbt_total (arrIn : List Rec) :
    ∀ f, SbtAuxTotal arrIn f ∧ SbtLoopTotal arrIn f := by
  have loopOf : ∀ f, SbtAuxTotal arrIn f → SbtLoopTotal arrIn f := by
    intro f hP is
    induction is with
    | nil =>
      intro lvl pIdx k acc st hf hlen
      simp [sbtGo]
    | cons i rest ihr =>
      intro lvl pIdx k acc st hf hlen
      rw [sbtGo]
      have hcall := hP (recAt arrIn i).id (lvl + 1) (acc ++ [i]) (some (joinIdx pIdx k))
        (sbtWrite st i ⟨lvl, k, joinIdx pIdx k⟩) hf (by simp; omega)
      cases hres : sbtAux arrIn f (recAt arrIn i).id (lvl + 1) (acc ++ [i])
          (some (joinIdx pIdx k)) (sbtWrite st i ⟨lvl, k, joinIdx pIdx k⟩) with
      | none => rw [hres] at hcall; simp at hcall
      | some p =>
        obtain ⟨t, ht⟩ := (sbt_extends arrIn f).1 _ _ _ _ _ _ _ hres
        have : arrIn.length + 1 ≤ f + p.1.length := by
          rw [ht]; simp; omega
        exact ihr _ _ _ p.1 p.2 hf this
  intro f
  induction f with
  | zero =>
    constructor
    · intro v lvl acc pIdx st hf
      omega
    · intro is lvl pIdx k acc st hf
      omega
  | succ f ih =>
    have hP : SbtAuxTotal arrIn (f + 1) := by
      intro v lvl acc pIdx st hf hlen
      rw [sbtAux]
      by_cases hg : arrIn.length < acc.length
      · simp [hg]
      · simp only [if_neg hg]
        by_cases he : childrenIdxBy arrIn v = []
        · simp [he]
        · have hne : ¬((childrenIdxBy arrIn v).isEmpty = true) := by
            simp [List.isEmpty_iff, he]
          simp only [if_neg hne]
          exact (loopOf f ih.1) _ _ _ _ _ _ (by omega) (by omega)
    exact ⟨hP, loopOf (f + 1) hP⟩

/-- The accumulator only ever grows, for both functions of the
`array2SortAndWeight` recursion. -/
theorem saw_extends (arrIn : List Rec) :
    ∀ f, SawAuxExtends arrIn f ∧ SawLoopExtends arrIn f := by
  have loopOf : ∀ f, SawAuxExtends arrIn f → SawLoopExtends arrIn f := by
    intro f hP is
    induction is with
    | nil =>
      intro lvl rw sw pIdx k acc st acc2 st2 h
      simp [sawGo] at h
      exact ⟨[], by simp [h.1]⟩
    | cons i rest ihr =>
      intro lvl rw sw pIdx k acc st acc2 st2 h
      rw [sawGo] at h
      cases hcall : sawAux arrIn f (recAt arrIn i).id (lvl + 1)
          (jsMul rw (jsDiv (wOrZero (recAt arrIn i)) sw)) (acc ++ [i])
          (some (joinIdx pIdx k))
          (sawWrite st i ⟨sw, jsDiv (wOrZero (recAt arrIn i)) sw, rw,
            jsMul rw (jsDiv (wOrZero (recAt arrIn i)) sw), lvl, k, joinIdx pIdx k⟩) with
      | none => rw [hcall] at h; simp at h
      | some p =>
        rw [hcall] at h
        obtain ⟨t1, ht1⟩ := hP _ _ _ _ _ _ _ _ hcall
        obtain ⟨t2, ht2⟩ := ihr _ _ _ _ _ _ _ _ _ h
        exact ⟨[i] ++ t1 ++ t2, by simp [ht2, ht1]⟩
  intro f
  induction f with
  | zero =>
    have hP : SawAuxExtends arrIn 0 := by
      intro v lvl rw acc pIdx st acc2 st2 h
      simp [sawAux] at h
    exact ⟨hP, loopOf 0 hP⟩
  | succ f ih =>
    have hP : SawAuxExtends arrIn (f + 1) := by
      intro v lvl rw acc pIdx st acc2 st2 h
      rw [sawAux] at h
      by_cases hg : arrIn.length < acc.length
      · simp [hg] at h
        exact ⟨[], by simp [h.1]⟩
      · simp [hg] at h
        by_cases he : childrenIdxW arrIn v = []
        · simp [he] at h
          exact ⟨[], by simp [h.1]⟩
        · simp [he] at h
          exact (loopOf f ih.1) _ _ _ _ _ _ _ _ _ _ h
    exact ⟨hP, loopOf (f + 1) hP⟩

/-- Fuel sufficiency for the `array2SortAndWeight` recursion: the guard at
line 138 bounds the recursion depth by the input length plus two. -/
theorem saw_total (arrIn : List Rec) :
    ∀ f, SawAuxTotal arrIn f ∧ SawLoopTotal arrIn f := by
  have loopOf : ∀ f, SawAuxTotal arrIn f → SawLoopTotal arrIn f := by
    intro f hP is
    induction is with
    | nil =>
      intro lvl rw sw pIdx k acc st hf hlen
      simp [sawGo]
    | cons i rest ihr =>
      intro lvl rw sw pIdx k acc st hf hlen
      rw [sawGo]
      have hcall := hP (recAt arrIn i).id (lvl + 1)
        (jsMul rw (jsDiv (wOrZero (recAt arrIn i)) sw)) (acc ++ [i])
        (some (joinIdx pIdx k))
        (sawWrite st i ⟨sw, jsDiv (wOrZero (recAt arrIn i)) sw, rw,
          jsMul rw (jsDiv (wOrZero (recAt arrIn i)) sw), lvl, k, joinIdx pIdx k⟩)
        hf (by simp; omega)
      cases hres : sawAux arrIn f (recAt arrIn i).id (lvl + 1)
          (jsMul rw (jsDiv (wOrZero (recAt arrIn i)) sw)) (acc ++ [i])
          (some (joinIdx pIdx k))
          (sawWrite st i ⟨sw, jsDiv (wOrZero (recAt arrIn i)) sw, rw,
            jsMul rw (jsDiv (wOrZero (recAt arrIn i)) sw), lvl, k, joinIdx pIdx k⟩) with
      | none => rw [hres] at hcall; simp at hcall
      | some p =>
        obtain ⟨t, ht⟩ := (saw_extends arrIn f).1 _ _ _ _ _ _ _ _ hres
        have : arrIn.length + 1 ≤ f + p.1.length := by
          rw [ht]; simp; omega
        exact ihr _ _ _ _ _ p.1 p.2 hf this
  intro f
  induction f with
  | zero =>
    constructor
    · intro v lvl rw acc pIdx st hf
      omega
    · intro is lvl rw sw pIdx k acc st hf
      omega
  | succ f ih =>
    have hP : SawAuxTotal arrIn (f + 1) := by
      intro v lvl rw acc pIdx st hf hlen
      rw [sawAux]
      by_cases hg : arrIn.length < acc.length
      · simp [hg]
      · simp only [if_neg hg]
        by_cases he : childrenIdxW arrIn v = []
        · simp [he]
        · have hne : ¬((childrenIdxW arrIn v).isEmpty = true) := by
            simp [List.isEmpty_iff, he]
          simp only [if_neg hne]
          exact (loopOf f ih.1) _ _ _ _ _ _ _ _ (by omega) (by omega)
    exact ⟨hP, loopOf (f + 1) hP⟩

/-- The default `array2SortByTree` call with fuel `n + 2` always succeeds,
and the wrapper returns its value. -/
theorem sbtAux_run_eq (arrIn : List Rec) (v : Value) :
    sbtAux arrIn (sbtFuel arrIn) v 1 [] none (initSbt arrIn.length) =
      some (array2SortByTree arrIn v) := by
  have h := (sbt_total arrIn (sbtFuel arrIn)).1 v 1 [] none (initSbt arrIn.length)
    (by simp [sbtFuel]) (by simp [sbtFuel])
  cases hres : sbtAux arrIn (sbtFuel arrIn) v 1 [] none (initSbt arrIn.length) with
  | none => rw [hres] at h; simp at h
  | some p => simp [array2SortByTree, hres]

/-- The default `array2SortAndWeight` call with fuel `n + 2` always
succeeds, and the wrapper returns its value. -/
theorem sawAux_run_eq (arrIn : List Rec) (v : Value) :
    sawAux arrIn (sbtFuel arrIn) v 1 (JsNum.num 1) [] none (initSaw arrIn.length) =
      some (array2SortAndWeight arrIn v) := by
  have h := (saw_total arrIn (sbtFuel arrIn)).1 v 1 (JsNum.num 1) [] none
    (initSaw arrIn.length) (by simp [sbtFuel]) (by simp [sbtFuel])
  cases hres : sawAux arrIn (sbtFuel arrIn) v 1 (JsNum.num 1) [] none (initSaw arrIn.length) with
  | none => rw [hres] at h; simp at h
  | some p => simp [array2SortAndWeight, hres]

/-! ### Store helper lemmas -/

/-- Reading a just-written store slot. -/
theorem getD_set_self {α : Type} (l : List α) (i : Nat) (x d : α) (h : i < l.length) :
    (l.set i x).getD i d = x := by
  simp [List.getD, List.getElem?_set_self, h]

/-- Reading an unrelated store slot after a write. -/
theorem getD_set_ne {α : Type} (l : List α) (i j : Nat) (x d : α) (h : i ≠ j) :
    (l.set i x).getD j d = l.getD j d := by
  simp [List.getD, List.getElem?_set_ne h]

/-! ### The sibling group of a record is canonical

Whenever a record is matched by some `startWith` value in
`array2SortAndWeight`, the whole sibling group of that call — and hence the
weight sum — is determined by the record's own parent value. -/

/-- If `matchW v p` holds then `v` and `p` match exactly the same values. -/
theorem matchW_canon (v p x : Value) (h : matchW v p = true) : matchW v x = matchW p x := by
  unfold matchW at h ⊢
  by_cases hpv : p = v
  · subst hpv; rfl
  · have hsv : strictEq p v = false := by simp [strictEq, hpv]
    rw [hsv] at h
    simp only [Bool.false_or, Bool.and_eq_true] at h
    obtain ⟨hv, hp⟩ := h
    cases hx : Value.isNullish x with
    | false =>
      have h1 : strictEq x v = false := by
        by_cases e : x = v
        · subst e; rw [hv] at hx; cases hx
        · simp [strictEq, e]
      have h2 : strictEq x p = false := by
        by_cases e : x = p
        · subst e; rw [hp] at hx; cases hx
        · simp [strictEq, e]
      simp [h1, h2, hx]
    | true => simp [hx, hv, hp]

/-- Matched records determine the whole sibling group of the call. -/
theorem childrenIdxW_canon (arrIn : List Rec) (v p : Value) (h : matchW v p = true) :
    childrenIdxW arrIn v = childrenIdxW arrIn p := by
  unfold childrenIdxW
  exact List.filter_congr (fun i _ => matchW_canon v p (recAt arrIn i).parent h)

/-- Matched records determine the sibling weight sum of the call. -/
theorem groupSum_canon (arrIn : List Rec) (v p : Value) (h : matchW v p = true) :
    groupSum arrIn v = groupSum arrIn p := by
  unfold groupSum
  rw [childrenIdxW_canon arrIn v p h]

/-- Leaf marking does not change the visit metadata. -/
theorem sawMarkLeaf_meta (arrIn : List Rec) (acc : List Nat) (v : Value) (st : SawState) :
    (sawMarkLeaf arrIn acc v st).meta = st.meta := by
  unfold sawMarkLeaf
  cases acc.find? (fun i => strictEq (recAt arrIn i).id v) with
  | none => rfl
  | some i => rfl

/-- The weight store invariant holds through the whole recursion. -/
theorem saw_inv (arrIn : List Rec) :
    ∀ f, SawAuxInv arrIn f ∧ SawLoopInv arrIn f := by
  have loopOf : ∀ f, SawAuxInv arrIn f → SawLoopInv arrIn f := by
    intro f hP is
    induction is with
    | nil =>
      intro lvl rw sw pIdx k acc st acc2 st2 h hlen hinv hasg hsw
      simp [sawGo] at h
      obtain ⟨h1, h2⟩ := h
      subst h1; subst h2
      exact ⟨hlen, hinv, hasg⟩
    | cons i rest ihr =>
      intro lvl rw sw pIdx k acc st acc2 st2 h hlen hinv hasg hsw
      rw [sawGo] at h
      obtain ⟨hi, hswi⟩ := hsw i (by simp)
      set m : SawMeta := ⟨sw, jsDiv (wOrZero (recAt arrIn i)) sw, rw,
        jsMul rw (jsDiv (wOrZero (recAt arrIn i)) sw), lvl, k, joinIdx pIdx k⟩ with hm
      have hlen2 : (sawWrite st i m).meta.length = arrIn.length := by
        simp [sawWrite, hlen]
      have hinv2 : SawInv arrIn (sawWrite st i m) := by
        intro j mj hj
        by_cases e : i = j
        · subst e
          rw [sawWrite] at hj
          simp only at hj
          rw [getD_set_self st.meta i (some m) none (by omega)] at hj
          cases hj
          exact ⟨hswi, by simp [hm, specWp, hswi]⟩
        · rw [sawWrite] at hj
          simp only at hj
          rw [getD_set_ne st.meta i j (some m) none e] at hj
          exact hinv j mj hj
      have hasg2 : SawAssigned (sawWrite st i m) (acc ++ [i]) := by
        intro j hj
        simp at hj
        by_cases e : i = j
        · subst e
          show ((st.meta.set i (some m)).getD i none).isSome = true
          rw [getD_set_self st.meta i (some m) none (by omega)]
          rfl
        · rcases hj with hj | hj
          · have hold := hasg j hj
            show ((st.meta.set i (some m)).getD j none).isSome = true
            rw [getD_set_ne st.meta i j (some m) none e]
            exact hold
          · exact absurd hj.symm e
      cases hcall : sawAux arrIn f (recAt arrIn i).id (lvl + 1)
          (jsMul rw (jsDiv (wOrZero (recAt arrIn i)) sw)) (acc ++ [i])
          (some (joinIdx pIdx k)) (sawWrite st i m) with
      | none => rw [hcall] at h; simp at h
      | some p =>
        rw [hcall] at h
        obtain ⟨hl3, hi3, ha3⟩ := hP _ _ _ _ _ _ _ _ hcall hlen2 hinv2 hasg2
        exact ihr _ _ _ _ _ _ _ _ _ h hl3 hi3 ha3 (fun j hj => hsw j (by simp [hj]))
  intro f
  induction f with
  | zero =>
    have hP : SawAuxInv arrIn 0 := by
      intro v lvl rw acc pIdx st acc2 st2 h
      simp [sawAux] at h
    exact ⟨hP, loopOf 0 hP⟩
  | succ f ih =>
    have hP : SawAuxInv arrIn (f + 1) := by
      intro v lvl rw acc pIdx st acc2 st2 h hlen hinv hasg
      rw [sawAux] at h
      by_cases hg : arrIn.length < acc.length
      · simp [hg] at h
        obtain ⟨h1, h2⟩ := h
        subst h1; subst h2
        exact ⟨hlen, hinv, hasg⟩
      · simp [hg] at h
        by_cases he : childrenIdxW arrIn v = []
        · simp [he] at h
          obtain ⟨h1, h2⟩ := h
          subst h1; subst h2
          refine ⟨by rw [sawMarkLeaf_meta]; exact hlen, ?_, ?_⟩
          · intro j mj hj
            rw [sawMarkLeaf_meta] at hj
            exact hinv j mj hj
          · intro j hj
            rw [sawMarkLeaf_meta]
            exact hasg j hj
        · simp [he] at h
          refine (loopOf f ih.1) _ _ _ _ _ _ _ _ _ _ h hlen hinv hasg ?_
          intro i2 hi2
          have hmem : i2 < arrIn.length ∧ matchW v (recAt arrIn i2).parent = true := by
            simpa [childrenIdxW, List.mem_filter] using hi2
          exact ⟨hmem.1, groupSum_canon arrIn v (recAt arrIn i2).parent hmem.2⟩
    exact ⟨hP, loopOf (f + 1) hP⟩

/-- Numeric fold of `jsAdd` over finite numbers. -/
theorem foldl_jsAdd_num (l : List ℚ) (a : ℚ) :
    (l.map JsNum.num).foldl jsAdd (JsNum.num a) = JsNum.num (a + l.sum) := by
  induction l generalizing a with
  | nil => simp
  | cons q rest ih =>
    simp only [List.map_cons, List.foldl_cons, List.sum_cons]
    rw [show jsAdd (JsNum.num a) (JsNum.num q) = JsNum.num (a + q) from rfl, ih]
    ring_nf

/-- When the sibling weight sum is nonzero, the weight shares of the whole
group add up to exactly `1`. -/
theorem groupWp_sum (arrIn : List Rec) (p : Value) (h : groupSum arrIn p ≠ 0) :
    ((childrenIdxW arrIn p).map
        (fun j => jsDiv (wOrZero (recAt arrIn j)) (groupSum arrIn p))).foldl jsAdd
      (JsNum.num 0) = JsNum.num 1 := by
  have hmap : (childrenIdxW arrIn p).map
      (fun j => jsDiv (wOrZero (recAt arrIn j)) (groupSum arrIn p)) =
      ((childrenIdxW arrIn p).map
        (fun j => wOrZero (recAt arrIn j) / groupSum arrIn p)).map JsNum.num := by
    rw [List.map_map]
    refine List.map_congr_left ?_
    intro j _
    simp [jsDiv, h, Function.comp]
  rw [hmap, foldl_jsAdd_num]
  have hsum : ((childrenIdxW arrIn p).map
      (fun j => wOrZero (recAt arrIn j) / groupSum arrIn p)).sum =
      ((childrenIdxW arrIn p).map (fun j => wOrZero (recAt arrIn j))).sum / groupSum arrIn p := by
    induction childrenIdxW arrIn p with
    | nil => simp
    | cons j rest ih => simp [ih, add_div]
  rw [hsum]
  have : ((childrenIdxW arrIn p).map (fun j => wOrZero (recAt arrIn j))).sum =
      groupSum arrIn p := rfl
  rw [this, div_self h]
  simp

/-- Everything handed to `sawLoop` ends up in the output accumulator. -/
theorem sawGo_mem (arrIn : List Rec) (f : Nat) :
    ∀ is lvl rw sw pIdx k acc st acc2 st2,
      sawGo arrIn (sawAux arrIn f) lvl rw sw pIdx is k acc st = some (acc2, st2) →
      ∀ j, j ∈ acc ∨ j ∈ is → j ∈ acc2 := by
  intro is
  induction is with
  | nil =>
    intro lvl rw sw pIdx k acc st acc2 st2 h j hj
    simp [sawGo] at h
    rcases hj with hj | hj
    · rw [← h.1]; exact hj
    · simp at hj
  | cons i rest ihr =>
    intro lvl rw sw pIdx k acc st acc2 st2 h j hj
    rw [sawGo] at h
    cases hcall : sawAux arrIn f (recAt arrIn i).id (lvl + 1)
        (jsMul rw (jsDiv (wOrZero (recAt arrIn i)) sw)) (acc ++ [i])
        (some (joinIdx pIdx k))
        (sawWrite st i ⟨sw, jsDiv (wOrZero (recAt arrIn i)) sw, rw,
          jsMul rw (jsDiv (wOrZero (recAt arrIn i)) sw), lvl, k, joinIdx pIdx k⟩) with
    | none => rw [hcall] at h; simp at h
    | some pr =>
      rw [hcall] at h
      obtain ⟨t1, ht1⟩ := (saw_extends arrIn f).1 _ _ _ _ _ _ _ _ hcall
      refine ihr _ _ _ _ _ _ _ _ _ h j ?_
      rcases hj with hj | hj
      · exact Or.inl (by rw [ht1]; simp [hj])
      · rcases List.mem_cons.mp hj with hj | hj
        · exact Or.inl (by rw [ht1, hj]; simp)
        · exact Or.inr hj

/-- Sibling-group closure: any record in the output of the weighted flatten
has its whole canonical sibling group in the output. -/
theorem saw_sib (arrIn : List Rec) :
    ∀ f, SawAuxSib arrIn f ∧ SawLoopSib arrIn f := by
  have loopOf : ∀ f, SawAuxSib arrIn f → SawLoopSib arrIn f := by
    intro f hP is
    induction is with
    | nil =>
      intro lvl rw sw pIdx k acc st acc2 st2 h hGroups j hj
      simp [sawGo] at h
      rw [← h.1] at hj
      exact Or.inl hj
    | cons i rest ihr =>
      intro lvl rw sw pIdx k acc st acc2 st2 h hGroups j hj
      rw [sawGo] at h
      cases hcall : sawAux arrIn f (recAt arrIn i).id (lvl + 1)
          (jsMul rw (jsDiv (wOrZero (recAt arrIn i)) sw)) (acc ++ [i])
          (some (joinIdx pIdx k))
          (sawWrite st i ⟨sw, jsDiv (wOrZero (recAt arrIn i)) sw, rw,
            jsMul rw (jsDiv (wOrZero (recAt arrIn i)) sw), lvl, k, joinIdx pIdx k⟩) with
      | none => rw [hcall] at h; simp at h
      | some pr =>
        rw [hcall] at h
        obtain ⟨t1, ht1⟩ := (saw_extends arrIn f).1 _ _ _ _ _ _ _ _ hcall
        obtain ⟨t2, ht2⟩ := (saw_extends arrIn f).2 _ _ _ _ _ _ _ _ _ _ h
        have hrest : ∀ i2 ∈ rest, ∀ j2 ∈ childrenIdxW arrIn (recAt arrIn i2).parent,
            j2 ∈ rest ∨ j2 ∈ pr.1 := by
          intro i2 hi2 j2 hj2
          rcases hGroups i2 (by simp [hi2]) j2 hj2 with hr | hr
          · rcases List.mem_cons.mp hr with hr | hr
            · exact Or.inr (by rw [ht1, hr]; simp)
            · exact Or.inl hr
          · exact Or.inr (by rw [ht1]; simp [hr])
        rcases ihr _ _ _ _ _ _ _ _ _ h hrest j hj with hj2 | hj2
        · -- j was already in the accumulator after the subtree of i
          rcases hP _ _ _ _ _ _ _ _ hcall j hj2 with hj3 | hj3
          · rcases List.mem_append.mp hj3 with hj4 | hj4
            · exact Or.inl hj4
            · -- j = i : its group is spread over is and acc, all of which land in acc2
              have hji : j = i := by simpa using hj4
              refine Or.inr ?_
              intro j2 hj2m
              rcases hGroups i (by simp) j2 (hji ▸ hj2m) with hr | hr
              · rcases List.mem_cons.mp hr with hr | hr
                · rw [ht2, ht1, hr]; simp
                · exact sawGo_mem arrIn f _ _ _ _ _ _ _ _ _ _ h j2 (Or.inr hr)
              · rw [ht2, ht1]; simp [hr]
          · exact Or.inr (fun j2 hj2m => by rw [ht2]; simp [hj3 j2 hj2m])
        · exact Or.inr hj2
  intro f
  induction f with
  | zero =>
    have hP : SawAuxSib arrIn 0 := by
      intro v lvl rw acc pIdx st acc2 st2 h
      simp [sawAux] at h
    exact ⟨hP, loopOf 0 hP⟩
  | succ f ih =>
    have hP : SawAuxSib arrIn (f + 1) := by
      intro v lvl rw acc pIdx st acc2 st2 h j hj
      rw [sawAux] at h
      by_cases hg : arrIn.length < acc.length
      · simp [hg] at h
        rw [← h.1] at hj
        exact Or.inl hj
      · simp [hg] at h
        by_cases he : childrenIdxW arrIn v = []
        · simp [he] at h
          rw [← h.1] at hj
          exact Or.inl hj
        · simp [he] at h
          refine (loopOf f ih.1) _ _ _ _ _ _ _ _ _ _ h ?_ j hj
          intro i hi j2 hj2
          have hmem : i < arrIn.length ∧ matchW v (recAt arrIn i).parent = true := by
            simpa [childrenIdxW, List.mem_filter] using hi
          rw [← childrenIdxW_canon arrIn v (recAt arrIn i).parent hmem.2] at hj2
          exact Or.inl hj2
    exact ⟨hP, loopOf (f + 1) hP⟩

/-! ### Claim C9: the guard bounds the recursion depth -/

/-- Claim C9 (confirmed).  For every finite input list — cyclic or duplicate
parent structures included — `array2SortByTree` and `array2SortAndWeight`
terminate: the accumulator-length guard bounds the recursion depth by the
input length, so a fuel of `length + 2` never runs out, for any `startWith`. -/
theorem c9_flatten_terminates (arrIn : List Rec) (v : Value) :
    (sbtAux arrIn (arrIn.length + 2) v 1 [] none (initSbt arrIn.length)).isSome ∧
    (sawAux arrIn (arrIn.length + 2) v 1 (JsNum.num 1) [] none (initSaw arrIn.length)).isSome := by
  constructor
  · exact (sbt_total arrIn (arrIn.length + 2)).1 v 1 [] none (initSbt arrIn.length)
      (by omega) (by simp)
  · exact (saw_total arrIn (arrIn.length + 2)).1 v 1 (JsNum.num 1) [] none
      (initSaw arrIn.length) (by omega) (by simp)

/-! ### Claim C2: division by zero in the weight share -/

unseal Rat.add Rat.mul Rat.inv in
/-- Claim C2 (code bug).  On a sibling group with total weight `0` (here a
single root whose weight field is absent), `array2SortAndWeight` computes
`$weight_percent = 0/0`, which is `NaN` — an undefined numeric value — and
not the defined `0` the specification requires. -/
theorem c2_zero_weight_nan :
    (array2SortAndWeight exZeroW Value.null).1 = [0] ∧
    groupSum exZeroW (recAt exZeroW 0).parent = 0 ∧
    (array2SortAndWeight exZeroW Value.null).2.meta.getD 0 none =
      some ⟨0, JsNum.nan, JsNum.num 1, JsNum.nan, 1, 1, "1"⟩ ∧
    JsNum.nan ≠ JsNum.num 0 := by
  refine ⟨by decide, by decide, by decide, by decide⟩

/-! ### Claim C3: the two flatteners do not share one matching rule -/

unseal Rat.add Rat.mul Rat.inv in
/-- Claim C3, counterexample.  A record whose parent field holds the empty
string is emitted as a top-level record by `array2SortByTree` but matched by
nothing in `array2SortAndWeight` under the default root marker, so the two
matching rules differ. -/
theorem c3_counterexample :
    (array2SortByTree exEmptyStr Value.null).1 = [0] ∧
    (array2SortAndWeight exEmptyStr Value.null).1 = [] := by
  refine ⟨by decide, by decide⟩

/-- Claim C3 as amended (proved).  The two matchers agree on all nullish
parent values (`null`/`undefined`/absent are interchangeable in both), but
they differ on empty-string parents: `array2SortByTree` matches them for a
nullish `startWith` while `array2SortAndWeight` does not. -/
theorem c3_amended :
    (∀ v p : Value, p.isNullish = true → matchBy v p = matchW v p) ∧
    matchBy Value.null (Value.str "") = true ∧
    matchW Value.null (Value.str "") = false := by
  refine ⟨?_, by decide, by decide⟩
  intro v p hp
  cases p with
  | undef => simp [matchBy, matchW, Value.eqEmptyStr]
  | null => simp [matchBy, matchW, Value.eqEmptyStr]
  | str s => simp [Value.isNullish] at hp
  | num q => simp [Value.isNullish] at hp
  | bool b => simp [Value.isNullish] at hp

/-- Witness for `c3_amended`: the agreement instantiated at the default root
marker and a `null` parent value. -/
theorem c3_amended_witness :
    Value.isNullish Value.null = true ∧ matchBy Value.null Value.null = matchW Value.null Value.null :=
  ⟨by decide, c3_amended.1 Value.null Value.null (by decide)⟩

/-! ### Claim C4: weight shares of a sibling group sum to one -/

/-- Claim C4 (confirmed).  In the default `array2SortAndWeight` output, every
emitted record's sibling group whose total weight is nonzero has all its
members emitted with `$weight_percent` equal to own weight over the group
sum, and those shares sum to exactly `1`. -/
theorem c4_weight_shares_sum_to_one (arrIn : List Rec) (i : Nat)
    (hmem : i ∈ (array2SortAndWeight arrIn Value.null).1)
    (hS : groupSum arrIn (recAt arrIn i).parent ≠ 0) :
    (∀ j ∈ childrenIdxW arrIn (recAt arrIn i).parent,
      ∃ mj, (array2SortAndWeight arrIn Value.null).2.meta.getD j none = some mj ∧
        mj.wp = jsDiv (wOrZero (recAt arrIn j)) (groupSum arrIn (recAt arrIn i).parent)) ∧
    ((childrenIdxW arrIn (recAt arrIn i).parent).map
        (fun j => jsDiv (wOrZero (recAt arrIn j)) (groupSum arrIn (recAt arrIn i).parent))).foldl
      jsAdd (JsNum.num 0) = JsNum.num 1 := by
  have hrun := sawAux_run_eq arrIn Value.null
  have hinv := (saw_inv arrIn (sbtFuel arrIn)).1 _ _ _ _ _ _ _ _ hrun
    (by simp [initSaw]) (by intro j m hj; simp [initSaw, List.getD] at hj)
    (by intro j hj; simp at hj)
  have hsib := (saw_sib arrIn (sbtFuel arrIn)).1 _ _ _ _ _ _ _ _ hrun i hmem
  have hgrp : ∀ j2 ∈ childrenIdxW arrIn (recAt arrIn i).parent,
      j2 ∈ (array2SortAndWeight arrIn Value.null).1 := by
    rcases hsib with hsib | hsib
    · simp at hsib
    · exact hsib
  refine ⟨?_, groupWp_sum arrIn (recAt arrIn i).parent hS⟩
  intro j hj
  have hj2 := hgrp j hj
  have hassigned : ((array2SortAndWeight arrIn Value.null).2.meta.getD j none).isSome = true :=
    hinv.2.2 j hj2
  cases hmj : (array2SortAndWeight arrIn Value.null).2.meta.getD j none with
  | none => rw [hmj] at hassigned; simp at hassigned
  | some mj =>
    refine ⟨mj, rfl, ?_⟩
    have hinvj : SawInv arrIn (array2SortAndWeight arrIn Value.null).2 := hinv.2.1
    have := (hinvj j mj hmj).2
    rw [this, specWp]
    have hjmatch : matchW (recAt arrIn i).parent (recAt arrIn j).parent = true := by
      have : j ∈ List.filter (fun i2 => matchW (recAt arrIn i).parent (recAt arrIn i2).parent)
          (List.range arrIn.length) := hj
      exact (List.mem_filter.mp this).2
    rw [groupSum_canon arrIn (recAt arrIn i).parent (recAt arrIn j).parent hjmatch]

unseal Rat.add Rat.mul Rat.inv in
/-- Witness for `c4_weight_shares_sum_to_one` at the concrete weighted
scenario of the specification (weights 100 at the root, 60 and 40 at the
children). -/
theorem c4_witness :
    1 ∈ (array2SortAndWeight exBasic Value.null).1 ∧
    groupSum exBasic (recAt exBasic 1).parent ≠ 0 ∧
    ((childrenIdxW exBasic (recAt exBasic 1).parent).map
        (fun j => jsDiv (wOrZero (recAt exBasic j)) (groupSum exBasic (recAt exBasic 1).parent))).foldl
      jsAdd (JsNum.num 0) = JsNum.num 1 :=
  ⟨by decide, by decide, (c4_weight_shares_sum_to_one exBasic 1 (by decide) (by decide)).2⟩

/-! ### Claim C1: counterexample — an orphan record is dropped -/

/-- Claim C1, counterexample.  `array2SortByTree` with the default root
marker on a single record whose parent matches nothing returns an empty
list: the output is not a permutation of the input. -/
theorem c1_counterexample :
    ¬ ((array2SortByTree exOrphan Value.null).1.map (recAt exOrphan)).Perm exOrphan := by
  decide

/-! ### Claim C7: counterexample — a childless record the guard starves -/

/-- Claim C7, counterexample.  `exGuard` has unique identifiers and acyclic
parent references, yet in the `array2SortByTree` output the childless record
at index `2` is emitted without ever receiving `$is_leaf`: the loose `== ''`
match duplicates the record with parent `0` at the root level, and the
duplicate starves the accumulator guard before the last leaf call runs. -/
theorem c7_counterexample :
    uniqueIdsB exGuard = true ∧ chainTotalB exGuard = true ∧
    (array2SortByTree exGuard Value.null).1 = [0, 1, 1, 2] ∧
    childrenIdxBy exGuard (recAt exGuard 2).id = [] ∧
    (array2SortByTree exGuard Value.null).2.leaf.getD 2 false = false := by
  refine ⟨by decide, by decide, by decide, by decide, by decide⟩

/-! ### Claim C10: counterexample — duplicate identifiers mislead the leaf
marking of `array2Tree` -/

/-- Claim C10, counterexample.  On two records sharing one identifier,
`array2Tree` returns both as roots with `$children = []`, but the leaf flag
of the second is never set: the marking looks up the first record with the
identifier and marks it twice. -/
theorem c10_counterexample :
    array2Tree exDup 4 Value.null =
      some (some [0, 1],
        ⟨[some 1, some 1], [some [], some []], [true, false]⟩) := by
  decide

/-! ### Claim C5: counterexample — a nullish identifier re-enters the root
group -/

unseal Rat.add Rat.mul Rat.inv in
/-- Claim C5, counterexample.  `exNullId` has unique identifiers and acyclic
parent references, yet its single top-level record ends with
`$parent_weight_percent = NaN` instead of `1`: recursing on its `null`
identifier matches the root group again, and the second visit overwrites
the parent share with the inherited `NaN`. -/
theorem c5_counterexample :
    uniqueIdsB exNullId = true ∧ chainTotalB exNullId = true ∧
    (array2SortAndWeight exNullId Value.null).1 = [0, 0] ∧
    (recAt exNullId 0).parent.isNullish = true ∧
    (array2SortAndWeight exNullId Value.null).2.meta.getD 0 none =
      some ⟨0, JsNum.nan, JsNum.nan, JsNum.nan, 2, 1, "1.1"⟩ ∧
    JsNum.nan ≠ JsNum.num 1 := by
  refine ⟨by decide, by decide, by decide, by decide, by decide, by decide⟩

/-- Reflexivity of heap extension. -/
theorem heapPres_refl (h : List HObj) : HeapPres h h := ⟨Nat.le_refl _, fun _ _ => rfl⟩

/-- Transitivity of heap extension. -/
theorem heapPres_trans {h1 h2 h3 : List HObj} (a : HeapPres h1 h2) (b : HeapPres h2 h3) :
    HeapPres h1 h3 := by
  refine ⟨Nat.le_trans a.1 b.1, fun x hx => ?_⟩
  rw [b.2 x (Nat.lt_of_lt_of_le hx a.1), a.2 x hx]

/-- Allocation extends the heap. -/
theorem heapPres_append (h t : List HObj) : HeapPres h (h ++ t) := by
  refine ⟨by simp, fun a ha => ?_⟩
  rw [List.getElem?_append, if_pos ha]

/-- Writing at a fresh address preserves all existing addresses. -/
theorem heapPres_set (h h2 : List HObj) (b : Nat) (o : HObj) (hp : HeapPres h h2)
    (hb : h.length ≤ b) : HeapPres h (h2.set b o) := by
  refine ⟨by simp [hp.1], fun a ha => ?_⟩
  rw [List.getElem?_set_ne (by omega), hp.2 a ha]

/-- `deepCopyObj` only allocates: the original heap is untouched. -/
theorem deepCopyObj_pres :
    ∀ f h a h1 b, deepCopyObj f h a = some (h1, b) → HeapPres h h1 := by
  intro f
  induction f with
  | zero =>
    intro h a h1 b hr
    simp [deepCopyObj] at hr
  | succ f ih =>
    have goPres : ∀ as h h1 bs, dcGo (deepCopyObj f) h as = some (h1, bs) → HeapPres h h1 := by
      intro as
      induction as with
      | nil =>
        intro h h1 bs hr
        simp [dcGo] at hr
        rw [← hr.1]
        exact heapPres_refl h
      | cons a rest ihr =>
        intro h h1 bs hr
        rw [dcGo] at hr
        split at hr
        · simp at hr
        · rename_i ph pb hobj
          split at hr
          · simp at hr
          · rename_i p2h p2b hrest
            simp only [Option.some.injEq, Prod.mk.injEq] at hr
            have h1p := ih h a ph pb hobj
            have h2p := ihr ph p2h p2b hrest
            rw [← hr.1]
            exact heapPres_trans h1p h2p
    intro h a h1 b hr
    rw [deepCopyObj] at hr
    split at hr
    · simp only [Option.some.injEq, Prod.mk.injEq] at hr
      rw [← hr.1]
      exact heapPres_append h _
    · rename_i ks hk
      split at hr
      · simp at hr
      · rename_i hh ks2 hgo
        simp only [Option.some.injEq, Prod.mk.injEq] at hr
        have := goPres ks h hh ks2 hgo
        rw [← hr.1]
        exact heapPres_trans this (heapPres_append hh _)

/-- `deepCopyList` only allocates. -/
theorem deepCopyList_pres :
    ∀ f h as h1 bs, deepCopyList f h as = some (h1, bs) → HeapPres h h1 := by
  intro f h as
  induction as generalizing h with
  | nil =>
    intro h1 bs hr
    simp [deepCopyList, dcGo] at hr
    rw [← hr.1]
    exact heapPres_refl h
  | cons a rest ihr =>
    intro h1 bs hr
    rw [deepCopyList, dcGo] at hr
    split at hr
    · simp at hr
    · rename_i ph pb hobj
      split at hr
      · simp at hr
      · rename_i p2h p2b hrest
        simp only [Option.some.injEq, Prod.mk.injEq] at hr
        have h1p := deepCopyObj_pres f h a ph pb hobj
        have h2p := ihr ph p2h p2b hrest
        rw [← hr.1]
        exact heapPres_trans h1p h2p

/-- One loop round of the heap-level `tree2Array` preserves the input heap,
provided the deep copy and the recursive continuation do. -/
theorem t2aGo_pres
    (dcopy : List HObj → List Nat → Option (List HObj × List Nat))
    (next : List HObj → List Nat → Option Nat → Nat → Nat →
      Option (List HObj × List Nat × Nat))
    (hd : ∀ h ks h2 ks2, dcopy h ks = some (h2, ks2) → HeapPres h h2)
    (hn : ∀ h ks pv lvl n h2 out n2, next h ks pv lvl n = some (h2, out, n2) → HeapPres h h2) :
    ∀ addrs h pv lvl myId h4 out id4,
      t2aGo dcopy next h addrs pv lvl myId = some (h4, out, id4) → HeapPres h h4 := by
  intro addrs
  induction addrs with
  | nil =>
    intro h pv lvl myId h4 out id4 hr
    simp [t2aGo] at hr
    rw [← hr.1]
    exact heapPres_refl h
  | cons a rest ihr =>
    intro h pv lvl myId h4 out id4 hr
    rw [t2aGo] at hr
    have hpres1 : HeapPres h (heapSetGenPid (heapSetGenId (h ++ [h.getD a defaultHObj])
        h.length (myId + 1)) h.length pv) := by
      refine heapPres_set _ _ _ _ ?_ (Nat.le_refl _)
      refine heapPres_set _ _ _ _ ?_ (Nat.le_refl _)
      exact heapPres_append h _
    split at hr
    · rename_i ks hks
      split at hr
      · simp at hr
      · rename_i h2 ks2 hdc
        split at hr
        · simp at hr
        · rename_i h3 subOut id2 hnext
          split at hr
          · simp at hr
          · rename_i h5 restOut id3 hrest
            simp only [Option.some.injEq, Prod.mk.injEq] at hr
            have p2 : HeapPres h h2 := heapPres_trans hpres1 (hd _ _ _ _ hdc)
            have p3 : HeapPres h h3 := by
              refine heapPres_trans ?_ (hn _ _ _ _ _ _ _ _ hnext)
              refine heapPres_set _ _ _ _ p2 ?_
              simp
            have p4 : HeapPres h h5 := heapPres_trans p3 (ihr _ _ _ _ _ _ _ hrest)
            rw [← hr.1]
            exact p4
    · split at hr
      · simp at hr
      · rename_i h2 restOut id2 hrest
        simp only [Option.some.injEq, Prod.mk.injEq] at hr
        have p2 : HeapPres h h2 := heapPres_trans hpres1 (ihr _ _ _ _ _ _ _ hrest)
        rw [← hr.1]
        exact p2

/-- The heap-level `tree2Array` preserves the input heap at every existing
address. -/
theorem t2aHeap_pres :
    ∀ f h addrs pv lvl myId h2 out id2,
      t2aHeap f h addrs pv lvl myId = some (h2, out, id2) → HeapPres h h2 := by
  intro f
  induction f with
  | zero =>
    intro h addrs pv lvl myId h2 out id2 hr
    match addrs with
    | [] =>
      simp [t2aHeap] at hr
      rw [← hr.1]
      exact heapPres_refl h
    | a :: rest => simp [t2aHeap] at hr
  | succ f ih =>
    intro h addrs pv lvl myId h2 out id2 hr
    rw [t2aHeap] at hr
    exact t2aGo_pres (deepCopyList (Nat.succ f)) (t2aHeap f)
      (fun h ks h2 ks2 hd => deepCopyList_pres (Nat.succ f) h ks h2 ks2 hd)
      (fun h ks pv lvl n h2 out n2 hn => ih h ks pv lvl n h2 out n2 hn)
      addrs h pv lvl myId h2 out id2 hr

/-! ### Claim C8: tree2Array does not mutate the caller's tree -/

/-- Claim C8 (confirmed).  A completed heap-level `tree2Array` run leaves
every pre-existing heap object — the input tree's nodes and all their nested
children — exactly as it was: all writes (generated `$id`/`$parent_id`,
removal of the children field) target freshly allocated copies. -/
theorem c8_tree2Array_no_mutation (f : Nat) (h : List HObj) (addrs : List Nat)
    (pv : Option Nat) (lvl myId a : Nat)
    (hrun : (t2aHeap f h addrs pv lvl myId).isSome = true) (ha : a < h.length) :
    ((t2aHeap f h addrs pv lvl myId).getD (h, [], myId)).1[a]? = h[a]? := by
  cases hres : t2aHeap f h addrs pv lvl myId with
  | none => rw [hres] at hrun; simp at hrun
  | some res =>
    obtain ⟨h2, out, id2⟩ := res
    simpa [hres] using (t2aHeap_pres f h addrs pv lvl myId h2 out id2 hres).2 a ha

/-- Witness for `c8_tree2Array_no_mutation`: flattening the two-node example
tree leaves both original objects untouched. -/
theorem c8_witness :
    ((t2aHeap 3 exHeap [1] none 1 0).isSome = true ∧ 0 < exHeap.length ∧ 1 < exHeap.length) ∧
    ((t2aHeap 3 exHeap [1] none 1 0).getD (exHeap, [], 0)).1[0]? = exHeap[0]? ∧
    ((t2aHeap 3 exHeap [1] none 1 0).getD (exHeap, [], 0)).1[1]? = exHeap[1]? :=
  ⟨⟨by decide, by decide, by decide⟩,
    c8_tree2Array_no_mutation 3 exHeap [1] none 1 0 0 (by decide) (by decide),
    c8_tree2Array_no_mutation 3 exHeap [1] none 1 0 1 (by decide) (by decide)⟩

/-! ### Store invariants of array2Tree -/

/-- Characterisation of a successful `findIdx?`: the index is in range, the
record there satisfies the predicate, and nothing before it does. -/
theorem findIdx?_charD {α : Type} (l : List α) (p : α → Bool) (j : Nat) (d : α)
    (h : l.findIdx? p = some j) :
    j < l.length ∧ p (l.getD j d) = true ∧ ∀ k, k < j → p (l.getD k d) = false := by
  obtain ⟨hlt, heq⟩ := List.findIdx?_eq_some_iff_findIdx_eq.mp h
  refine ⟨hlt, ?_, ?_⟩
  · rw [List.getD_eq_getElem l d hlt]
    subst heq
    exact List.findIdx_getElem
  · intro k hk
    have hk2 : k < l.length := by omega
    rw [List.getD_eq_getElem l d hk2]
    exact List.not_of_lt_findIdx (by omega)

/-- Under unique identifiers, indices with equal identifier values are equal. -/
theorem uniqueIds_inj (arrIn : List Rec) (hu : uniqueIdsB arrIn = true) (i j : Nat)
    (hi : i < arrIn.length) (hj : j < arrIn.length)
    (hid : (recAt arrIn i).id = (recAt arrIn j).id) : i = j := by
  have hn : (arrIn.map Rec.id).Nodup := of_decide_eq_true hu
  have hi2 : i < (arrIn.map Rec.id).length := by simpa using hi
  have hj2 : j < (arrIn.map Rec.id).length := by simpa using hj
  have h1 : (arrIn.map Rec.id)[i] = (arrIn.map Rec.id)[j] := by
    simp only [List.getElem_map]
    rw [show arrIn[i] = recAt arrIn i from (List.getD_eq_getElem arrIn defaultRec hi).symm,
      show arrIn[j] = recAt arrIn j from (List.getD_eq_getElem arrIn defaultRec hj).symm]
    exact hid
  exact (List.Nodup.getElem_inj_iff hn).mp h1

/-- The `array2Tree` store invariant holds through the whole recursion. -/
theorem a2t_step (arrIn : List Rec) :
    ∀ f, A2tStep arrIn f ∧ A2tStepGo arrIn f := by
  have goOf : ∀ f, A2tStep arrIn f → A2tStepGo arrIn f := by
    intro f hP is
    induction is with
    | nil =>
      intro lvl st st2 h hrange hk hl hinv
      simp [a2tGo] at h
      subst h
      exact ⟨⟨hk, hl⟩, hinv, fun i hi => hi, fun i hi => hi, by simp⟩
    | cons i rest ihr =>
      intro lvl st st2 h hrange hk hl hinv
      rw [a2tGo] at h
      split at h
      · simp at h
      · rename_i sub stb hcall
        have hi : i < arrIn.length := hrange i (by simp)
        have hstep := hP (recAt arrIn i).id (lvl + 1) (a2tSetLvl st i lvl) sub stb hcall
          (by simp [a2tSetLvl, hk]) (by simp [a2tSetLvl, hl])
          (by exact hinv)
        obtain ⟨⟨hkb, hlb⟩, hinvb, hkm, hlm, hsome, hnone⟩ := hstep
        have hkids_written : (a2tSetKids stb i (sub.getD [])).kids.getD i none =
            some (sub.getD []) := by
          show (stb.kids.set i (some (sub.getD []))).getD i none = some (sub.getD [])
          exact getD_set_self stb.kids i _ none (by omega)
        have hkids_other : ∀ j, i ≠ j →
            (a2tSetKids stb i (sub.getD [])).kids.getD j none = stb.kids.getD j none := by
          intro j hij
          exact getD_set_ne stb.kids i j _ none hij
        have hcanon : sub.getD [] = childrenIdxBy arrIn (recAt arrIn i).id := by
          cases sub with
          | none => simpa using (hnone rfl).1.symm
          | some idxs => simpa using (hsome idxs rfl).1
        have hinvc : A2tInv arrIn (a2tSetKids stb i (sub.getD [])) := by
          refine ⟨?_, ?_, ?_, ?_⟩
          · intro i2 l2 h2
            by_cases e : i = i2
            · subst e
              rw [hkids_written] at h2
              cases h2
              exact hcanon
            · rw [hkids_other i2 e] at h2
              exact hinvb.1 i2 l2 h2
          · intro i2 h2
            exact hinvb.2.1 i2 h2
          · intro i2 l2 h2 j hj
            have hjassigned : (stb.kids.getD j none).isSome = true ∨ j = i := by
              by_cases e : i = i2
              · subst e
                rw [hkids_written] at h2
                cases h2
                cases sub with
                | none => simp at hj
                | some idxs =>
                  by_cases ej : j = i
                  · exact Or.inr ej
                  · exact Or.inl ((hsome idxs rfl).2.2 j (by simpa using hj))
              · rw [hkids_other i2 e] at h2
                by_cases ej : j = i
                · exact Or.inr ej
                · exact Or.inl (hinvb.2.2.1 i2 l2 h2 j hj)
            rcases hjassigned with hja | hja
            · by_cases ej : i = j
              · subst ej
                rw [hkids_written]
                rfl
              · rw [hkids_other j ej]
                exact hja
            · subst hja
              rw [hkids_written]
              rfl
          · intro hu i2 hi2 h2
            show stb.leaf.getD i2 false = true
            by_cases e : i = i2
            · subst e
              rw [hkids_written] at h2
              have h2e : sub.getD [] = [] := by injection h2
              cases sub with
              | none => exact (hnone rfl).2 hu i hi rfl
              | some idxs =>
                exfalso
                exact (hsome idxs rfl).2.1 (by simpa using h2e)
            · rw [hkids_other i2 e] at h2
              exact hinvb.2.2.2 hu i2 hi2 h2
        have hrest := ihr _ _ _ h (fun j hj => hrange j (by simp [hj]))
          (by simp [a2tSetKids, hkb]) (by simp [a2tSetKids, hlb]) hinvc
        obtain ⟨hlen2, hinv2, hkm2, hlm2, hmem2⟩ := hrest
        refine ⟨hlen2, hinv2, ?_, ?_, ?_⟩
        · intro j hj
          refine hkm2 j ?_
          by_cases ej : i = j
          · subst ej
            rw [hkids_written]
            rfl
          · rw [hkids_other j ej]
            exact hkm j hj
        · intro j hj
          exact hlm2 j (hlm j hj)
        · intro j hj
          rcases List.mem_cons.mp hj with hj | hj
          · subst hj
            refine hkm2 j ?_
            rw [hkids_written]
            rfl
          · exact hmem2 j hj
  intro f
  induction f with
  | zero =>
    have hP : A2tStep arrIn 0 := by
      intro v lvl st r st2 h
      simp [a2tAux] at h
    exact ⟨hP, goOf 0 hP⟩
  | succ f ih =>
    have hP : A2tStep arrIn (f + 1) := by
      intro v lvl st r st2 h hk hl hinv
      rw [a2tAux] at h
      by_cases he : childrenIdxBy arrIn v = []
      · simp only [he, List.isEmpty_nil, if_pos] at h
        split at h
        · rename_i j hfind
          simp only [Option.some.injEq, Prod.mk.injEq] at h
          obtain ⟨hr, hst⟩ := h
          subst hr
          subst hst
          obtain ⟨hjlt, hjp, hjfirst⟩ := findIdx?_charD arrIn _ j defaultRec hfind
          have hjid : (recAt arrIn j).id = v := by
            have := of_decide_eq_true hjp
            simpa [recAt] using this
          have hleaf_self : (a2tSetLeaf st j).leaf.getD j false = true := by
            show (st.leaf.set j true).getD j false = true
            exact getD_set_self st.leaf j true false (by omega)
          have hleaf_other : ∀ i, j ≠ i →
              (a2tSetLeaf st j).leaf.getD i false = st.leaf.getD i false := by
            intro i hij
            exact getD_set_ne st.leaf j i true false hij
          refine ⟨⟨by simp [a2tSetLeaf, hk], by simp [a2tSetLeaf, hl]⟩, ?_, ?_, ?_, ?_, ?_⟩
          · refine ⟨hinv.1, ?_, hinv.2.2.1, ?_⟩
            · intro i h2
              by_cases e : j = i
              · subst e
                rw [hjid]
                exact he
              · rw [hleaf_other i e] at h2
                exact hinv.2.1 i h2
            · intro hu i hi h2
              by_cases e : j = i
              · subst e
                exact hleaf_self
              · rw [hleaf_other i e]
                exact hinv.2.2.2 hu i hi h2
          · intro i hi
            exact hi
          · intro i hi
            by_cases e : j = i
            · subst e
              exact hleaf_self
            · rw [hleaf_other i e]
              exact hi
          · intro idxs hidxs
            cases hidxs
          · intro _
            refine ⟨he, ?_⟩
            intro hu i hi hid
            have : i = j := uniqueIds_inj arrIn hu i j hi hjlt (by rw [hid, hjid])
            subst this
            exact hleaf_self
        · rename_i hfind
          simp only [Option.some.injEq, Prod.mk.injEq] at h
          obtain ⟨hr, hst⟩ := h
          subst hr
          subst hst
          refine ⟨⟨hk, hl⟩, hinv, fun i hi => hi, fun i hi => hi, ?_, ?_⟩
          · intro idxs hidxs
            cases hidxs
          · intro _
            refine ⟨he, ?_⟩
            intro hu i hi hid
            exfalso
            have hall := List.findIdx?_eq_none_iff.mp hfind
            have hmem : arrIn.getD i defaultRec ∈ arrIn := by
              rw [List.getD_eq_getElem arrIn defaultRec hi]
              exact List.getElem_mem hi
            have := hall _ hmem
            rw [show arrIn.getD i defaultRec = recAt arrIn i from rfl] at this
            rw [show strictEq (recAt arrIn i).id v = true by simp [strictEq, hid]] at this
            cases this
      · have hne : ¬((childrenIdxBy arrIn v).isEmpty = true) := by
          simp [List.isEmpty_iff, he]
        simp only [if_neg hne] at h
        split at h
        · simp at h
        · rename_i stg hgo
          simp only [Option.some.injEq, Prod.mk.injEq] at h
          obtain ⟨hr, hst⟩ := h
          subst hr
          subst hst
          have hrange : ∀ i ∈ childrenIdxBy arrIn v, i < arrIn.length := by
            intro i hi
            have : i ∈ List.range arrIn.length := (List.mem_filter.mp hi).1
            exact List.mem_range.mp this
          obtain ⟨hlen2, hinv2, hkm2, hlm2, hmem2⟩ :=
            (goOf f ih.1) _ _ _ _ hgo hrange hk hl hinv
          refine ⟨hlen2, hinv2, hkm2, hlm2, ?_, ?_⟩
          · intro idxs hidxs
            cases hidxs
            exact ⟨rfl, he, hmem2⟩
          · intro hcon
            cases hcon
    exact ⟨hP, goOf (f + 1) hP⟩

/-- If assigned children always point to assigned records, then every node
of a realized forest of assigned roots carries a `$children` field. -/
theorem realize_hasKids (arrIn : List Rec) (st : A2tState)
    (hI3 : ∀ i l, st.kids.getD i none = some l →
      ∀ j ∈ l, (st.kids.getD j none).isSome = true) :
    ∀ rf idxs, (∀ i ∈ idxs, (st.kids.getD i none).isSome = true) →
      ∀ t ∈ tnodesList (realizeForest arrIn st rf idxs), t.hasKids = true := by
  intro rf
  induction rf with
  | zero =>
    intro idxs hassigned t ht
    induction idxs with
    | nil => simp [realizeForest, tnodesList] at ht
    | cons i rest ihr =>
      simp only [realizeForest, List.map_cons, realizeT, tnodesList, List.mem_cons] at ht
      rcases ht with ht | ht
      · subst ht
        simpa [TNode.hasKids] using hassigned i (by simp)
      · simp only [tnodesList, List.nil_append] at ht
        exact ihr (fun j hj => hassigned j (by simp [hj])) ht
  | succ rf ihf =>
    intro idxs hassigned t ht
    induction idxs with
    | nil => simp [realizeForest, tnodesList] at ht
    | cons i rest ihr =>
      simp only [realizeForest, List.map_cons, realizeT, tnodesList, List.mem_cons,
        List.mem_append] at ht
      rcases ht with ht | ht | ht
      · subst ht
        simpa [TNode.hasKids] using hassigned i (by simp)
      · have hsome := hassigned i (by simp)
        cases hk : st.kids.getD i none with
        | none => rw [hk] at hsome; simp at hsome
        | some l =>
          have hmembers := hI3 i l hk
          have := ihf l (fun j hj => hmembers j hj) t
          rw [hk] at ht
          exact this (by simpa [realizeForest] using ht)
      · exact ihr (fun j hj => hassigned j (by simp [hj])) ht

/-! ### Claim C10: amended -/

/-- Claim C10 as amended (proved).  (1) Whenever no record's parent matches
`startWith`, `array2Tree` returns `undefined` (modelled `none`), not an
empty list — on any store and any fuel.  (2) For a completed default run
that returns a tree, every node reachable in the realized tree carries a
`$children` field (the `undefined` recursive result is replaced by `[]`).
(3) Under unique identifiers, a visited record whose `$children` is the
empty array also carries `$is_leaf = 1`.  Dropping the uniqueness hypothesis
makes (3) false (`c10_counterexample`). -/
theorem c10_amended :
    (∀ (arrIn : List Rec) (v : Value) (lvl : Nat) (st : A2tState) (f : Nat),
      childrenIdxBy arrIn v = [] →
      ∃ st2, a2tAux arrIn (f + 1) v lvl st = some (none, st2)) ∧
    (∀ (arrIn : List Rec) (f : Nat) (v : Value) (r : Option (List Nat)) (st2 : A2tState)
        (rf : Nat) (idxs : List Nat),
      a2tAux arrIn f v 1 (initA2t arrIn.length) = some (r, st2) →
      (r = some idxs →
        ∀ t ∈ tnodesList (realizeForest arrIn st2 rf idxs), t.hasKids = true) ∧
      (uniqueIdsB arrIn = true → ∀ i, i < arrIn.length →
        st2.kids.getD i none = some [] → st2.leaf.getD i false = true)) := by
  constructor
  · intro arrIn v lvl st f he
    rw [a2tAux]
    simp only [he, List.isEmpty_nil, if_pos]
    cases hfind : arrIn.findIdx? (fun r => strictEq r.id v) with
    | some j => exact ⟨a2tSetLeaf st j, by simp⟩
    | none => exact ⟨st, by simp⟩
  · intro arrIn f v r st2 rf idxs hrun
    have hstep := (a2t_step arrIn f).1 v 1 (initA2t arrIn.length) r st2 hrun
      (by simp [initA2t]) (by simp [initA2t])
      (by
        refine ⟨?_, ?_, ?_, ?_⟩
        · intro i l hl
          simp [initA2t, List.getD] at hl
        · intro i hl
          simp [initA2t, List.getD] at hl
        · intro i l hl
          simp [initA2t, List.getD] at hl
        · intro _ i _ hl
          simp [initA2t, List.getD] at hl)
    obtain ⟨hlen, hinv, hkm, hlm, hsome, hnone⟩ := hstep
    constructor
    · intro hr t ht
      subst hr
      exact realize_hasKids arrIn st2 hinv.2.2.1 rf idxs (hsome idxs rfl).2.2 t ht
    · intro hu i hi hk
      exact hinv.2.2.2 hu i hi hk

/-- Witness for `c10_amended`: the basic three-record forest, with the
no-match half instantiated at a `startWith` matching nothing. -/
theorem c10_witness :
    (childrenIdxBy exBasic (Value.num 99) = [] ∧
      (∃ st2, a2tAux exBasic 1 (Value.num 99) 1 (initA2t exBasic.length) = some (none, st2))) ∧
    (array2Tree exBasic 4 Value.null =
        some (some [0], ⟨[some 1, some 2, some 2], [some [1, 2], some [], some []],
          [false, true, true]⟩) ∧
      uniqueIdsB exBasic = true ∧
      (∀ t ∈ tnodesList (realizeForest exBasic
          ⟨[some 1, some 2, some 2], [some [1, 2], some [], some []], [false, true, true]⟩
          3 [0]), t.hasKids = true) ∧
      (∀ i, i < exBasic.length →
        (⟨[some 1, some 2, some 2], [some [1, 2], some [], some []],
          [false, true, true]⟩ : A2tState).kids.getD i none = some [] →
        (⟨[some 1, some 2, some 2], [some [1, 2], some [], some []],
          [false, true, true]⟩ : A2tState).leaf.getD i false = true)) := by
  refine ⟨⟨by decide, (c10_amended.1 exBasic (Value.num 99) 1 (initA2t exBasic.length) 0
    (by decide))⟩, by decide, by decide, ?_, ?_⟩
  · exact (c10_amended.2 exBasic 4 Value.null (some [0])
      ⟨[some 1, some 2, some 2], [some [1, 2], some [], some []], [false, true, true]⟩
      3 [0] (by decide)).1 rfl
  · intro i hi hk
    exact (c10_amended.2 exBasic 4 Value.null (some [0])
      ⟨[some 1, some 2, some 2], [some [1, 2], some [], some []], [false, true, true]⟩
      3 [0] (by decide)).2 (by decide) i hi hk

/-- Chain lengths are below the fuel that computes them. -/
theorem chainLen_lt (arrIn : List Rec) :
    ∀ f i d, chainLen arrIn f i = some d → d < f := by
  intro f
  induction f with
  | zero => intro i d h; simp [chainLen] at h
  | succ f ih =>
    intro i d h
    rw [chainLen] at h
    split at h
    · simp at h; omega
    · split at h
      · simp at h; omega
      · rename_i j hj
        simp only [Option.map_eq_some'] at h
        obtain ⟨d2, hd2, hdd⟩ := h
        have := ih j d2 hd2
        omega

/-- The chain product does not depend on the fuel, as long as the fuel
exceeds the chain length. -/
theorem chainProd_stable (arrIn : List Rec) :
    ∀ d i f g, chainLen arrIn f i = some d → d < f → d < g →
      chainProd arrIn f i = chainProd arrIn g i := by
  intro d
  induction d using Nat.strong_induction_on with
  | _ d ih =>
    intro i f g hlen hf hg
    match f, g with
    | Nat.succ f, Nat.succ g =>
      rw [chainLen] at hlen
      rw [chainProd, chainProd]
      split at hlen
      · rename_i hnull
        rw [if_pos hnull, if_pos hnull]
      · rename_i hnull
        rw [if_neg hnull, if_neg hnull]
        split at hlen
        · rfl
        · rename_i j hfind
          simp only [Option.map_eq_some'] at hlen
          obtain ⟨d2, hd2, hdd⟩ := hlen
          have hd2f : d2 < f := chainLen_lt arrIn f j d2 hd2
          have hd2g : d2 < g := by omega
          rw [ih d2 (by omega) j f g hd2 hd2f hd2g]

/-- The chain product is the left fold of the weight shares along the
root-first path. -/
theorem chainProd_eq_path (arrIn : List Rec) :
    ∀ f i, chainProd arrIn f i =
      (pathIdxs arrIn f i).foldl (fun a j => jsMul a (specWp arrIn j)) (JsNum.num 1) := by
  intro f
  induction f with
  | zero => intro i; simp [chainProd, pathIdxs]
  | succ f ih =>
    intro i
    rw [chainProd, pathIdxs]
    split
    · simp
    · split
      · simp
      · rename_i j hfind
        rw [List.foldl_append, ih j]
        simp

/-- The chain-field soundness ladder for `array2SortAndWeight`, under unique
non-nullish identifiers and acyclic parent references. -/
theorem saw_chain (arrIn : List Rec) (hu : uniqueIdsB arrIn = true)
    (hl : idsLiveB arrIn = true) (hc : chainTotalB arrIn = true) :
    ∀ f, SawChainAux arrIn f ∧ SawChainGo arrIn f := by
  have loopOf : ∀ f, SawChainAux arrIn f → SawChainGo arrIn f := by
    intro f hP is
    induction is with
    | nil =>
      intro lvl rw sw pIdx k acc st acc2 st2 h hlen hvals hci hpa
      simp [sawGo] at h
      rw [← h.2]
      exact ⟨hlen, hci, hpa, fun i hi => hi⟩
    | cons i rest ihr =>
      intro lvl rw sw pIdx k acc st acc2 st2 h hlen hvals hci hpa
      rw [sawGo] at h
      obtain ⟨hi, hrw, hrwp, hpe⟩ := hvals i (by simp)
      set m : SawMeta := ⟨sw, jsDiv (wOrZero (recAt arrIn i)) sw, rw,
        jsMul rw (jsDiv (wOrZero (recAt arrIn i)) sw), lvl, k, joinIdx pIdx k⟩ with hm
      have hlen2 : (sawWrite st i m).meta.length = arrIn.length := by
        simp [sawWrite, hlen]
      have hgetset : ∀ j, (sawWrite st i m).meta.getD j none =
          if i = j then some m else st.meta.getD j none := by
        intro j
        by_cases e : i = j
        · subst e
          simp only [if_pos rfl]
          exact getD_set_self st.meta i (some m) none (by omega)
        · rw [if_neg e]
          exact getD_set_ne st.meta i j (some m) none e
      have hci2 : ChainInv arrIn (sawWrite st i m) := by
        intro j mj hj
        rw [hgetset j] at hj
        by_cases e : i = j
        · rw [if_pos e] at hj
          cases hj
          subst e
          exact ⟨hrw.symm ▸ rfl, hrwp⟩
        · rw [if_neg e] at hj
          exact hci j mj hj
      have hpa2 : ParentAssigned arrIn (sawWrite st i m) := by
        intro j mj hj hnn
        rw [hgetset j] at hj
        by_cases e : i = j
        · subst e
          obtain ⟨j2, hj2, hid2, hs2⟩ := hpe hnn
          refine ⟨j2, hj2, hid2, ?_⟩
          rw [hgetset j2]
          split
          · rfl
          · exact hs2
        · rw [if_neg e] at hj
          obtain ⟨j2, hj2, hid2, hs2⟩ := hpa j mj hj hnn
          refine ⟨j2, hj2, hid2, ?_⟩
          rw [hgetset j2]
          split
          · rfl
          · exact hs2
      split at h
      · simp at h
      · rename_i acc3 st3 hcall
        have hcok : CallOKA arrIn (recAt arrIn i).id
            (jsMul rw (jsDiv (wOrZero (recAt arrIn i)) sw)) (sawWrite st i m) := by
          refine Or.inr ⟨i, hi, rfl, hrwp, ?_⟩
          rw [hgetset i, if_pos rfl]
          rfl
        obtain ⟨hl3, hci3, hpa3, hmono3⟩ := hP _ _ _ _ _ _ _ _ hcall hlen2 hcok hci2 hpa2
        have hmono23 : ∀ j, (st.meta.getD j none).isSome = true →
            (st3.meta.getD j none).isSome = true := by
          intro j hj
          refine hmono3 j ?_
          rw [hgetset j]
          split
          · rfl
          · exact hj
        obtain ⟨hl4, hci4, hpa4, hmono4⟩ := ihr _ _ _ _ _ _ _ _ _ h hl3
          (by
            intro j hj
            obtain ⟨h1, h2, h3, h4⟩ := hvals j (by simp [hj])
            exact ⟨h1, h2, h3, fun hnn => by
              obtain ⟨j2, hj2, hid2, hs2⟩ := h4 hnn
              exact ⟨j2, hj2, hid2, hmono23 j2 hs2⟩⟩)
          hci3 hpa3
        exact ⟨hl4, hci4, hpa4, fun j hj => hmono4 j (hmono23 j hj)⟩
  intro f
  induction f with
  | zero =>
    have hP : SawChainAux arrIn 0 := by
      intro v lvl rw acc pIdx st acc2 st2 h
      simp [sawAux] at h
    exact ⟨hP, loopOf 0 hP⟩
  | succ f ih =>
    have hP : SawChainAux arrIn (f + 1) := by
      intro v lvl rw acc pIdx st acc2 st2 h hlen hcok hci hpa
      rw [sawAux] at h
      by_cases hg : arrIn.length < acc.length
      · simp [hg] at h
        rw [← h.2]
        exact ⟨hlen, hci, hpa, fun i hi => hi⟩
      · simp [hg] at h
        by_cases he : childrenIdxW arrIn v = []
        · simp [he] at h
          rw [← h.2]
          refine ⟨by rw [sawMarkLeaf_meta]; exact hlen, ?_, ?_, ?_⟩
          · intro j mj hj
            rw [sawMarkLeaf_meta] at hj
            exact hci j mj hj
          · intro j mj hj hnn
            rw [sawMarkLeaf_meta] at hj
            obtain ⟨j2, hj2, hid2, hs2⟩ := hpa j mj hj hnn
            exact ⟨j2, hj2, hid2, by rw [sawMarkLeaf_meta]; exact hs2⟩
          · intro j hj
            rw [sawMarkLeaf_meta]
            exact hj
        · simp [he] at h
          refine (loopOf f ih.1) _ _ _ _ _ _ _ _ _ _ h hlen ?_ hci hpa
          intro i hi
          have hmem : i < arrIn.length ∧ matchW v (recAt arrIn i).parent = true := by
            simpa [childrenIdxW, List.mem_filter] using hi
          obtain ⟨hilt, himatch⟩ := hmem
          have hgs : groupSum arrIn v = groupSum arrIn (recAt arrIn i).parent :=
            groupSum_canon arrIn v (recAt arrIn i).parent himatch
          rcases hcok with ⟨hv, hrw⟩ | ⟨j, hjlt, hv, hrw, hjs⟩
          · -- the root call: the matched record has a nullish parent
            subst hv
            have hnull : (recAt arrIn i).parent.isNullish = true := by
              rcases (by simpa [matchW] using himatch :
                  strictEq (recAt arrIn i).parent Value.null = true ∨
                    Value.null.isNullish = true ∧ (recAt arrIn i).parent.isNullish = true)
                with hs | hs
              · have : (recAt arrIn i).parent = Value.null := of_decide_eq_true hs
                rw [this]; rfl
              · exact hs.2
            refine ⟨hilt, ?_, ?_, ?_⟩
            · rw [hrw, parentShare, if_pos hnull]
            · subst hrw
              rw [show chainProdN arrIn i = chainProd arrIn arrIn.length i from rfl]
              match hn : arrIn.length with
              | 0 => omega
              | Nat.succ n0 =>
                rw [chainProd, if_pos hnull, specWp, ← hgs]
            · intro hnn
              rw [hnull] at hnn
              cases hnn
          · -- a child call below an assigned record j
            have hjid : (recAt arrIn j).id.isNullish = false := by
              have hmem := List.all_eq_true.mp hl (arrIn.getD j defaultRec) (by
                rw [List.getD_eq_getElem arrIn defaultRec hjlt]
                exact List.getElem_mem hjlt)
              simpa [recAt] using hmem
            have hpi : (recAt arrIn i).parent = (recAt arrIn j).id := by
              rcases (by rw [hv] at himatch; simpa [matchW] using himatch :
                  strictEq (recAt arrIn i).parent (recAt arrIn j).id = true ∨
                    (recAt arrIn j).id.isNullish = true ∧
                      (recAt arrIn i).parent.isNullish = true) with hs | hs
              · exact of_decide_eq_true hs
              · rw [hs.1] at hjid
                cases hjid
            have hnn : (recAt arrIn i).parent.isNullish = false := by
              rw [hpi]; exact hjid
            have hfind : arrIn.findIdx? (fun r => strictEq r.id (recAt arrIn i).parent) =
                some j := by
              cases hf : arrIn.findIdx? (fun r => strictEq r.id (recAt arrIn i).parent) with
              | none =>
                exfalso
                have hall := List.findIdx?_eq_none_iff.mp hf
                have := hall (arrIn.getD j defaultRec) (by
                  rw [List.getD_eq_getElem arrIn defaultRec hjlt]
                  exact List.getElem_mem hjlt)
                rw [show strictEq (arrIn.getD j defaultRec).id (recAt arrIn i).parent = true from
                  decide_eq_true (show (arrIn.getD j defaultRec).id = (recAt arrIn i).parent from
                    hpi.symm)] at this
                cases this
              | some j0 =>
                obtain ⟨hj0lt, hj0p, _⟩ := findIdx?_charD arrIn _ j0 defaultRec hf
                have hj0id : (recAt arrIn j0).id = (recAt arrIn i).parent :=
                  of_decide_eq_true hj0p
                have : j0 = j := uniqueIds_inj arrIn hu j0 j hj0lt hjlt (by rw [hj0id, hpi])
                rw [this]
            refine ⟨hilt, ?_, ?_, ?_⟩
            · rw [hrw]
              simp only [parentShare, hnn, Bool.false_eq_true, if_false, hfind]
            · subst hrw
              rw [show chainProdN arrIn i = chainProd arrIn arrIn.length i from rfl]
              match hn : arrIn.length with
              | 0 => omega
              | Nat.succ n0 =>
                rw [chainProd]
                simp only [hnn, Bool.false_eq_true, if_false, hfind]
                have hct : (chainLen arrIn arrIn.length i).isSome = true := by
                  have := List.all_eq_true.mp hc i (by
                    exact List.mem_range.mpr hilt)
                  simpa using this
                cases hcl : chainLen arrIn arrIn.length i with
                | none => rw [hcl] at hct; simp at hct
                | some d =>
                  rw [hn] at hcl
                  rw [chainLen] at hcl
                  simp only [hnn, Bool.false_eq_true, if_false, hfind] at hcl
                  simp only [Option.map_eq_some'] at hcl
                  obtain ⟨d2, hd2, hdd⟩ := hcl
                  have hst : chainProd arrIn n0 j = chainProd arrIn arrIn.length j := by
                    refine chainProd_stable arrIn d2 j n0 arrIn.length hd2
                      (chainLen_lt arrIn n0 j d2 hd2)
                      (by rw [hn]; have := chainLen_lt arrIn n0 j d2 hd2; omega)
                  rw [hst, ← chainProdN, specWp, ← hgs]
            · intro _
              exact ⟨j, hjlt, hpi.symm, hjs⟩
    exact ⟨hP, loopOf (f + 1) hP⟩

/-- Under unique identifiers, `findIdx?` on an identifier value finds
exactly the record carrying it. -/
theorem findIdx_of_id (arrIn : List Rec) (hu : uniqueIdsB arrIn = true) (j : Nat)
    (hjlt : j < arrIn.length) (p : Value) (hid : (recAt arrIn j).id = p) :
    arrIn.findIdx? (fun r => strictEq r.id p) = some j := by
  cases hf : arrIn.findIdx? (fun r => strictEq r.id p) with
  | none =>
    exfalso
    have hall := List.findIdx?_eq_none_iff.mp hf
    have := hall (arrIn.getD j defaultRec) (by
      rw [List.getD_eq_getElem arrIn defaultRec hjlt]
      exact List.getElem_mem hjlt)
    rw [show strictEq (arrIn.getD j defaultRec).id p = true from
      decide_eq_true (show (arrIn.getD j defaultRec).id = p from hid)] at this
    cases this
  | some j0 =>
    obtain ⟨hj0lt, hj0p, _⟩ := findIdx?_charD arrIn _ j0 defaultRec hf
    have hj0id : (recAt arrIn j0).id = p := of_decide_eq_true hj0p
    have : j0 = j := uniqueIds_inj arrIn hu j0 j hj0lt hjlt (by rw [hj0id, hid])
    rw [this]

/-! ### Claim C5: amended -/

/-- Claim C5 as amended (proved).  For an input with unique, non-nullish
identifiers and acyclic parent references, every record emitted by the
default `array2SortAndWeight` call carries: its canonical weight share; a
`$parent_weight_percent` of `1` if it is top-level, and otherwise the
`$root_weight_percent` of the record holding its parent identifier; and a
`$root_weight_percent` equal to the left-to-right product of the weight
shares along the path from its root down to itself.  Dropping "non-nullish
identifiers" makes the claim false (`c5_counterexample`). -/
theorem c5_amended (arrIn : List Rec) (hu : uniqueIdsB arrIn = true)
    (hl : idsLiveB arrIn = true) (hc : chainTotalB arrIn = true)
    (i : Nat) (hmem : i ∈ (array2SortAndWeight arrIn Value.null).1) :
    ∃ m, (array2SortAndWeight arrIn Value.null).2.meta.getD i none = some m ∧
      m.wp = specWp arrIn i ∧
      ((recAt arrIn i).parent.isNullish = true → m.pwp = JsNum.num 1) ∧
      ((recAt arrIn i).parent.isNullish = false →
        ∃ j mj, j < arrIn.length ∧ (recAt arrIn j).id = (recAt arrIn i).parent ∧
          (array2SortAndWeight arrIn Value.null).2.meta.getD j none = some mj ∧
          m.pwp = mj.rwp) ∧
      m.rwp = (pathIdxs arrIn arrIn.length i).foldl
        (fun a j => jsMul a (specWp arrIn j)) (JsNum.num 1) := by
  have hrun := sawAux_run_eq arrIn Value.null
  have hinv := (saw_inv arrIn (sbtFuel arrIn)).1 _ _ _ _ _ _ _ _ hrun
    (by simp [initSaw]) (by intro j m hj; simp [initSaw, List.getD] at hj)
    (by intro j hj; simp at hj)
  have hchain := (saw_chain arrIn hu hl hc (sbtFuel arrIn)).1 _ _ _ _ _ _ _ _ hrun
    (by simp [initSaw]) (Or.inl ⟨rfl, rfl⟩)
    (by intro j m hj; simp [initSaw, List.getD] at hj)
    (by intro j m hj; simp [initSaw, List.getD] at hj)
  have hassigned : ((array2SortAndWeight arrIn Value.null).2.meta.getD i none).isSome = true :=
    hinv.2.2 i hmem
  cases hmi : (array2SortAndWeight arrIn Value.null).2.meta.getD i none with
  | none => rw [hmi] at hassigned; simp at hassigned
  | some m =>
    have hciv : ChainInv arrIn (array2SortAndWeight arrIn Value.null).2 := hchain.2.1
    have hpav : ParentAssigned arrIn (array2SortAndWeight arrIn Value.null).2 := hchain.2.2.1
    have hsinv : SawInv arrIn (array2SortAndWeight arrIn Value.null).2 := hinv.2.1
    obtain ⟨hpwp, hrwp⟩ := hciv i m hmi
    refine ⟨m, rfl, (hsinv i m hmi).2, ?_, ?_, ?_⟩
    · intro hnull
      rw [hpwp, parentShare, if_pos hnull]
    · intro hnn
      obtain ⟨j, hjlt, hjid, hjs⟩ := hpav i m hmi hnn
      cases hmj : (array2SortAndWeight arrIn Value.null).2.meta.getD j none with
      | none => rw [hmj] at hjs; simp at hjs
      | some mj =>
        refine ⟨j, mj, hjlt, hjid, hmj, ?_⟩
        rw [hpwp, (hciv j mj hmj).2, parentShare]
        simp only [hnn, Bool.false_eq_true, if_false, findIdx_of_id arrIn hu j hjlt _ hjid]
    · rw [hrwp, chainProdN, chainProd_eq_path]

unseal Rat.add Rat.mul Rat.inv in
/-- Witness for `c5_amended` at the concrete weighted scenario: record `1`
(weight 60 under the root) satisfies all hypotheses. -/
theorem c5_witness :
    uniqueIdsB exBasic = true ∧ idsLiveB exBasic = true ∧ chainTotalB exBasic = true ∧
    1 ∈ (array2SortAndWeight exBasic Value.null).1 ∧
    ∃ m, (array2SortAndWeight exBasic Value.null).2.meta.getD 1 none = some m ∧
      m.wp = specWp exBasic 1 ∧
      ((recAt exBasic 1).parent.isNullish = true → m.pwp = JsNum.num 1) ∧
      ((recAt exBasic 1).parent.isNullish = false →
        ∃ j mj, j < exBasic.length ∧ (recAt exBasic j).id = (recAt exBasic 1).parent ∧
          (array2SortAndWeight exBasic Value.null).2.meta.getD j none = some mj ∧
          m.pwp = mj.rwp) ∧
      m.rwp = (pathIdxs exBasic exBasic.length 1).foldl
        (fun a j => jsMul a (specWp exBasic j)) (JsNum.num 1) :=
  ⟨by decide, by decide, by decide, by decide,
    c5_amended exBasic (by decide) (by decide) (by decide) 1 (by decide)⟩

/-! ### Descendant lists of a well-formed forest -/

/-- When every parent reference is a root marker or a sound identifier, the
looser matcher of `array2Tree`/`array2SortByTree` coincides with the strict
one: the `== ''` disjunct can never fire. -/
theorem childrenIdx_eq (arrIn : List Rec) (hp : parentsOkB arrIn = true) (v : Value) :
    childrenIdxBy arrIn v = childrenIdxW arrIn v := by
  unfold childrenIdxBy childrenIdxW
  refine List.filter_congr ?_
  intro i hi
  have hilt : i < arrIn.length := List.mem_range.mp hi
  have hpo := List.all_eq_true.mp hp (arrIn.getD i defaultRec) (by
    rw [List.getD_eq_getElem arrIn defaultRec hilt]
    exact List.getElem_mem hilt)
  have hpo2 : (recAt arrIn i).parent.isNullish = true ∨
      ((recAt arrIn i).parent.eqEmptyStr = false ∧
        ∃ r ∈ arrIn, strictEq r.id (recAt arrIn i).parent = true) := by
    simpa [recAt] using hpo
  have hcases : (recAt arrIn i).parent.isNullish = true ∨
      (recAt arrIn i).parent.eqEmptyStr = false := by
    rcases hpo2 with hc | hc
    · exact Or.inl hc
    · exact Or.inr hc.1
  unfold matchBy matchW
  rcases hcases with hc | hc
  · have : (recAt arrIn i).parent.eqEmptyStr = false := by
      cases hv : (recAt arrIn i).parent <;> simp_all [Value.isNullish, Value.eqEmptyStr]
    rw [this]
    simp
  · rw [hc]
    simp

/-- Peeling the last hop instead of the first. -/
theorem iterHop_last (arrIn : List Rec) :
    ∀ k j c, iterHop arrIn (k + 1) j = some c ↔
      ∃ c1, iterHop arrIn k j = some c1 ∧ hopIdx arrIn c1 = some c := by
  intro k
  induction k with
  | zero =>
    intro j c
    constructor
    · intro h
      rw [iterHop] at h
      cases hh : hopIdx arrIn j with
      | none => rw [hh] at h; simp at h
      | some j2 =>
        rw [hh] at h
        simp [iterHop] at h
        exact ⟨j, by simp [iterHop], by rw [hh, h]⟩
    · intro ⟨c1, h1, h2⟩
      simp [iterHop] at h1
      subst h1
      rw [iterHop, h2]
      simp [iterHop]
  | succ k ih =>
    intro j c
    constructor
    · intro h
      rw [iterHop] at h
      cases hh : hopIdx arrIn j with
      | none => rw [hh] at h; simp at h
      | some j2 =>
        rw [hh] at h
        obtain ⟨c1, h1, h2⟩ := (ih j2 c).mp h
        refine ⟨c1, ?_, h2⟩
        rw [iterHop, hh]
        exact h1
    · intro ⟨c1, h1, h2⟩
      rw [iterHop] at h1 ⊢
      cases hh : hopIdx arrIn j with
      | none => rw [hh] at h1; simp at h1
      | some j2 =>
        rw [hh] at h1
        exact (ih j2 c).mpr ⟨c1, h1, h2⟩

/-- Chain lengths are fuel-independent once the fuel exceeds them. -/
theorem chainLen_stable (arrIn : List Rec) :
    ∀ d i f g, chainLen arrIn f i = some d → d < g →
      chainLen arrIn g i = some d := by
  intro d
  induction d using Nat.strong_induction_on with
  | _ d ih =>
    intro i f g hlen hg
    match f, g with
    | 0, _ => simp [chainLen] at hlen
    | Nat.succ f, Nat.succ g =>
      rw [chainLen] at hlen
      rw [chainLen]
      split at hlen
      · rename_i hnull
        rw [if_pos hnull]
        exact hlen
      · rename_i hnull
        rw [if_neg hnull]
        split at hlen
        · exact hlen
        · rename_i j hfind
          simp only [Option.map_eq_some'] at hlen
          obtain ⟨d2, hd2, hdd⟩ := hlen
          rw [ih d2 (by omega) j f g hd2 (by omega)]
          simp [hdd]

/-- On acyclic input the canonical chain length is what `chainLen` computes. -/
theorem dVal_chainLen (arrIn : List Rec) (hc : chainTotalB arrIn = true) (i : Nat)
    (hi : i < arrIn.length) :
    chainLen arrIn arrIn.length i = some (dVal arrIn i) := by
  have := List.all_eq_true.mp hc i (List.mem_range.mpr hi)
  cases hcl : chainLen arrIn arrIn.length i with
  | none => rw [hcl] at this; simp at this
  | some d => simp [dVal, hcl]

/-- A defined hop target is in range and sits one chain step closer to the
root. -/
theorem hop_dVal (arrIn : List Rec) (hc : chainTotalB arrIn = true) (i j : Nat)
    (hi : i < arrIn.length) (hh : hopIdx arrIn i = some j) :
    j < arrIn.length ∧ dVal arrIn i = dVal arrIn j + 1 := by
  rw [hopIdx] at hh
  split at hh
  · cases hh
  · rename_i hnull
    obtain ⟨hjlt, _, _⟩ := findIdx?_charD arrIn _ j defaultRec hh
    refine ⟨hjlt, ?_⟩
    have hcl := dVal_chainLen arrIn hc i hi
    match hn : arrIn.length with
    | 0 => omega
    | Nat.succ m =>
      rw [hn] at hcl
      rw [chainLen, if_neg hnull, hh] at hcl
      simp only [Option.map_eq_some'] at hcl
      obtain ⟨d2, hd2, hdd⟩ := hcl
      have hstab : chainLen arrIn arrIn.length j = some d2 := by
        refine chainLen_stable arrIn d2 j m arrIn.length hd2 ?_
        have := chainLen_lt arrIn m j d2 hd2
        omega
      have : dVal arrIn j = d2 := by simp [dVal, hstab]
      rw [this]
      omega

/-- Iterated hops are in range and add their count to the chain length. -/
theorem iterHop_dVal (arrIn : List Rec) (hc : chainTotalB arrIn = true) :
    ∀ k i c, i < arrIn.length → iterHop arrIn k i = some c →
      c < arrIn.length ∧ dVal arrIn i = dVal arrIn c + k := by
  intro k
  induction k with
  | zero =>
    intro i c hi h
    simp [iterHop] at h
    subst h
    exact ⟨hi, rfl⟩
  | succ k ih =>
    intro i c hi h
    rw [iterHop] at h
    cases hh : hopIdx arrIn i with
    | none => rw [hh] at h; simp at h
    | some j =>
      rw [hh] at h
      obtain ⟨hjlt, hjd⟩ := hop_dVal arrIn hc i j hi hh
      obtain ⟨hclt, hcd⟩ := ih j c hjlt h
      exact ⟨hclt, by omega⟩

/-- Members of a descendant list are in range. -/
theorem descList_lt (arrIn : List Rec) :
    ∀ f v j, j ∈ descList arrIn f v → j < arrIn.length := by
  intro f
  induction f with
  | zero => intro v j h; simp [descList] at h
  | succ f ih =>
    intro v j h
    rw [descList] at h
    obtain ⟨c, hc, hj⟩ := List.mem_flatMap.mp h
    have hclt : c < arrIn.length :=
      List.mem_range.mp (List.mem_filter.mp hc).1
    rcases List.mem_cons.mp hj with hj | hj
    · subst hj; exact hclt
    · exact ih _ j hj

/-- A member of a child's sibling group is a direct hop child of the record
carrying the identifier. -/
theorem child_hop (arrIn : List Rec) (hu : uniqueIdsB arrIn = true)
    (hl : idsLiveB arrIn = true) (c i : Nat) (hclt : c < arrIn.length)
    (hi : i ∈ childrenIdxW arrIn (recAt arrIn c).id) :
    hopIdx arrIn i = some c := by
  have himatch := (List.mem_filter.mp hi).2
  have hcid : (recAt arrIn c).id.isNullish = false := by
    have hmem := List.all_eq_true.mp hl (arrIn.getD c defaultRec) (by
      rw [List.getD_eq_getElem arrIn defaultRec hclt]
      exact List.getElem_mem hclt)
    simpa [recAt] using hmem
  have hpi : (recAt arrIn i).parent = (recAt arrIn c).id := by
    rcases (by simpa [matchW] using himatch :
        strictEq (recAt arrIn i).parent (recAt arrIn c).id = true ∨
          (recAt arrIn c).id.isNullish = true ∧ (recAt arrIn i).parent.isNullish = true)
      with hs | hs
    · exact of_decide_eq_true hs
    · rw [hs.1] at hcid; cases hcid
  rw [hopIdx, if_neg (by rw [hpi, hcid]; simp)]
  exact findIdx_of_id arrIn hu c hclt _ (by rw [hpi])

/-- Every record of a descendant list reaches the subtree root by at least
one hop. -/
theorem desc_iterHop (arrIn : List Rec) (hu : uniqueIdsB arrIn = true)
    (hl : idsLiveB arrIn = true) :
    ∀ f c j, c < arrIn.length → j ∈ descList arrIn f (recAt arrIn c).id →
      ∃ k, 1 ≤ k ∧ iterHop arrIn k j = some c := by
  intro f
  induction f with
  | zero => intro c j _ h; simp [descList] at h
  | succ f ih =>
    intro c j hclt h
    rw [descList] at h
    obtain ⟨i, hi, hj⟩ := List.mem_flatMap.mp h
    have hilt : i < arrIn.length := List.mem_range.mp (List.mem_filter.mp hi).1
    have hhop := child_hop arrIn hu hl c i hclt hi
    rcases List.mem_cons.mp hj with hj | hj
    · subst hj
      exact ⟨1, Nat.le_refl 1, by rw [iterHop, hhop]; simp [iterHop]⟩
    · obtain ⟨k, hk1, hk⟩ := ih i j hilt hj
      exact ⟨k + 1, by omega, (iterHop_last arrIn k j c).mpr ⟨i, hk, hhop⟩⟩

/-- All members of a sibling group share one chain length. -/
theorem children_dVal (arrIn : List Rec) (hu : uniqueIdsB arrIn = true)
    (hl : idsLiveB arrIn = true) (hc : chainTotalB arrIn = true) (v : Value)
    (hv : v = Value.null ∨ ∃ w, w < arrIn.length ∧ v = (recAt arrIn w).id) :
    ∃ L, ∀ c ∈ childrenIdxW arrIn v, dVal arrIn c = L := by
  rcases hv with hv | ⟨w, hwlt, hv⟩
  · refine ⟨0, ?_⟩
    intro c hc2
    subst hv
    have hmatch := (List.mem_filter.mp hc2).2
    have hclt : c < arrIn.length := List.mem_range.mp (List.mem_filter.mp hc2).1
    have hnull : (recAt arrIn c).parent.isNullish = true := by
      rcases (by simpa [matchW] using hmatch :
          strictEq (recAt arrIn c).parent Value.null = true ∨
            Value.null.isNullish = true ∧ (recAt arrIn c).parent.isNullish = true)
        with hs | hs
      · rw [of_decide_eq_true hs]; rfl
      · exact hs.2
    have hcl := dVal_chainLen arrIn hc c hclt
    match hn : arrIn.length with
    | 0 => omega
    | Nat.succ m =>
      rw [hn] at hcl
      rw [chainLen, if_pos hnull] at hcl
      simpa [dVal, hn] using hcl.symm
  · refine ⟨dVal arrIn w + 1, ?_⟩
    intro c hc2
    subst hv
    have hclt : c < arrIn.length := List.mem_range.mp (List.mem_filter.mp hc2).1
    exact (hop_dVal arrIn hc c w hclt (child_hop arrIn hu hl w c hwlt hc2)).2

/-- A record never occurs in its own descendant list. -/
theorem not_self_desc (arrIn : List Rec) (hu : uniqueIdsB arrIn = true)
    (hl : idsLiveB arrIn = true) (hc : chainTotalB arrIn = true) (f c : Nat)
    (hclt : c < arrIn.length) : c ∉ descList arrIn f (recAt arrIn c).id := by
  intro h
  obtain ⟨k, hk1, hk⟩ := desc_iterHop arrIn hu hl f c c hclt h
  have := (iterHop_dVal arrIn hc k c c hclt hk).2
  omega

/-- Descendant lists of a well-formed forest have no duplicates. -/
theorem descList_nodup (arrIn : List Rec) (hu : uniqueIdsB arrIn = true)
    (hl : idsLiveB arrIn = true) (hc : chainTotalB arrIn = true) :
    ∀ f v, ValidV arrIn v → (descList arrIn f v).Nodup := by
  intro f
  induction f with
  | zero => intro v _; simp [descList]
  | succ f ih =>
    intro v hv
    rw [descList]
    obtain ⟨L, hL⟩ := children_dVal arrIn hu hl hc v hv
    have hsub : ∀ cs : List Nat, cs.Nodup → (∀ c ∈ cs, c ∈ childrenIdxW arrIn v) →
        (cs.flatMap (fun i => i :: descList arrIn f (recAt arrIn i).id)).Nodup := by
      intro cs
      induction cs with
      | nil => intro _ _; simp
      | cons c rest ihc =>
        intro hnd hmem
        have hclt : c < arrIn.length :=
          List.mem_range.mp (List.mem_filter.mp (hmem c (by simp))).1
        rw [List.flatMap_cons]
        refine List.Nodup.append ?_ ?_ ?_
        · refine List.nodup_cons.mpr ⟨not_self_desc arrIn hu hl hc f c hclt, ?_⟩
          exact ih (recAt arrIn c).id (Or.inr ⟨c, hclt, rfl⟩)
        · exact ihc (List.nodup_cons.mp hnd).2 (fun c2 hc2 => hmem c2 (by simp [hc2]))
        · intro x hx hx2
          obtain ⟨c2, hc2, hxc2⟩ := List.mem_flatMap.mp hx2
          have hc2lt : c2 < arrIn.length :=
            List.mem_range.mp (List.mem_filter.mp (hmem c2 (by simp [hc2]))).1
          have hcc2 : c ≠ c2 := by
            intro e
            subst e
            exact (List.nodup_cons.mp hnd).1 hc2
          have hdc : dVal arrIn c = L := hL c (hmem c (by simp))
          have hdc2 : dVal arrIn c2 = L := hL c2 (hmem c2 (by simp [hc2]))
          rcases List.mem_cons.mp hx with hx1 | hx1
          · subst hx1
            rcases List.mem_cons.mp hxc2 with hx3 | hx3
            · exact hcc2 hx3
            · obtain ⟨k, hk1, hk⟩ := desc_iterHop arrIn hu hl f c2 x hc2lt hx3
              have := (iterHop_dVal arrIn hc k x c2 hclt hk).2
              omega
          · rcases List.mem_cons.mp hxc2 with hx3 | hx3
            · subst hx3
              obtain ⟨k, hk1, hk⟩ := desc_iterHop arrIn hu hl f c x hclt hx1
              have := (iterHop_dVal arrIn hc k x c hc2lt hk).2
              omega
            · have hxlt : x < arrIn.length := descList_lt arrIn f _ x hx1
              obtain ⟨k, hk1, hk⟩ := desc_iterHop arrIn hu hl f c x hclt hx1
              obtain ⟨k2, hk21, hk2⟩ := desc_iterHop arrIn hu hl f c2 x hc2lt hx3
              have e1 := (iterHop_dVal arrIn hc k x c hxlt hk).2
              have e2 := (iterHop_dVal arrIn hc k2 x c2 hxlt hk2).2
              have : k = k2 := by omega
              subst this
              rw [hk] at hk2
              cases hk2
              exact hcc2 rfl
    exact hsub (childrenIdxW arrIn v) (List.Nodup.filter _ (List.nodup_range _))
      (fun c hc2 => hc2)

/-- Chain lengths are bounded by the input length on acyclic input. -/
theorem dVal_lt (arrIn : List Rec) (hc : chainTotalB arrIn = true) (i : Nat)
    (hi : i < arrIn.length) : dVal arrIn i < arrIn.length := by
  have hcl := dVal_chainLen arrIn hc i hi
  exact chainLen_lt arrIn arrIn.length i _ hcl

/-- A hop target is the record whose sibling group the hopping record
belongs to. -/
theorem hop_mem_children (arrIn : List Rec) (i c : Nat) (hi : i < arrIn.length)
    (hh : hopIdx arrIn i = some c) : i ∈ childrenIdxW arrIn (recAt arrIn c).id := by
  rw [hopIdx] at hh
  split at hh
  · cases hh
  · rename_i hnull
    obtain ⟨hclt, hcp, _⟩ := findIdx?_charD arrIn _ c defaultRec hh
    have hcid : (recAt arrIn c).id = (recAt arrIn i).parent := of_decide_eq_true hcp
    refine List.mem_filter.mpr ⟨List.mem_range.mpr hi, ?_⟩
    rw [matchW, hcid]
    simp [strictEq]

/-- Any record reaching `c` by at least one hop lies in the descendant list
of `c`'s identifier, given enough fuel. -/
theorem iterHop_desc (arrIn : List Rec) (hc : chainTotalB arrIn = true) :
    ∀ k, 1 ≤ k → ∀ i c f, i < arrIn.length → iterHop arrIn k i = some c →
      k ≤ f → i ∈ descList arrIn f (recAt arrIn c).id := by
  intro k
  induction k with
  | zero => omega
  | succ k ih =>
    intro _ i c f hi hk hf
    match k, f with
    | 0, Nat.succ f0 =>
      rw [iterHop] at hk
      cases hh : hopIdx arrIn i with
      | none => rw [hh] at hk; simp at hk
      | some j =>
        rw [hh] at hk
        simp [iterHop] at hk
        subst hk
        rw [descList]
        exact List.mem_flatMap.mpr ⟨i, hop_mem_children arrIn i _ hi hh, by simp⟩
    | Nat.succ k0, Nat.succ f0 =>
      obtain ⟨c1, hc1, hc1hop⟩ := (iterHop_last arrIn (k0 + 1) i c).mp hk
      have hc1lt : c1 < arrIn.length :=
        (iterHop_dVal arrIn hc (k0 + 1) i c1 hi hc1).1
      have hmem := ih (by omega) i c1 f0 hi hc1 (by omega)
      rw [descList]
      exact List.mem_flatMap.mpr ⟨c1, hop_mem_children arrIn c1 c hc1lt hc1hop,
        by simp [hmem]⟩

/-- Any record whose chain ends in a root-marker record lies in the
descendant list of the root marker, given enough fuel. -/
theorem iterHop_desc_null (arrIn : List Rec) (hc : chainTotalB arrIn = true) :
    ∀ k i r f, i < arrIn.length → iterHop arrIn k i = some r →
      (recAt arrIn r).parent.isNullish = true → k + 1 ≤ f →
      i ∈ descList arrIn f Value.null := by
  intro k i r f hi hk hnull hf
  have hrlt : r < arrIn.length := (iterHop_dVal arrIn hc k i r hi hk).1
  have hrmem : r ∈ childrenIdxW arrIn Value.null := by
    refine List.mem_filter.mpr ⟨List.mem_range.mpr hrlt, ?_⟩
    rw [matchW, show Value.isNullish Value.null = true from rfl, hnull]
    simp
  match k, f with
  | 0, Nat.succ f0 =>
    simp [iterHop] at hk
    subst hk
    rw [descList]
    exact List.mem_flatMap.mpr ⟨i, hrmem, by simp⟩
  | Nat.succ k0, Nat.succ f0 =>
    rw [descList]
    refine List.mem_flatMap.mpr ⟨r, hrmem, ?_⟩
    have := iterHop_desc arrIn hc (k0 + 1) (by omega) i r f0 hi hk (by omega)
    simp [this]

/-- On well-formed input every record's hop chain ends in a record whose
parent is a root marker, within `dVal` hops. -/
theorem chain_terminal (arrIn : List Rec) (hp : parentsOkB arrIn = true)
    (hc : chainTotalB arrIn = true) :
    ∀ i, i < arrIn.length → ∃ k r, k ≤ dVal arrIn i ∧ iterHop arrIn k i = some r ∧
      (recAt arrIn r).parent.isNullish = true := by
  have main : ∀ d i, i < arrIn.length → dVal arrIn i = d →
      ∃ k r, k ≤ dVal arrIn i ∧ iterHop arrIn k i = some r ∧
        (recAt arrIn r).parent.isNullish = true := by
    intro d
    induction d using Nat.strong_induction_on with
    | _ d ih =>
      intro i hi hd
      cases hh : hopIdx arrIn i with
      | none =>
        refine ⟨0, i, by omega, by simp [iterHop], ?_⟩
        rw [hopIdx] at hh
        split at hh
        · rename_i hnull
          exact hnull
        · rename_i hnull
          exfalso
          have hpo := List.all_eq_true.mp hp (arrIn.getD i defaultRec) (by
            rw [List.getD_eq_getElem arrIn defaultRec hi]
            exact List.getElem_mem hi)
          have hpo2 : (recAt arrIn i).parent.isNullish = true ∨
              ((recAt arrIn i).parent.eqEmptyStr = false ∧
                ∃ r ∈ arrIn, strictEq r.id (recAt arrIn i).parent = true) := by
            simpa [recAt] using hpo
          rcases hpo2 with hc2 | hc2
          · exact hnull hc2
          · obtain ⟨r, hr, hrp⟩ := hc2.2
            have := List.findIdx?_eq_none_iff.mp hh r hr
            rw [hrp] at this
            cases this
      | some j =>
        obtain ⟨hjlt, hjd⟩ := hop_dVal arrIn hc i j hi hh
        obtain ⟨k, r, hkd, hk, hnull⟩ := ih (dVal arrIn j) (by omega) j hjlt rfl
        refine ⟨k + 1, r, by omega, ?_, hnull⟩
        rw [iterHop, hh]
        exact hk
  intro i hi
  exact main (dVal arrIn i) i hi rfl

/-- On a well-formed forest, the descendant list of the root marker at the
canonical fuel is a permutation of all input positions. -/
theorem descList_perm_range (arrIn : List Rec) (hu : uniqueIdsB arrIn = true)
    (hl : idsLiveB arrIn = true) (hp : parentsOkB arrIn = true)
    (hc : chainTotalB arrIn = true) :
    (descList arrIn (arrIn.length + 2) Value.null).Perm (List.range arrIn.length) := by
  refine List.perm_of_nodup_nodup_toFinset_eq
    (descList_nodup arrIn hu hl hc _ Value.null (Or.inl rfl)) (List.nodup_range _) ?_
  ext x
  simp only [List.mem_toFinset, List.mem_range]
  constructor
  · intro hx
    exact descList_lt arrIn _ Value.null x hx
  · intro hx
    obtain ⟨k, r, hkd, hk, hnull⟩ := chain_terminal arrIn hp hc x hx
    refine iterHop_desc_null arrIn hc k x r (arrIn.length + 2) hx hk hnull ?_
    have := dVal_lt arrIn hc x hx
    omega

/-- The traversal ladder for `array2SortByTree` on a well-formed forest. -/
theorem sbt_trav (arrIn : List Rec) (hu : uniqueIdsB arrIn = true)
    (hl : idsLiveB arrIn = true) (hp : parentsOkB arrIn = true)
    (hc : chainTotalB arrIn = true) :
    ∀ f, SbtTravAux arrIn f ∧ SbtTravGo arrIn f := by
  have loopOf : ∀ f, SbtTravAux arrIn f → SbtTravGo arrIn f := by
    intro f hP is
    induction is with
    | nil =>
      intro lvl pIdx k acc st acc2 st2 h hrange hnd hlt hleaf hlen
      simp [sbtGo] at h
      exact ⟨by simp [← h.1], by
        intro q hq hch
        rw [← h.2]
        exact hleaf q (by simpa [← h.1] using hq) hch, by
        intro q hq
        rw [← h.2]
        exact hq, by rw [← h.2]; exact hlen⟩
    | cons c rest ihr =>
      intro lvl pIdx k acc st acc2 st2 h hrange hnd hlt hleaf hlen
      rw [sbtGo] at h
      split at h
      · simp at h
      · rename_i accb stb hcall
        have hclt : c < arrIn.length := hrange c (by simp)
        have hshape : acc ++ (c :: rest).flatMap
            (fun c => c :: descList arrIn f (recAt arrIn c).id) =
            ((acc ++ [c]) ++ descList arrIn f (recAt arrIn c).id) ++
              rest.flatMap (fun c => c :: descList arrIn f (recAt arrIn c).id) := by
          simp [List.flatMap_cons, List.append_assoc]
        have hndc : ((acc ++ [c]) ++ descList arrIn f (recAt arrIn c).id).Nodup := by
          rw [hshape] at hnd
          exact List.Nodup.sublist (List.sublist_append_left _ _) hnd
        have hltc : ∀ x ∈ (acc ++ [c]) ++ descList arrIn f (recAt arrIn c).id,
            x < arrIn.length := by
          intro x hx
          refine hlt x ?_
          rw [hshape]
          exact List.mem_append.mpr (Or.inl hx)
        have hleafc : ∀ q ∈ acc ++ [c], childrenIdxW arrIn (recAt arrIn q).id = [] →
            (sbtWrite st c ⟨lvl, k, joinIdx pIdx k⟩).leaf.getD q false = true ∨
              (recAt arrIn q).id = (recAt arrIn c).id := by
          intro q hq hch
          rcases List.mem_append.mp hq with hq | hq
          · exact Or.inl (hleaf q hq hch)
          · simp at hq
            subst hq
            exact Or.inr rfl
        obtain ⟨hacc, hleafb, hmonob, hlenb⟩ := hP (recAt arrIn c).id (lvl + 1) (acc ++ [c])
          (some (joinIdx pIdx k)) (sbtWrite st c ⟨lvl, k, joinIdx pIdx k⟩) accb stb hcall
          (Or.inr ⟨c, hclt, rfl⟩) hndc hltc hleafc hlen
        obtain ⟨hacc2, hleaf2, hmono2, hlen2⟩ := ihr _ _ _ _ _ _ _ h
          (fun c2 hc2 => hrange c2 (by simp [hc2]))
          (by rw [hacc, ← hshape]; exact hnd)
          (by
            intro x hx
            refine hlt x ?_
            rw [hshape]
            rw [hacc] at hx
            exact hx)
          (by
            intro q hq hch
            exact hleafb q (by rw [hacc] at hq ⊢; exact hq) hch)
          hlenb
        refine ⟨?_, hleaf2, fun q hq => hmono2 q (hmonob q (by
          show st.leaf.getD q false = true
          exact hq)), hlen2⟩
        rw [hacc2, hacc, hshape]
  intro f
  induction f with
  | zero =>
    have hPz : SbtTravAux arrIn 0 := by
      intro v lvl acc pIdx st acc2 st2 h _ _ _ _ _
      simp [sbtAux] at h
    exact ⟨hPz, loopOf 0 hPz⟩
  | succ f ih =>
    have hP : SbtTravAux arrIn (f + 1) := by
      intro v lvl acc pIdx st acc2 st2 h hv hnd hlt hleaf hlen
      rw [sbtAux] at h
      have hg : ¬(arrIn.length < acc.length) := by
        have hnda : acc.Nodup := (List.nodup_append.mp hnd).1
        have h1 : acc.length = acc.toFinset.card := (List.toFinset_card_of_nodup hnda).symm
        have h2 : acc.toFinset ⊆ Finset.range arrIn.length := by
          intro x hx
          simp only [List.mem_toFinset] at hx
          exact Finset.mem_range.mpr (hlt x (List.mem_append.mpr (Or.inl hx)))
        have := Finset.card_le_card h2
        simp only [Finset.card_range] at this
        omega
      rw [if_neg hg] at h
      rw [childrenIdx_eq arrIn hp v] at h
      by_cases he : childrenIdxW arrIn v = []
      · rw [show (childrenIdxW arrIn v).isEmpty = true by simp [he, List.isEmpty_iff],
          if_pos rfl] at h
        simp only [Option.some.injEq, Prod.mk.injEq] at h
        obtain ⟨ha, hs⟩ := h
        subst ha
        subst hs
        have hdesc : descList arrIn (f + 1) v = [] := by
          rw [descList, he]
          rfl
        refine ⟨by simp [hdesc], ?_, ?_, ?_⟩
        · intro q hq hch
          show (sbtMarkLeaf arrIn acc v st).leaf.getD q false = true
          rcases hleaf q hq hch with hq2 | hq2
          · rw [sbtMarkLeaf]
            cases hfind : acc.find? (fun i => strictEq (recAt arrIn i).id v) with
            | none => exact hq2
            | some q0 =>
              show (st.leaf.set q0 true).getD q false = true
              by_cases e : q0 = q
              · subst e
                exact getD_set_self st.leaf q0 true false (by
                  by_contra hlen
                  rw [List.getD_eq_default st.leaf false (by omega)] at hq2
                  cases hq2)
              · rw [getD_set_ne st.leaf q0 q true false e]
                exact hq2
          · rw [sbtMarkLeaf]
            have hfind : acc.find? (fun i => strictEq (recAt arrIn i).id v) = some q := by
              cases hfind : acc.find? (fun i => strictEq (recAt arrIn i).id v) with
              | none =>
                exfalso
                have := List.find?_eq_none.mp hfind q hq
                rw [show strictEq (recAt arrIn q).id v = true from decide_eq_true hq2] at this
                exact this rfl
              | some q0 =>
                have hq0acc := List.mem_of_find?_eq_some hfind
                have hq0p := List.find?_some hfind
                have hq0id : (recAt arrIn q0).id = v := of_decide_eq_true hq0p
                have : q0 = q := uniqueIds_inj arrIn hu q0 q
                  (hlt q0 (List.mem_append.mpr (Or.inl hq0acc)))
                  (hlt q (List.mem_append.mpr (Or.inl hq)))
                  (by rw [hq0id, hq2])
                rw [this]
            rw [hfind]
            exact getD_set_self st.leaf q true false (by
              rw [hlen]
              exact hlt q (List.mem_append.mpr (Or.inl hq)))
        · intro q hq
          rw [sbtMarkLeaf]
          cases hfind : acc.find? (fun i => strictEq (recAt arrIn i).id v) with
          | none => exact hq
          | some q0 =>
            show (st.leaf.set q0 true).getD q false = true
            by_cases e : q0 = q
            · subst e
              exact getD_set_self st.leaf q0 true false (by
                by_contra hb
                rw [List.getD_eq_default st.leaf false (by omega)] at hq
                cases hq)
            · rw [getD_set_ne st.leaf q0 q true false e]
              exact hq
        · show (sbtMarkLeaf arrIn acc v st).leaf.length = arrIn.length
          rw [sbtMarkLeaf]
          cases hfind : acc.find? (fun i => strictEq (recAt arrIn i).id v) with
          | none => exact hlen
          | some q0 =>
            show (st.leaf.set q0 true).length = arrIn.length
            rw [List.length_set]
            exact hlen
      · rw [show (childrenIdxW arrIn v).isEmpty = false by
          simpa [List.isEmpty_iff] using he, if_neg (by simp)] at h
        have hdesc : descList arrIn (f + 1) v =
            (childrenIdxW arrIn v).flatMap
              (fun c => c :: descList arrIn f (recAt arrIn c).id) := by
          rw [descList]
        obtain ⟨hacc, hleaf2, hmono, hlen2⟩ := (loopOf f ih.1) _ _ _ _ _ _ _ _ h
          (fun c hc2 => List.mem_range.mp (List.mem_filter.mp hc2).1)
          (by rw [← hdesc]; exact hnd)
          (by rw [← hdesc]; exact hlt)
          (by
            intro q hq hch
            rcases hleaf q hq hch with hq2 | hq2
            · exact hq2
            · exfalso
              have : childrenIdxW arrIn (recAt arrIn q).id = childrenIdxW arrIn v := by
                rw [hq2]
              rw [this] at hch
              exact he hch)
          hlen
        exact ⟨by rw [hacc, hdesc], hleaf2, hmono, hlen2⟩
    exact ⟨hP, loopOf (f + 1) hP⟩

/-- Mapping every position of the input through `recAt` recovers the input. -/
theorem map_recAt_range (arrIn : List Rec) :
    (List.range arrIn.length).map (recAt arrIn) = arrIn := by
  apply List.ext_getElem
  · simp
  · intro i h1 h2
    simp [recAt, List.getD_eq_getElem?_getD, List.getElem?_eq_getElem h2]

/-- Claim C1, amended.  On every well-formed input (unique, non-nullish
identifiers; parents either root markers or resolvable, non-empty-string
references; acyclic parent chains), `array2SortByTree` with the default root
marker returns a permutation of the input list.  For arbitrary inputs the
claim fails: an orphan record is silently dropped. -/
theorem c1_amended (arrIn : List Rec) (hw : wfB arrIn = true) :
    ((array2SortByTree arrIn Value.null).1.map (recAt arrIn)).Perm arrIn := by
  have hw' := hw
  simp only [wfB, Bool.and_eq_true] at hw'
  obtain ⟨⟨⟨hu, hl⟩, hp⟩, hc⟩ := hw'
  have hperm := descList_perm_range arrIn hu hl hp hc
  have htot := (sbt_total arrIn (sbtFuel arrIn)).1 Value.null 1 [] none
    (initSbt arrIn.length) (by simp [sbtFuel]) (by simp [sbtFuel])
  obtain ⟨⟨acc2, st2⟩, hrun⟩ := Option.isSome_iff_exists.mp htot
  have hacc := ((sbt_trav arrIn hu hl hp hc (sbtFuel arrIn)).1 Value.null 1 [] none
    (initSbt arrIn.length) acc2 st2 hrun (Or.inl rfl)
    (by simpa using descList_nodup arrIn hu hl hc (sbtFuel arrIn) Value.null (Or.inl rfl))
    (by
      intro x hx
      simp only [List.nil_append] at hx
      exact List.mem_range.mp (hperm.mem_iff.mp (by simpa [sbtFuel] using hx)))
    (by intro q hq; cases hq)
    (by simp [initSbt])).1
  have hout : (array2SortByTree arrIn Value.null).1 = acc2 := by
    rw [array2SortByTree, hrun]
    rfl
  rw [hout, hacc]
  simp only [List.nil_append]
  have h1 : ((descList arrIn (sbtFuel arrIn) Value.null).map (recAt arrIn)).Perm
      ((List.range arrIn.length).map (recAt arrIn)) :=
    List.Perm.map _ (by simpa [sbtFuel] using hperm)
  rw [map_recAt_range arrIn] at h1
  exact h1

/-- Witness for C1 amended at the concrete two-level input of the spec. -/
theorem c1_amended_witness :
    wfB exBasic = true ∧
    ((array2SortByTree exBasic Value.null).1.map (recAt exBasic)).Perm exBasic :=
  ⟨by decide, c1_amended exBasic (by decide)⟩

/-- The traversal ladder for `array2SortAndWeight` on a well-formed forest. -/
theorem saw_trav (arrIn : List Rec) (hu : uniqueIdsB arrIn = true) :
    ∀ f, SawTravAux arrIn f ∧ SawTravGo arrIn f := by
  have loopOf : ∀ f, SawTravAux arrIn f → SawTravGo arrIn f := by
    intro f hP is
    induction is with
    | nil =>
      intro lvl rw sw pIdx k acc st acc2 st2 h hrange hnd hlt hleaf hlen
      simp [sawGo] at h
      exact ⟨by simp [← h.1], by
        intro q hq hch
        rw [← h.2]
        exact hleaf q (by simpa [← h.1] using hq) hch, by
        intro q hq
        rw [← h.2]
        exact hq, by rw [← h.2]; exact hlen⟩
    | cons c rest ihr =>
      intro lvl rw sw pIdx k acc st acc2 st2 h hrange hnd hlt hleaf hlen
      rw [sawGo] at h
      split at h
      · simp at h
      · rename_i accb stb hcall
        have hclt : c < arrIn.length := hrange c (by simp)
        have hshape : acc ++ (c :: rest).flatMap
            (fun c => c :: descList arrIn f (recAt arrIn c).id) =
            ((acc ++ [c]) ++ descList arrIn f (recAt arrIn c).id) ++
              rest.flatMap (fun c => c :: descList arrIn f (recAt arrIn c).id) := by
          simp [List.flatMap_cons, List.append_assoc]
        have hndc : ((acc ++ [c]) ++ descList arrIn f (recAt arrIn c).id).Nodup := by
          rw [hshape] at hnd
          exact List.Nodup.sublist (List.sublist_append_left _ _) hnd
        have hltc : ∀ x ∈ (acc ++ [c]) ++ descList arrIn f (recAt arrIn c).id,
            x < arrIn.length := by
          intro x hx
          refine hlt x ?_
          rw [hshape]
          exact List.mem_append.mpr (Or.inl hx)
        have hleafc : ∀ q ∈ acc ++ [c], childrenIdxW arrIn (recAt arrIn q).id = [] →
            (sawWrite st c ⟨sw, jsDiv (wOrZero (recAt arrIn c)) sw, rw,
              jsMul rw (jsDiv (wOrZero (recAt arrIn c)) sw), lvl, k,
              joinIdx pIdx k⟩).leaf.getD q false = true ∨
              (recAt arrIn q).id = (recAt arrIn c).id := by
          intro q hq hch
          rcases List.mem_append.mp hq with hq | hq
          · exact Or.inl (hleaf q hq hch)
          · simp at hq
            subst hq
            exact Or.inr rfl
        obtain ⟨hacc, hleafb, hmonob, hlenb⟩ := hP (recAt arrIn c).id (lvl + 1)
          (jsMul rw (jsDiv (wOrZero (recAt arrIn c)) sw)) (acc ++ [c])
          (some (joinIdx pIdx k))
          (sawWrite st c ⟨sw, jsDiv (wOrZero (recAt arrIn c)) sw, rw,
            jsMul rw (jsDiv (wOrZero (recAt arrIn c)) sw), lvl, k, joinIdx pIdx k⟩)
          accb stb hcall (Or.inr ⟨c, hclt, rfl⟩) hndc hltc hleafc hlen
        obtain ⟨hacc2, hleaf2, hmono2, hlen2⟩ := ihr _ _ _ _ _ _ _ _ _ h
          (fun c2 hc2 => hrange c2 (by simp [hc2]))
          (by rw [hacc, ← hshape]; exact hnd)
          (by
            intro x hx
            refine hlt x ?_
            rw [hshape]
            rw [hacc] at hx
            exact hx)
          (by
            intro q hq hch
            exact hleafb q (by rw [hacc] at hq ⊢; exact hq) hch)
          hlenb
        refine ⟨?_, hleaf2, fun q hq => hmono2 q (hmonob q (by
          show st.leaf.getD q false = true
          exact hq)), hlen2⟩
        rw [hacc2, hacc, hshape]
  intro f
  induction f with
  | zero =>
    have hPz : SawTravAux arrIn 0 := by
      intro v lvl rw acc pIdx st acc2 st2 h _ _ _ _ _
      simp [sawAux] at h
    exact ⟨hPz, loopOf 0 hPz⟩
  | succ f ih =>
    have hP : SawTravAux arrIn (f + 1) := by
      intro v lvl rw acc pIdx st acc2 st2 h hv hnd hlt hleaf hlen
      rw [sawAux] at h
      have hg : ¬(arrIn.length < acc.length) := by
        have hnda : acc.Nodup := (List.nodup_append.mp hnd).1
        have h1 : acc.length = acc.toFinset.card := (List.toFinset_card_of_nodup hnda).symm
        have h2 : acc.toFinset ⊆ Finset.range arrIn.length := by
          intro x hx
          simp only [List.mem_toFinset] at hx
          exact Finset.mem_range.mpr (hlt x (List.mem_append.mpr (Or.inl hx)))
        have := Finset.card_le_card h2
        simp only [Finset.card_range] at this
        omega
      rw [if_neg hg] at h
      by_cases he : childrenIdxW arrIn v = []
      · rw [show (childrenIdxW arrIn v).isEmpty = true by simp [he, List.isEmpty_iff],
          if_pos rfl] at h
        simp only [Option.some.injEq, Prod.mk.injEq] at h
        obtain ⟨ha, hs⟩ := h
        subst ha
        subst hs
        have hdesc : descList arrIn (f + 1) v = [] := by
          rw [descList, he]
          rfl
        refine ⟨by simp [hdesc], ?_, ?_, ?_⟩
        · intro q hq hch
          show (sawMarkLeaf arrIn acc v st).leaf.getD q false = true
          rcases hleaf q hq hch with hq2 | hq2
          · rw [sawMarkLeaf]
            cases hfind : acc.find? (fun i => strictEq (recAt arrIn i).id v) with
            | none => exact hq2
            | some q0 =>
              show (st.leaf.set q0 true).getD q false = true
              by_cases e : q0 = q
              · subst e
                exact getD_set_self st.leaf q0 true false (by
                  by_contra hb
                  rw [List.getD_eq_default st.leaf false (by omega)] at hq2
                  cases hq2)
              · rw [getD_set_ne st.leaf q0 q true false e]
                exact hq2
          · rw [sawMarkLeaf]
            have hfind : acc.find? (fun i => strictEq (recAt arrIn i).id v) = some q := by
              cases hfind : acc.find? (fun i => strictEq (recAt arrIn i).id v) with
              | none =>
                exfalso
                have := List.find?_eq_none.mp hfind q hq
                rw [show strictEq (recAt arrIn q).id v = true from decide_eq_true hq2] at this
                exact this rfl
              | some q0 =>
                have hq0acc := List.mem_of_find?_eq_some hfind
                have hq0p := List.find?_some hfind
                have hq0id : (recAt arrIn q0).id = v := of_decide_eq_true hq0p
                have : q0 = q := uniqueIds_inj arrIn hu q0 q
                  (hlt q0 (List.mem_append.mpr (Or.inl hq0acc)))
                  (hlt q (List.mem_append.mpr (Or.inl hq)))
                  (by rw [hq0id, hq2])
                rw [this]
            rw [hfind]
            exact getD_set_self st.leaf q true false (by
              rw [hlen]
              exact hlt q (List.mem_append.mpr (Or.inl hq)))
        · intro q hq
          rw [sawMarkLeaf]
          cases hfind : acc.find? (fun i => strictEq (recAt arrIn i).id v) with
          | none => exact hq
          | some q0 =>
            show (st.leaf.set q0 true).getD q false = true
            by_cases e : q0 = q
            · subst e
              exact getD_set_self st.leaf q0 true false (by
                by_contra hb
                rw [List.getD_eq_default st.leaf false (by omega)] at hq
                cases hq)
            · rw [getD_set_ne st.leaf q0 q true false e]
              exact hq
        · show (sawMarkLeaf arrIn acc v st).leaf.length = arrIn.length
          rw [sawMarkLeaf]
          cases hfind : acc.find? (fun i => strictEq (recAt arrIn i).id v) with
          | none => exact hlen
          | some q0 =>
            show (st.leaf.set q0 true).length = arrIn.length
            rw [List.length_set]
            exact hlen
      · rw [show (childrenIdxW arrIn v).isEmpty = false by
          simpa [List.isEmpty_iff] using he, if_neg (by simp)] at h
        have hdesc : descList arrIn (f + 1) v =
            (childrenIdxW arrIn v).flatMap
              (fun c => c :: descList arrIn f (recAt arrIn c).id) := by
          rw [descList]
        obtain ⟨hacc, hleaf2, hmono, hlen2⟩ := (loopOf f ih.1) _ _ _ _ _ _ _ _ _ _ h
          (fun c hc2 => List.mem_range.mp (List.mem_filter.mp hc2).1)
          (by rw [← hdesc]; exact hnd)
          (by rw [← hdesc]; exact hlt)
          (by
            intro q hq hch
            rcases hleaf q hq hch with hq2 | hq2
            · exact hq2
            · exfalso
              have : childrenIdxW arrIn (recAt arrIn q).id = childrenIdxW arrIn v := by
                rw [hq2]
              rw [this] at hch
              exact he hch)
          hlen
        exact ⟨by rw [hacc, hdesc], hleaf2, hmono, hlen2⟩
    exact ⟨hP, loopOf (f + 1) hP⟩

/-- `array2SortByTree` marks `$is_leaf` only on records whose identifier has
no matching children — unconditionally, for every input. -/
theorem sbt_leaf_canon (arrIn : List Rec) :
    ∀ f, SbtLeafCanonAux arrIn f ∧ SbtLeafCanonGo arrIn f := by
  have loopOf : ∀ f, SbtLeafCanonAux arrIn f → SbtLeafCanonGo arrIn f := by
    intro f hP is
    induction is with
    | nil =>
      intro lvl pIdx k acc st acc2 st2 h hst q hq
      simp [sbtGo] at h
      rw [← h.2] at hq
      exact hst q hq
    | cons c rest ihr =>
      intro lvl pIdx k acc st acc2 st2 h hst q hq
      rw [sbtGo] at h
      split at h
      · simp at h
      · rename_i accb stb hcall
        refine ihr _ _ _ _ _ _ _ h ?_ q hq
        intro q2 hq2
        refine hP _ _ _ _ _ _ _ hcall ?_ q2 hq2
        intro q3 hq3
        exact hst q3 hq3
  intro f
  induction f with
  | zero =>
    have hPz : SbtLeafCanonAux arrIn 0 := by
      intro v lvl acc pIdx st acc2 st2 h
      simp [sbtAux] at h
    exact ⟨hPz, loopOf 0 hPz⟩
  | succ f ih =>
    have hP : SbtLeafCanonAux arrIn (f + 1) := by
      intro v lvl acc pIdx st acc2 st2 h hst q hq
      rw [sbtAux] at h
      split at h
      · simp only [Option.some.injEq, Prod.mk.injEq] at h
        rw [← h.2] at hq
        exact hst q hq
      · split at h
        · rename_i hemp
          simp only [Option.some.injEq, Prod.mk.injEq] at h
          rw [← h.2] at hq
          rw [sbtMarkLeaf] at hq
          cases hfind : acc.find? (fun i => strictEq (recAt arrIn i).id v) with
          | none =>
            rw [hfind] at hq
            exact hst q hq
          | some q0 =>
            rw [hfind] at hq
            by_cases e : q0 = q
            · subst e
              have hq0p := List.find?_some hfind
              have hq0id : (recAt arrIn q0).id = v := of_decide_eq_true hq0p
              rw [hq0id]
              exact List.isEmpty_iff.mp hemp
            · rw [show (sbtSetLeaf st q0).leaf = st.leaf.set q0 true from rfl,
                getD_set_ne st.leaf q0 q true false e] at hq
              exact hst q hq
        · exact (loopOf f ih.1) _ _ _ _ _ _ _ _ h hst q hq
    exact ⟨hP, loopOf (f + 1) hP⟩

/-- `array2SortAndWeight` marks `$is_leaf` only on records whose identifier
has no matching children — unconditionally, for every input. -/
theorem saw_leaf_canon (arrIn : List Rec) :
    ∀ f, SawLeafCanonAux arrIn f ∧ SawLeafCanonGo arrIn f := by
  have loopOf : ∀ f, SawLeafCanonAux arrIn f → SawLeafCanonGo arrIn f := by
    intro f hP is
    induction is with
    | nil =>
      intro lvl rw sw pIdx k acc st acc2 st2 h hst q hq
      simp [sawGo] at h
      rw [← h.2] at hq
      exact hst q hq
    | cons c rest ihr =>
      intro lvl rw sw pIdx k acc st acc2 st2 h hst q hq
      rw [sawGo] at h
      split at h
      · simp at h
      · rename_i accb stb hcall
        refine ihr _ _ _ _ _ _ _ _ _ h ?_ q hq
        intro q2 hq2
        refine hP _ _ _ _ _ _ _ _ hcall ?_ q2 hq2
        intro q3 hq3
        exact hst q3 hq3
  intro f
  induction f with
  | zero =>
    have hPz : SawLeafCanonAux arrIn 0 := by
      intro v lvl rw acc pIdx st acc2 st2 h
      simp [sawAux] at h
    exact ⟨hPz, loopOf 0 hPz⟩
  | succ f ih =>
    have hP : SawLeafCanonAux arrIn (f + 1) := by
      intro v lvl rw acc pIdx st acc2 st2 h hst q hq
      rw [sawAux] at h
      split at h
      · simp only [Option.some.injEq, Prod.mk.injEq] at h
        rw [← h.2] at hq
        exact hst q hq
      · split at h
        · rename_i hemp
          simp only [Option.some.injEq, Prod.mk.injEq] at h
          rw [← h.2] at hq
          rw [sawMarkLeaf] at hq
          cases hfind : acc.find? (fun i => strictEq (recAt arrIn i).id v) with
          | none =>
            rw [hfind] at hq
            exact hst q hq
          | some q0 =>
            rw [hfind] at hq
            by_cases e : q0 = q
            · subst e
              have hq0p := List.find?_some hfind
              have hq0id : (recAt arrIn q0).id = v := of_decide_eq_true hq0p
              rw [hq0id]
              exact List.isEmpty_iff.mp hemp
            · rw [show (sawSetLeaf st q0).leaf = st.leaf.set q0 true from rfl,
                getD_set_ne st.leaf q0 q true false e] at hq
              exact hst q hq
        · exact (loopOf f ih.1) _ _ _ _ _ _ _ _ _ _ h hst q hq
    exact ⟨hP, loopOf (f + 1) hP⟩

/-- The `$is_leaf` store starts all-false. -/
theorem replicate_getD_false (n q : Nat) :
    (List.replicate n false).getD q false = false := by
  rcases Nat.lt_or_ge q n with h | h
  · rw [List.getD_eq_getElem _ _ (by simpa using h)]
    simp
  · rw [List.getD_eq_default _ _ (by simpa using h)]

/-- Claim C7, amended.  On well-formed input — unique, non-nullish
identifiers AND parents that are root markers or resolvable non-empty-string
references, acyclic — each of the three traversals marks `$is_leaf`
exactly on the childless records it visits: a record in the output of
`array2SortByTree`/`array2SortAndWeight` is flagged iff its identifier
matches no children, and a record visited by a completed `array2Tree` run is
flagged iff childless.  Unique + acyclic alone (the claim's hypothesis) is
not enough: see the counterexample. -/
theorem c7_amended (arrIn : List Rec) (hw : wfB arrIn = true) :
    (∀ q ∈ (array2SortByTree arrIn Value.null).1,
      (childrenIdxBy arrIn (recAt arrIn q).id = [] ↔
        (array2SortByTree arrIn Value.null).2.leaf.getD q false = true)) ∧
    (∀ q ∈ (array2SortAndWeight arrIn Value.null).1,
      (childrenIdxW arrIn (recAt arrIn q).id = [] ↔
        (array2SortAndWeight arrIn Value.null).2.leaf.getD q false = true)) ∧
    (∀ f r st2, array2Tree arrIn f Value.null = some (r, st2) →
      ∀ i, i < arrIn.length → (st2.kids.getD i none).isSome = true →
        (childrenIdxBy arrIn (recAt arrIn i).id = [] ↔
          st2.leaf.getD i false = true)) := by
  have hw' := hw
  simp only [wfB, Bool.and_eq_true] at hw'
  obtain ⟨⟨⟨hu, hl⟩, hp⟩, hc⟩ := hw'
  have hperm := descList_perm_range arrIn hu hl hp hc
  refine ⟨?_, ?_, ?_⟩
  · -- array2SortByTree
    have htot := (sbt_total arrIn (sbtFuel arrIn)).1 Value.null 1 [] none
      (initSbt arrIn.length) (by simp [sbtFuel]) (by simp [sbtFuel])
    obtain ⟨⟨acc2, st2⟩, hrun⟩ := Option.isSome_iff_exists.mp htot
    obtain ⟨hacc, hleafdone, hmono, hlen⟩ :=
      (sbt_trav arrIn hu hl hp hc (sbtFuel arrIn)).1 Value.null 1 [] none
        (initSbt arrIn.length) acc2 st2 hrun (Or.inl rfl)
        (by simpa using descList_nodup arrIn hu hl hc (sbtFuel arrIn) Value.null (Or.inl rfl))
        (by
          intro x hx
          simp only [List.nil_append] at hx
          exact List.mem_range.mp (hperm.mem_iff.mp (by simpa [sbtFuel] using hx)))
        (by intro q hq; cases hq)
        (by simp [initSbt])
    have hcanon := (sbt_leaf_canon arrIn (sbtFuel arrIn)).1 Value.null 1 [] none
      (initSbt arrIn.length) acc2 st2 hrun
      (by
        intro q hq
        rw [show (initSbt arrIn.length).leaf = List.replicate arrIn.length false from rfl,
          replicate_getD_false] at hq
        cases hq)
    have hout1 : (array2SortByTree arrIn Value.null).1 = acc2 := by
      rw [array2SortByTree, hrun]
      rfl
    have hout2 : (array2SortByTree arrIn Value.null).2 = st2 := by
      rw [array2SortByTree, hrun]
      rfl
    intro q hq
    rw [hout1] at hq
    rw [hout2]
    constructor
    · intro hch
      refine hleafdone q hq ?_
      rw [← childrenIdx_eq arrIn hp]
      exact hch
    · intro hflag
      exact hcanon q hflag
  · -- array2SortAndWeight
    have htot := (saw_total arrIn (sbtFuel arrIn)).1 Value.null 1 (JsNum.num 1) [] none
      (initSaw arrIn.length) (by simp [sbtFuel]) (by simp [sbtFuel])
    obtain ⟨⟨acc2, st2⟩, hrun⟩ := Option.isSome_iff_exists.mp htot
    obtain ⟨hacc, hleafdone, hmono, hlen⟩ :=
      (saw_trav arrIn hu (sbtFuel arrIn)).1 Value.null 1 (JsNum.num 1) [] none
        (initSaw arrIn.length) acc2 st2 hrun (Or.inl rfl)
        (by simpa using descList_nodup arrIn hu hl hc (sbtFuel arrIn) Value.null (Or.inl rfl))
        (by
          intro x hx
          simp only [List.nil_append] at hx
          exact List.mem_range.mp (hperm.mem_iff.mp (by simpa [sbtFuel] using hx)))
        (by intro q hq; cases hq)
        (by simp [initSaw])
    have hcanon := (saw_leaf_canon arrIn (sbtFuel arrIn)).1 Value.null 1 (JsNum.num 1) []
      none (initSaw arrIn.length) acc2 st2 hrun
      (by
        intro q hq
        rw [show (initSaw arrIn.length).leaf = List.replicate arrIn.length false from rfl,
          replicate_getD_false] at hq
        cases hq)
    have hout1 : (array2SortAndWeight arrIn Value.null).1 = acc2 := by
      rw [array2SortAndWeight, hrun]
      rfl
    have hout2 : (array2SortAndWeight arrIn Value.null).2 = st2 := by
      rw [array2SortAndWeight, hrun]
      rfl
    intro q hq
    rw [hout1] at hq
    rw [hout2]
    exact ⟨fun hch => hleafdone q hq hch, fun hflag => hcanon q hflag⟩
  · -- array2Tree
    intro f r st2 hrun i hi hassigned
    have hstep := (a2t_step arrIn f).1 Value.null 1 (initA2t arrIn.length) r st2 hrun
      (by simp [initA2t]) (by simp [initA2t])
      (by
        refine ⟨?_, ?_, ?_, ?_⟩
        · intro i l hl2
          simp [initA2t, List.getD] at hl2
        · intro i hl2
          simp [initA2t, List.getD] at hl2
        · intro i l hl2
          simp [initA2t, List.getD] at hl2
        · intro _ i _ hl2
          simp [initA2t, List.getD] at hl2)
    obtain ⟨hlen, hinv, hkm, hlm, hsome, hnone⟩ := hstep
    obtain ⟨l, hl2⟩ := Option.isSome_iff_exists.mp hassigned
    constructor
    · intro hch
      refine hinv.2.2.2 hu i hi ?_
      rw [hl2, hinv.1 i l hl2, hch]
    · intro hflag
      exact hinv.2.1 i hflag

/-- Witness for C7 amended at the concrete two-level input of the spec. -/
theorem c7_amended_witness :
    wfB exBasic = true ∧
    ((∀ q ∈ (array2SortByTree exBasic Value.null).1,
      (childrenIdxBy exBasic (recAt exBasic q).id = [] ↔
        (array2SortByTree exBasic Value.null).2.leaf.getD q false = true)) ∧
    (∀ q ∈ (array2SortAndWeight exBasic Value.null).1,
      (childrenIdxW exBasic (recAt exBasic q).id = [] ↔
        (array2SortAndWeight exBasic Value.null).2.leaf.getD q false = true)) ∧
    (∀ f r st2, array2Tree exBasic f Value.null = some (r, st2) →
      ∀ i, i < exBasic.length → (st2.kids.getD i none).isSome = true →
        (childrenIdxBy exBasic (recAt exBasic i).id = [] ↔
          st2.leaf.getD i false = true))) :=
  ⟨by decide, c7_amended exBasic (by decide)⟩

/-- On inputs with live identifiers, the root marker has depth `0`. -/
theorem dvv_null (arrIn : List Rec) (hl : idsLiveB arrIn = true) :
    dvv arrIn Value.null = 0 := by
  rw [dvv]
  cases hfind : arrIn.findIdx? (fun r => strictEq r.id Value.null) with
  | none => rfl
  | some w =>
    exfalso
    obtain ⟨hwlt, hwp, _⟩ := findIdx?_charD arrIn _ w defaultRec hfind
    have hwid : (arrIn.getD w defaultRec).id = Value.null := of_decide_eq_true hwp
    have hmem := List.all_eq_true.mp hl (arrIn.getD w defaultRec) (by
      rw [List.getD_eq_getElem arrIn defaultRec hwlt]
      exact List.getElem_mem hwlt)
    rw [hwid] at hmem
    simp [Value.isNullish] at hmem

/-- Under unique identifiers, the depth of a record's identifier is one past
its own chain length. -/
theorem dvv_id (arrIn : List Rec) (hu : uniqueIdsB arrIn = true) (w : Nat)
    (hwlt : w < arrIn.length) :
    dvv arrIn (recAt arrIn w).id = dVal arrIn w + 1 := by
  rw [dvv, findIdx_of_id arrIn hu w hwlt _ rfl]

/-- Every child of a valid `startWith` value sits at that value's depth. -/
theorem children_dVal_dvv (arrIn : List Rec) (hu : uniqueIdsB arrIn = true)
    (hl : idsLiveB arrIn = true) (hc : chainTotalB arrIn = true) (v : Value)
    (hv : ValidV arrIn v) :
    ∀ c ∈ childrenIdxW arrIn v, dVal arrIn c = dvv arrIn v := by
  intro c hcmem
  have hclt : c < arrIn.length := List.mem_range.mp (List.mem_filter.mp hcmem).1
  rcases hv with hv | ⟨w, hwlt, hv⟩
  · subst hv
    rw [dvv_null arrIn hl]
    have hmatch := (List.mem_filter.mp hcmem).2
    have hnull : (recAt arrIn c).parent.isNullish = true := by
      rcases (by simpa [matchW, show Value.isNullish Value.null = true from rfl]
          using hmatch :
          strictEq (recAt arrIn c).parent Value.null = true ∨
            (recAt arrIn c).parent.isNullish = true) with h2 | h2
      · have h3 : (recAt arrIn c).parent = Value.null := of_decide_eq_true h2
        rw [h3]
        rfl
      · exact h2
    have hchain : chainLen arrIn arrIn.length c = some 0 := by
      cases harr : arrIn.length with
      | zero => omega
      | succ m =>
        rw [chainLen, if_pos hnull]
    rw [dVal, hchain]
    rfl
  · subst hv
    rw [dvv_id arrIn hu w hwlt]
    have hh := child_hop arrIn hu hl w c hwlt hcmem
    exact (hop_dVal arrIn hc c w hclt hh).2

/-- On a well-formed forest `array2Tree` terminates: fuel `length + 2`
suffices (the source has no guard, so this needs acyclicity, unlike C9). -/
theorem a2t_total (arrIn : List Rec) (hu : uniqueIdsB arrIn = true)
    (hl : idsLiveB arrIn = true) (hp : parentsOkB arrIn = true)
    (hc : chainTotalB arrIn = true) :
    ∀ f, A2tTotalAux arrIn f ∧ A2tTotalGo arrIn f := by
  have hdvv_le : ∀ v, dvv arrIn v ≤ arrIn.length := by
    intro v
    rw [dvv]
    cases hfind : arrIn.findIdx? (fun r => strictEq r.id v) with
    | none => exact Nat.zero_le _
    | some w =>
      have hwlt := (findIdx?_charD arrIn _ w defaultRec hfind).1
      have := dVal_lt arrIn hc w hwlt
      show dVal arrIn w + 1 ≤ arrIn.length
      omega
  have loopOf : ∀ f, A2tTotalAux arrIn f → A2tTotalGo arrIn f := by
    intro f hP is
    induction is with
    | nil =>
      intro lvl st hmem
      simp [a2tGo]
    | cons c rest ihr =>
      intro lvl st hmem
      rw [a2tGo]
      have hclt := (hmem c (by simp)).1
      have hcall := hP (recAt arrIn c).id (lvl + 1) (a2tSetLvl st c lvl)
        (Or.inr ⟨c, hclt, rfl⟩)
        (by
          rw [dvv_id arrIn hu c hclt]
          have := (hmem c (by simp)).2
          omega)
      cases hres : a2tAux arrIn f (recAt arrIn c).id (lvl + 1) (a2tSetLvl st c lvl) with
      | none =>
        rw [hres] at hcall
        cases hcall
      | some pr =>
        obtain ⟨sub, stb⟩ := pr
        exact ihr lvl (a2tSetKids stb c (sub.getD []))
          (fun c2 hc2 => hmem c2 (by simp [hc2]))
  intro f
  induction f with
  | zero =>
    have hPz : A2tTotalAux arrIn 0 := by
      intro v lvl st hv hb
      exfalso
      have := hdvv_le v
      omega
    exact ⟨hPz, loopOf 0 hPz⟩
  | succ f ih =>
    have hP : A2tTotalAux arrIn (f + 1) := by
      intro v lvl st hv hb
      rw [a2tAux]
      by_cases he : childrenIdxBy arrIn v = []
      · rw [show (childrenIdxBy arrIn v).isEmpty = true by simp [he, List.isEmpty_iff],
          if_pos rfl]
        cases hfind : arrIn.findIdx? (fun r => strictEq r.id v) <;> simp [hfind]
      · rw [show (childrenIdxBy arrIn v).isEmpty = false by
          simpa [List.isEmpty_iff] using he, if_neg (by simp)]
        have hgo := (loopOf f ih.1) (childrenIdxBy arrIn v) lvl st
          (by
            intro c hcmem
            rw [childrenIdx_eq arrIn hp] at hcmem
            have hclt : c < arrIn.length :=
              List.mem_range.mp (List.mem_filter.mp hcmem).1
            have := children_dVal_dvv arrIn hu hl hc v hv c hcmem
            refine ⟨hclt, ?_⟩
            omega)
        cases hres : a2tGo arrIn (a2tAux arrIn f) lvl (childrenIdxBy arrIn v) st with
        | none =>
          rw [hres] at hgo
          cases hgo
        | some st2 =>
          rfl
    exact ⟨hP, loopOf (f + 1) hP⟩

/-- The payload records flattened out of a realized `array2Tree` forest are
exactly the records along the descendant lists: `tree2Array` visits the tree
in pre-order and copies each node's record once. -/
theorem t2a_realize_payload (arrIn : List Rec) (st : A2tState)
    (hp : parentsOkB arrIn = true)
    (hI1 : ∀ i l, st.kids.getD i none = some l →
      l = childrenIdxBy arrIn (recAt arrIn i).id)
    (hI3 : ∀ i l, st.kids.getD i none = some l →
      ∀ j ∈ l, (st.kids.getD j none).isSome = true) :
    ∀ rf idxs pv lvl myId, (∀ i ∈ idxs, (st.kids.getD i none).isSome = true) →
      (tree2Array (realizeForest arrIn st rf idxs) pv lvl myId).1.map FlatNode.rcd
        = (idxs.flatMap (fun i => i :: descList arrIn rf (recAt arrIn i).id)).map
            (recAt arrIn) := by
  intro rf
  induction rf with
  | zero =>
    intro idxs
    induction idxs with
    | nil =>
      intro pv lvl myId h
      simp [realizeForest, tree2Array]
    | cons i rest ihr =>
      intro pv lvl myId hassigned
      obtain ⟨l, hl⟩ := Option.isSome_iff_exists.mp (hassigned i (by simp))
      rw [realizeForest, List.map_cons, realizeT, hl, tree2Array,
        show (some l).isSome = true from rfl, if_pos rfl]
      have htail := ihr pv lvl (tree2Array [] (some (myId + 1)) (lvl + 1) (myId + 1)).2
        (fun j hj => hassigned j (by simp [hj]))
      rw [realizeForest] at htail
      have hnil : (tree2Array ([] : List TNode) (some (myId + 1)) (lvl + 1)
          (myId + 1)).1 = [] := by
        simp [tree2Array]
      simp only [List.map_cons, List.map_append, List.flatMap_cons, List.nil_append,
        hnil, List.map_nil]
      rw [htail]
      simp [show ∀ v, descList arrIn 0 v = [] from fun v => rfl]
  | succ rf ihf =>
    intro idxs
    induction idxs with
    | nil =>
      intro pv lvl myId h
      simp [realizeForest, tree2Array]
    | cons i rest ihr =>
      intro pv lvl myId hassigned
      obtain ⟨l, hl⟩ := Option.isSome_iff_exists.mp (hassigned i (by simp))
      rw [realizeForest, List.map_cons, realizeT, hl, tree2Array,
        show (some l).isSome = true from rfl, if_pos rfl]
      have hsub := ihf l (some (myId + 1)) (lvl + 1) (myId + 1) (hI3 i l hl)
      rw [realizeForest] at hsub
      have hdesc : descList arrIn (rf + 1) (recAt arrIn i).id =
          l.flatMap (fun c => c :: descList arrIn rf (recAt arrIn c).id) := by
        rw [descList, ← childrenIdx_eq arrIn hp, ← hI1 i l hl]
      have htail := ihr pv lvl
        (tree2Array (l.map (realizeT arrIn st rf)) (some (myId + 1)) (lvl + 1)
          (myId + 1)).2
        (fun j hj => hassigned j (by simp [hj]))
      rw [realizeForest] at htail
      simp only [Option.getD_some, List.map_cons, List.map_append, List.flatMap_cons]
      rw [hdesc, hsub, htail]
      simp

/-- Claim C6, counterexample.  `exOrphan` has unique identifiers and acyclic
parent references, yet `array2Tree` followed by `tree2Array` yields the
empty list — the orphan record is dropped, so the round trip does not
recover the input. -/
theorem c6_counterexample :
    uniqueIdsB exOrphan = true ∧ chainTotalB exOrphan = true ∧
    array2Tree exOrphan 3 Value.null = some (none, initA2t 1) ∧
    ¬ ((tree2Array (realizeForest exOrphan (initA2t 1) 3 []) none 1 0).1.map
        FlatNode.rcd).Perm exOrphan := by
  refine ⟨by decide, by decide, by decide, ?_⟩
  intro hperm
  have hlen := hperm.length_eq
  rw [show realizeForest exOrphan (initA2t 1) 3 [] = [] from rfl] at hlen
  rw [show (tree2Array ([] : List TNode) none 1 0).1 = [] by simp [tree2Array]] at hlen
  simp [exOrphan] at hlen

/-- Claim C6, amended.  On a well-formed input (unique non-nullish
identifiers, resolvable non-falsy parent references, acyclic), `array2Tree`
with the default root marker completes at fuel `length + 2`, and flattening
the realized tree with `tree2Array` yields one record per input record: the
payload records are a permutation of the input (the `$`-metadata and the
regenerated `$id`/`$parent_id` fields live outside the payload).  With
unique identifiers and acyclicity alone — the claim's hypothesis — this
fails: an orphan record is dropped (`c6_counterexample`). -/
theorem c6_roundtrip (arrIn : List Rec) (hw : wfB arrIn = true) :
    ∃ r st2, array2Tree arrIn (arrIn.length + 2) Value.null = some (r, st2) ∧
      ((tree2Array (realizeForest arrIn st2 (arrIn.length + 1) (r.getD []))
          none 1 0).1.map FlatNode.rcd).Perm arrIn := by
  have hw' := hw
  simp only [wfB, Bool.and_eq_true] at hw'
  obtain ⟨⟨⟨hu, hl⟩, hp⟩, hc⟩ := hw'
  have hperm := descList_perm_range arrIn hu hl hp hc
  have htot := (a2t_total arrIn hu hl hp hc (arrIn.length + 2)).1 Value.null 1
    (initA2t arrIn.length) (Or.inl rfl) (by rw [dvv_null arrIn hl]; omega)
  obtain ⟨⟨r, st2⟩, hrun⟩ := Option.isSome_iff_exists.mp htot
  refine ⟨r, st2, hrun, ?_⟩
  have hstep := (a2t_step arrIn (arrIn.length + 2)).1 Value.null 1 (initA2t arrIn.length)
    r st2 hrun (by simp [initA2t]) (by simp [initA2t])
    (by
      refine ⟨?_, ?_, ?_, ?_⟩
      · intro i l hl2
        simp [initA2t, List.getD] at hl2
      · intro i hl2
        simp [initA2t, List.getD] at hl2
      · intro i l hl2
        simp [initA2t, List.getD] at hl2
      · intro _ i _ hl2
        simp [initA2t, List.getD] at hl2)
  obtain ⟨hlen, hinv, hkm, hlm, hsome, hnone⟩ := hstep
  cases r with
  | none =>
    have hcb : childrenIdxBy arrIn Value.null = [] := (hnone rfl).1
    have hcw : childrenIdxW arrIn Value.null = [] := by
      rw [← childrenIdx_eq arrIn hp]
      exact hcb
    have hdn : descList arrIn (arrIn.length + 2) Value.null = [] := by
      rw [descList, hcw]
      rfl
    rw [hdn] at hperm
    have hn0 : arrIn.length = 0 := by
      have := List.perm_nil.mp hperm.symm
      exact List.range_eq_nil.mp this
    have harr : arrIn = [] := List.length_eq_zero.mp hn0
    rw [show (none : Option (List Nat)).getD [] = [] from rfl,
      show realizeForest arrIn st2 (arrIn.length + 1) [] = [] from rfl,
      show (tree2Array ([] : List TNode) none 1 0).1 = [] by simp [tree2Array], harr]
    rfl
  | some idxs =>
    obtain ⟨hidxs, hne, hassigned⟩ := hsome idxs rfl
    have hpay := t2a_realize_payload arrIn st2 hp hinv.1 hinv.2.2.1
      (arrIn.length + 1) idxs none 1 0 hassigned
    rw [show (some idxs).getD [] = idxs from rfl, hpay]
    have hflat : idxs.flatMap
        (fun i => i :: descList arrIn (arrIn.length + 1) (recAt arrIn i).id) =
        descList arrIn (arrIn.length + 2) Value.null := by
      rw [descList, ← childrenIdx_eq arrIn hp, ← hidxs]
    rw [hflat]
    have h1 : ((descList arrIn (arrIn.length + 2) Value.null).map (recAt arrIn)).Perm
        ((List.range arrIn.length).map (recAt arrIn)) := List.Perm.map _ hperm
    rw [map_recAt_range arrIn] at h1
    exact h1

/-- Witness for C6 amended at the concrete two-level input of the spec. -/
theorem c6_witness :
    wfB exBasic = true ∧
    (∃ r st2, array2Tree exBasic (exBasic.length + 2) Value.null = some (r, st2) ∧
      ((tree2Array (realizeForest exBasic st2 (exBasic.length + 1) (r.getD []))
          none 1 0).1.map FlatNode.rcd).Perm exBasic) :=
  ⟨by decide, c6_roundtrip exBasic (by decide)⟩
